import Mathlib

/-!
# osbuild-composer: the in-memory job queue (`internal/jobqueue/testjobqueue`)

A shallow embedding of `testjobqueue.go`.  The queue is a record of three Go
maps; every operation is a pure function from the state before the call to the
returned value and the state after the call.

Modelling conventions

* `uuid.UUID` is a natural number, `uuid.Nil` is `0`.  The id drawn by
  `uuid.New()` is an argument of `Enqueue`.
* `time.Time` is a natural number, the zero instant (`IsZero`) is `0`.  The
  instant read by `time.Now()` is an argument of the operation.
* `json.RawMessage` is a list of bytes; a nil slice is `none`.
* `json.Marshal` is performed by the caller of the model: the operation takes
  its outcome, `none` when marshalling fails.  `json.Unmarshal` into the
  destination handed to `Dequeue` is a predicate on the stored bytes.
* a Go map is a total function; `Function.update` is an assignment `m[k] = v`.
  A missing key of `pending` reads as the nil slice, which `len`, `append`,
  slicing and `range` do not distinguish from an empty one, so `pending` maps
  to plain lists.  `dependants` keeps the difference between a missing key
  (`none`) and a present one.
* a call that fails returns the zero values (`uuid.Nil`, a nil slice) with the
  error; the model returns the error alone.
* the field `Type` of `job` is `JobType` here (`Type` is reserved).
* `jobs` holds pointers: a write through `j` is a write to the entry of the
  map that `j` was read from.
-/

namespace testjobqueue

abbrev UUID := Nat

abbrev Time := Nat

abbrev RawMessage := List Nat

deriving instance DecidableEq for Except

/-- The errors the queue can hand back, and the nil-pointer panic. -/
inductive Error where
  | ErrNotExist
  | ErrNotRunning
  | marshalError
  | unmarshalError
  | noJobAvailable
  | nilDereference
  deriving DecidableEq, Repr

/-- The `job` record of `testjobqueue.go`. -/
structure job where
  Id : UUID
  JobType : String
  Args : RawMessage
  Dependencies : List UUID
  Result : Option RawMessage
  QueuedAt : Time
  StartedAt : Time
  FinishedAt : Time
  Canceled : Bool
  deriving DecidableEq, Repr

/-- The `testJobQueue` record of `testjobqueue.go`. -/
structure testJobQueue where
  jobs : UUID → Option job
  pending : String → List UUID
  dependants : UUID → Option (List UUID)

/-- The constructor `New()`: three empty maps. -/
def New : testJobQueue :=
  { jobs := fun _ => none, pending := fun _ => [], dependants := fun _ => none }

/-- The loop of `countFinishedJobs`, entered with the counter at `n`. -/
def countFinishedJobsFrom (q : testJobQueue) (n : Nat) : List UUID → Except Error Nat
  | [] => .ok n
  | id :: ids =>
    match q.jobs id with
    | none => .error Error.ErrNotExist
    | some j => countFinishedJobsFrom q (if j.Result ≠ none then n + 1 else n) ids

/-- The number of finished jobs in `ids`, or `ErrNotExist`. -/
def countFinishedJobs (q : testJobQueue) (ids : List UUID) : Except Error Nat :=
  countFinishedJobsFrom q 0 ids

/-- The loop `for _, id := range j.Dependencies` of `Enqueue`. -/
def addDependant (newId : UUID) (m : UUID → Option (List UUID)) :
    List UUID → UUID → Option (List UUID)
  | [] => m
  | id :: ids => addDependant newId (Function.update m id (some ((m id).getD [] ++ [newId]))) ids

/-- The method `Enqueue`. -/
def Enqueue (q : testJobQueue) (newId : UUID) (now : Time) (jobType : String)
    (args : Option RawMessage) (dependencies : List UUID) :
    Except Error UUID × testJobQueue :=
  match args with
  | none => (.error Error.marshalError, q)
  | some a =>
    let j : job :=
      { Id := newId, JobType := jobType, Args := a, Dependencies := dependencies,
        Result := none, QueuedAt := now, StartedAt := 0, FinishedAt := 0, Canceled := false }
    let q1 : testJobQueue := { q with jobs := Function.update q.jobs newId (some j) }
    match countFinishedJobs q1 j.Dependencies with
    | .error e => (.error e, q1)
    | .ok finished =>
      if finished = j.Dependencies.length then
        (.ok j.Id,
          { q1 with pending := Function.update q1.pending j.JobType (q1.pending j.JobType ++ [j.Id]) })
      else
        (.ok j.Id, { q1 with dependants := addDependant j.Id q1.dependants j.Dependencies })

/-- The method `Dequeue`; the context argument is not read by the code. -/
def Dequeue (q : testJobQueue) (now : Time) (unmarshal : RawMessage → Bool) :
    List String → Except Error (UUID × List UUID) × testJobQueue
  | [] => (.error Error.noJobAvailable, q)
  | t :: ts =>
    match q.pending t with
    | [] => Dequeue q now unmarshal ts
    | id :: rest =>
      let q1 : testJobQueue := { q with pending := Function.update q.pending t rest }
      match q1.jobs id with
      | none => (.error Error.nilDereference, q1)
      | some j =>
        if unmarshal j.Args then
          (.ok (j.Id, j.Dependencies),
            { q1 with jobs := Function.update q1.jobs id (some { j with StartedAt := now }) })
        else
          (.error Error.unmarshalError, q1)

/-- The loop `for _, depid := range q.dependants[id]` of `FinishJob`. -/
def promoteDependants (q : testJobQueue) : List UUID → Option Error × testJobQueue
  | [] => (none, q)
  | depid :: rest =>
    match q.jobs depid with
    | none => (some Error.nilDereference, q)
    | some dep =>
      match countFinishedJobs q dep.Dependencies with
      | .error e => (some e, q)
      | .ok n =>
        if n = dep.Dependencies.length then
          promoteDependants
            { q with pending := Function.update q.pending dep.JobType (q.pending dep.JobType ++ [dep.Id]) }
            rest
        else
          promoteDependants q rest

/-- The method `FinishJob`; `none` is the nil error. -/
def FinishJob (q : testJobQueue) (id : UUID) (now : Time) (result : Option RawMessage) :
    Option Error × testJobQueue :=
  match q.jobs id with
  | none => (some Error.ErrNotExist, q)
  | some j =>
    if j.StartedAt = 0 ∨ j.FinishedAt ≠ 0 then
      (some Error.ErrNotRunning, q)
    else
      match result with
      | none =>
        (some Error.marshalError,
          { q with jobs := Function.update q.jobs id (some { j with Result := none }) })
      | some r =>
        let j1 : job := { j with Result := some r, FinishedAt := now }
        let q1 : testJobQueue := { q with jobs := Function.update q.jobs id (some j1) }
        match promoteDependants q1 ((q1.dependants id).getD []) with
        | (some e, q2) => (some e, q2)
        | (none, q2) => (none, { q2 with dependants := Function.update q2.dependants id none })

/-- The method `CancelJob`. -/
def CancelJob (q : testJobQueue) (id : UUID) : Option Error × testJobQueue :=
  match q.jobs id with
  | none => (some Error.ErrNotExist, q)
  | some j => (none, { q with jobs := Function.update q.jobs id (some { j with Canceled := true }) })

/-! ## Calls and runs of the queue -/

/-- One call of the queue, with everything the call reads from outside the
queue: the id drawn by `uuid.New()`, the instant read by `time.Now()`, the
outcome of `json.Marshal` and the behaviour of `json.Unmarshal`. -/
inductive Op where
  | enqueue (newId : UUID) (now : Time) (jobType : String) (args : Option RawMessage)
      (dependencies : List UUID)
  | dequeue (now : Time) (unmarshal : RawMessage → Bool) (jobTypes : List String)
  | finish (id : UUID) (now : Time) (result : Option RawMessage)
  | cancel (id : UUID)

/-- The state of the queue after the call. -/
def Op.apply (q : testJobQueue) : Op → testJobQueue
  | .enqueue newId now jobType args deps => (Enqueue q newId now jobType args deps).2
  | .dequeue now unmarshal jobTypes => (Dequeue q now unmarshal jobTypes).2
  | .finish id now result => (FinishJob q id now result).2
  | .cancel id => (CancelJob q id).2

/-- The id a call hands out when it is a successful `Dequeue`. -/
def Op.dequeuedId (q : testJobQueue) : Op → Option UUID
  | .dequeue now unmarshal jobTypes =>
    match (Dequeue q now unmarshal jobTypes).1 with
    | .ok (id, _) => some id
    | .error _ => none
  | _ => none

/-- The instant the call reads from the clock, if it reads it. -/
def Op.now : Op → Option Time
  | .enqueue _ now _ _ _ => some now
  | .dequeue now _ _ => some now
  | .finish _ now _ => some now
  | .cancel _ => none

/-- What the environment guarantees of a call made in state `q`: `uuid.New()`
draws an id that no job of the queue has, and `time.Now()` is never the zero
instant. -/
def Op.admissible (q : testJobQueue) : Op → Prop
  | .enqueue newId now _ _ _ => q.jobs newId = none ∧ now ≠ 0
  | .dequeue now _ _ => now ≠ 0
  | .finish _ now _ => now ≠ 0
  | .cancel _ => True

instance (q : testJobQueue) (op : Op) : Decidable (op.admissible q) := by
  cases op <;> unfold Op.admissible <;> infer_instance

/-- The state after a sequence of calls. -/
def run (q : testJobQueue) : List Op → testJobQueue
  | [] => q
  | op :: ops => run (op.apply q) ops

/-- Every call of the sequence is admissible in the state it is made in. -/
def admissibleRun (q : testJobQueue) : List Op → Prop
  | [] => True
  | op :: ops => op.admissible q ∧ admissibleRun (op.apply q) ops

instance admissibleRunDecidable (q : testJobQueue) (ops : List Op) :
    Decidable (admissibleRun q ops) := by
  induction ops generalizing q with
  | nil => unfold admissibleRun; infer_instance
  | cons op ops ih => unfold admissibleRun; exact instDecidableAnd

/-- The ids handed out by the successful `Dequeue` calls of a sequence of
calls, in call order. -/
def dequeuedIds (q : testJobQueue) : List Op → List UUID
  | [] => []
  | op :: ops => (op.dequeuedId q).toList ++ dequeuedIds (op.apply q) ops

/-- The states the queue can be in: those reached from `New()` by admissible
calls. -/
inductive Reachable : testJobQueue → Prop where
  | init : Reachable New
  | step {q : testJobQueue} (op : Op) : Reachable q → op.admissible q → Reachable (op.apply q)

/-- The job `d` has finished: it is a job of the queue with a result. -/
def finished (q : testJobQueue) (d : UUID) : Prop :=
  ∃ jd, q.jobs d = some jd ∧ jd.Result ≠ none

instance (q : testJobQueue) (d : UUID) : Decidable (finished q d) :=
  match h : q.jobs d with
  | none => isFalse (by rintro ⟨jd, h1, _⟩; rw [h] at h1; cases h1)
  | some j =>
    if hr : j.Result ≠ none then isTrue ⟨j, h, hr⟩
    else isFalse (by rintro ⟨jd, h1, h2⟩; rw [h] at h1; cases h1; exact hr h2)

/-! ## Intermediate states of the calls -/

/-- The record `Enqueue` builds for the new job. -/
def enqueuedJob (newId : UUID) (now : Time) (jobType : String) (a : RawMessage)
    (deps : List UUID) : job :=
  { Id := newId, JobType := jobType, Args := a, Dependencies := deps, Result := none,
    QueuedAt := now, StartedAt := 0, FinishedAt := 0, Canceled := false }

/-- The queue once `Enqueue` has stored the new job. -/
def storedJob (q : testJobQueue) (newId : UUID) (now : Time) (jobType : String)
    (a : RawMessage) (deps : List UUID) : testJobQueue :=
  { q with jobs := Function.update q.jobs newId (some (enqueuedJob newId now jobType a deps)) }

/-- The record `FinishJob` leaves for a job it has finished. -/
def finishedJob (j : job) (now : Time) (r : RawMessage) : job :=
  { j with Result := some r, FinishedAt := now }

/-- The queue once `FinishJob` has written the result and the finishing time. -/
def recordedFinish (q : testJobQueue) (id : UUID) (j : job) (now : Time) (r : RawMessage) :
    testJobQueue :=
  { q with jobs := Function.update q.jobs id (some (finishedJob j now r)) }

/-! ## The invariant -/

/-- The invariant of the queue: the indices only name jobs of the queue, a job
in a ready list has the type of that list and only finished dependencies, a
job has a result exactly when it has a finishing time, and a job that was
started has only finished dependencies. -/
structure WF (q : testJobQueue) : Prop where
  id_eq : ∀ id j, q.jobs id = some j → j.Id = id
  pending_ok : ∀ t id, id ∈ q.pending t →
    ∃ j, q.jobs id = some j ∧ j.JobType = t ∧ ∀ d ∈ j.Dependencies, finished q d
  dependants_ok : ∀ k l, q.dependants k = some l → ∀ id ∈ l,
    ∃ j, q.jobs id = some j ∧ k ∈ j.Dependencies ∧ ∀ d ∈ j.Dependencies, ∃ jd, q.jobs d = some jd
  result_iff : ∀ id j, q.jobs id = some j → (j.Result ≠ none ↔ j.FinishedAt ≠ 0)
  started_ok : ∀ id j, q.jobs id = some j → j.StartedAt ≠ 0 →
    ∀ d ∈ j.Dependencies, finished q d
  finished_started : ∀ id j, q.jobs id = some j → j.FinishedAt ≠ 0 → j.StartedAt ≠ 0

/-- The job `d` has a non-zero `finished_at`. -/
def hasFinished (q : testJobQueue) (d : UUID) : Prop :=
  ∃ jd, q.jobs d = some jd ∧ jd.FinishedAt ≠ 0

/-! ## Concrete runs -/

/-- A destination into which every stored argument decodes. -/
def decodeAll (_ : RawMessage) : Bool := true

/-- A destination into which no stored argument decodes. -/
def decodeNone (_ : RawMessage) : Bool := false

/-- A job of type `a`, then a job of type `b` whose dependency list names the
first job twice; the first job is run and finished, then `b` is asked for
twice. -/
def repeatedDependencyRun : List Op :=
  [.enqueue 1 1 "a" (some []) [], .enqueue 2 2 "b" (some []) [1, 1],
   .dequeue 3 decodeAll ["a"], .finish 1 4 (some []),
   .dequeue 5 decodeAll ["b"], .dequeue 6 decodeAll ["b"]]

/-- One job is run and finished, a second job that depends on it is queued
afterwards and started. -/
def dependentRun : List Op :=
  [.enqueue 1 1 "osbuild" (some []) [], .dequeue 2 decodeAll ["osbuild"],
   .finish 1 3 (some []), .enqueue 2 4 "koji-finalize" (some []) [1],
   .dequeue 5 decodeAll ["koji-finalize"]]

/-- One job of type `osbuild` without dependencies is queued. -/
def singleJobRun : List Op :=
  [.enqueue 1 1 "osbuild" (some []) []]

/-- One job of type `osbuild` is queued and started. -/
def startedJobRun : List Op :=
  [.enqueue 1 1 "osbuild" (some []) [], .dequeue 2 decodeAll ["osbuild"]]

/-- One job is queued, started and finished. -/
def finishedJobRun : List Op :=
  [.enqueue 1 1 "osbuild" (some []) [], .dequeue 2 decodeAll ["osbuild"],
   .finish 1 3 (some [])]

/-- Calls made after a job was finished: another job is queued and started, the
finished job is canceled. -/
def laterCalls : List Op :=
  [.enqueue 2 4 "osbuild" (some []) [1], .dequeue 5 decodeAll ["osbuild"], .cancel 1]

/-- Job 1 is queued and started, and job 2 is queued with job 1 as its only
dependency. -/
def waitingDependantRun : List Op :=
  [.enqueue 1 1 "osbuild" (some []) [], .dequeue 2 decodeAll ["osbuild"],
   .enqueue 2 3 "koji-finalize" (some []) [1]]

/-- Job 1 is queued, started and finished; job 2 is queued and not started. -/
def oneFinishedOneQueuedRun : List Op :=
  [.enqueue 1 1 "osbuild" (some []) [], .dequeue 2 decodeAll ["osbuild"],
   .finish 1 3 (some []), .enqueue 2 4 "osbuild" (some []) []]

/-- Job 1 is queued and canceled; it is neither started nor finished. -/
def canceledJobRun : List Op :=
  [.enqueue 1 1 "osbuild" (some []) [], .cancel 1]

/-! ## Clocks and the order of the ready lists -/

/-- The call reads the clock later than `clk`. -/
def Op.after (clk : Time) (op : Op) : Prop :=
  match op.now with
  | some n => clk < n
  | none => True

instance (clk : Time) (op : Op) : Decidable (op.after clk) := by
  unfold Op.after
  cases op.now <;> infer_instance

/-- Every call of the sequence is admissible in the state it is made in, and
the clock is strictly increasing from one call to the next, starting after
`clk`. -/
def clockedRun (clk : Time) (q : testJobQueue) : List Op → Prop
  | [] => True
  | op :: ops => op.admissible q ∧ op.after clk ∧ clockedRun (op.now.getD clk) (op.apply q) ops

instance clockedRunDecidable (clk : Time) (q : testJobQueue) (ops : List Op) :
    Decidable (clockedRun clk q ops) := by
  induction ops generalizing clk q with
  | nil => unfold clockedRun; infer_instance
  | cons op ops ih =>
    unfold clockedRun
    exact instDecidableAnd

/-- How one call that reads the clock at `now` may change the entry of the
jobs map under one id. -/
def jobStep (now : Option Time) : Option job → Option job → Prop
  | none, none => True
  | none, some j1 =>
    j1.StartedAt = 0 ∧ j1.FinishedAt = 0 ∧ j1.Result = none ∧ now = some j1.QueuedAt
  | some _, none => False
  | some j, some j1 =>
    j1.Id = j.Id ∧ j1.JobType = j.JobType ∧ j1.Args = j.Args ∧
      j1.Dependencies = j.Dependencies ∧ j1.QueuedAt = j.QueuedAt ∧
      (j1.StartedAt = j.StartedAt ∨ now = some j1.StartedAt) ∧
      (j1.FinishedAt = j.FinishedAt ∨ (j.FinishedAt = 0 ∧ now = some j1.FinishedAt))

/-- Every dependency of the job had finished before the job was queued. Under
a strictly increasing clock this says that `Enqueue` put the job in the ready
list itself: a job promoted by `FinishJob` has a dependency that finished
after the job was queued. -/
def queuedReady (q : testJobQueue) (j : job) : Prop :=
  ∀ d ∈ j.Dependencies, ∃ jd, q.jobs d = some jd ∧ jd.FinishedAt ≠ 0 ∧ jd.FinishedAt < j.QueuedAt

/-- The order of two ids of a ready list: when both jobs were ready as they
were queued, the first was queued no later than the second. -/
def queuedOrder (q : testJobQueue) (a b : UUID) : Prop :=
  ∀ ja jb, q.jobs a = some ja → q.jobs b = some jb → queuedReady q ja → queuedReady q jb →
    ja.QueuedAt ≤ jb.QueuedAt

/-- The ready list of every type is in the order of `queuedOrder`, and no job
was queued after `clk`. -/
structure Ordered (clk : Time) (q : testJobQueue) : Prop where
  queued_le : ∀ id j, q.jobs id = some j → j.QueuedAt ≤ clk
  pending_sorted : ∀ t, (q.pending t).Pairwise (queuedOrder q)

/-- Jobs 1 and 3 are queued without dependencies, job 2 with the finished job
1 as its dependency, all of type `t`. -/
def queuedInOrderRun : List Op :=
  [.enqueue 1 1 "u" (some []) [], .dequeue 2 decodeAll ["u"], .finish 1 3 (some []),
   .enqueue 2 4 "t" (some []) [1], .enqueue 3 5 "t" (some []) []]

/-- Job 2 of type `t` waits for job 1; job 3 of type `t` is queued after job 2
and is ready at once; then job 1 is run and finished. -/
def promotedLateRun : List Op :=
  [.enqueue 1 1 "u" (some []) [], .enqueue 2 2 "t" (some []) [1],
   .enqueue 3 3 "t" (some []) [], .dequeue 4 decodeAll ["u"], .finish 1 5 (some [])]

/-! ## Successive `Dequeue` calls for one type -/

/-- The call is a `Dequeue`. -/
def Op.isDequeue : Op → Bool
  | .dequeue _ _ _ => true
  | _ => false

/-- What successive `Dequeue` calls for the single type `t` return, in call
order; each call comes with the instant it reads and the decoding of its
destination. -/
def dequeueEach (q : testJobQueue) (t : String) :
    List (Time × (RawMessage → Bool)) → List (Except Error (UUID × List UUID))
  | [] => []
  | c :: cs => (Dequeue q c.1 c.2 [t]).1 :: dequeueEach (Dequeue q c.1 c.2 [t]).2 t cs

/-- No job of the queue has been started. -/
def noneStarted (q : testJobQueue) : Prop :=
  ∀ id j, q.jobs id = some j → j.StartedAt = 0

/-- Two jobs of type `osbuild` are queued one after the other, with a cancel
and a refused finish in between and a job of another type after them. -/
def twoQueuedRun : List Op :=
  [] ++ Op.enqueue 1 1 "osbuild" (some [10]) [] ::
    ([Op.cancel 1, Op.finish 1 2 (some [])] ++
      Op.enqueue 2 3 "osbuild" (some [20]) [] :: [Op.enqueue 3 4 "koji-init" (some []) []])

/-! ## Reading the status of a job -/

/-- The method `JobStatus`: the values `queued`, `started`, `finished` and
`canceled` it returns, and the error. The named results keep their zero values
on the two early returns. `unmarshal` is `json.Unmarshal` of the stored result
into the destination of the caller; a nil result is an empty input. -/
def JobStatus (q : testJobQueue) (id : UUID) (unmarshal : RawMessage → Bool) :
    (Time × Time × Time × Bool) × Option Error :=
  match q.jobs id with
  | none => ((0, 0, 0, false), some Error.ErrNotExist)
  | some j =>
    if j.FinishedAt ≠ 0 then
      if unmarshal (j.Result.getD []) then
        ((j.QueuedAt, j.StartedAt, j.FinishedAt, j.Canceled), none)
      else
        ((0, 0, 0, false), some Error.unmarshalError)
    else
      ((j.QueuedAt, j.StartedAt, j.FinishedAt, j.Canceled), none)

/-- A call of the queue, `JobStatus` included. -/
inductive Call where
  | op (o : Op)
  | status (id : UUID) (unmarshal : RawMessage → Bool)

/-- The state of the queue after the call; `JobStatus` writes nothing. -/
def Call.apply (q : testJobQueue) : Call → testJobQueue
  | .op o => o.apply q
  | .status _ _ => q

/-- What the environment guarantees of the call, as in `Op.admissible`. -/
def Call.admissible (q : testJobQueue) : Call → Prop
  | .op o => o.admissible q
  | .status _ _ => True

instance (q : testJobQueue) (c : Call) : Decidable (c.admissible q) := by
  cases c <;> unfold Call.admissible <;> infer_instance

/-- The state after a sequence of calls, `JobStatus` calls included. -/
def runCalls (q : testJobQueue) : List Call → testJobQueue
  | [] => q
  | c :: cs => runCalls (c.apply q) cs

/-- Every call of the sequence is admissible in the state it is made in. -/
def admissibleCalls (q : testJobQueue) : List Call → Prop
  | [] => True
  | c :: cs => c.admissible q ∧ admissibleCalls (c.apply q) cs

instance admissibleCallsDecidable (q : testJobQueue) (cs : List Call) :
    Decidable (admissibleCalls q cs) := by
  induction cs generalizing q with
  | nil => unfold admissibleCalls; infer_instance
  | cons c cs ih => unfold admissibleCalls; exact instDecidableAnd

/-- Job 2 lists job 1 twice among its dependencies and so stands twice in the
ready list once job 1 has finished; job 2 is started and finished, and is
still in the ready list. -/
def finishedStillReadyRun : List Op :=
  [.enqueue 1 1 "a" (some []) [], .enqueue 2 2 "b" (some []) [1, 1],
   .dequeue 3 decodeAll ["a"], .finish 1 4 (some []),
   .dequeue 5 decodeAll ["b"], .finish 2 6 (some [])]

/-- The dependent registration scenario on an empty queue: job `b` of type
`tB` is queued without dependencies and job `r` of type `tR` with `b` as its
dependency; `[tB, tR]` is asked for twice, `b` is finished, `[tB, tR]` is asked
for again. The value lists what the two `Enqueue` calls, the first two
`Dequeue` calls, `FinishJob` and the last `Dequeue` return. -/
def dependentRegistration (tB tR : String) (b r : UUID) (n1 n2 n3 n4 n5 n6 : Time)
    (aB aR res : RawMessage) (unmarshal : RawMessage → Bool) :
    Except Error UUID × Except Error UUID × Except Error (UUID × List UUID) ×
      Except Error (UUID × List UUID) × Option Error × Except Error (UUID × List UUID) :=
  let e1 := Enqueue New b n1 tB (some aB) []
  let e2 := Enqueue e1.2 r n2 tR (some aR) [b]
  let d1 := Dequeue e2.2 n3 unmarshal [tB, tR]
  let d2 := Dequeue d1.2 n4 unmarshal [tB, tR]
  let f := FinishJob d2.2 b n5 (some res)
  let d3 := Dequeue f.2 n6 unmarshal [tB, tR]
  (e1.1, e2.1, d1.1, d2.1, f.1, d3.1)

/-- The method `Dequeue` with the destination of the caller spelled out:
`decode` is `json.Unmarshal` into that destination, the value it leaves there
or `none` when it fails. The value delivered is returned with the id and the
dependencies. -/
def DequeueInto {α : Type} (q : testJobQueue) (now : Time) (decode : RawMessage → Option α) :
    List String → Except Error (UUID × List UUID × α) × testJobQueue
  | [] => (.error Error.noJobAvailable, q)
  | t :: ts =>
    match q.pending t with
    | [] => DequeueInto q now decode ts
    | id :: rest =>
      let q1 : testJobQueue := { q with pending := Function.update q.pending t rest }
      match q1.jobs id with
      | none => (.error Error.nilDereference, q1)
      | some j =>
        match decode j.Args with
        | none => (.error Error.unmarshalError, q1)
        | some v =>
          (.ok (j.Id, j.Dependencies, v),
            { q1 with jobs := Function.update q1.jobs id (some { j with StartedAt := now }) })

/-- A destination that takes the stored bytes as they are. -/
def decodeBytes (m : RawMessage) : Option RawMessage := some m

/-- Job 1 is queued with args, a waiting job 2 is queued and canceled. -/
def queuedWithArgsRun : List Op :=
  [] ++ Op.enqueue 1 1 "osbuild" (some [10, 20]) [] ::
    [Op.enqueue 2 2 "osbuild" (some [30]) [1], Op.cancel 2]

/-! ## Jobs are handed out once -/

/-- The dependency list passed to the call repeats no id. -/
def Op.distinctDeps : Op → Prop
  | .enqueue _ _ _ _ deps => deps.Nodup
  | _ => True

instance (op : Op) : Decidable op.distinctDeps := by
  cases op <;> unfold Op.distinctDeps <;> infer_instance

/-- Each ready list and each dependants entry names a job at most once, and no
job of a ready list has been started. -/
structure Once (q : testJobQueue) : Prop where
  pending_nodup : ∀ t, (q.pending t).Nodup
  pending_fresh : ∀ t id, id ∈ q.pending t → ∀ j, q.jobs id = some j → j.StartedAt = 0
  dependants_nodup : ∀ k l, q.dependants k = some l → l.Nodup

end testjobqueue

namespace store

/-!
# osbuild-composer: the persisted store (`internal/store/json.go`)

A shallow embedding of `json.go`, the conversion between the store and its
serialised form `storeV0`.

Modelling conventions

* a Go map that the code ranges over is an association list: its keys are
  pairwise distinct and the order of the list is the order in which the range
  loop visits it. The functions do not require distinct keys; `lookup` reads
  the first entry of a key and `setKey` is the assignment `m[k] = v`.
* a pointer is an `Option`, `none` for nil; `time.Time`, `uuid.UUID`, the
  manifest and the targets are carried along without being read and are
  natural numbers or lists of bytes.
* a panic is `none`.
* `sort.Slice` and the package `go-semver` are arguments of `newStoreFromV0`.
* the field `Type` of a source is `SourceType` here (`Type` is reserved).
-/

/-- Modelled from the spec: `blueprint.Blueprint` is declared in
`internal/blueprint`, not under src. `json.go` reads its `Version` only; the
other fields are kept as one value. -/
structure Blueprint where
  Name : String
  Version : String
  Content : List Nat
  deriving DecidableEq, Repr

/-- Modelled from the spec: `Blueprint.DeepCopy` is declared in
`internal/blueprint`, not under src. A deep copy is a value equal to the
original that shares no memory with it; the values of the model share none. -/
def Blueprint.DeepCopy (b : Blueprint) : Blueprint := b

/-- The zero value of `blueprint.Blueprint`. -/
def Blueprint.zero : Blueprint := { Name := "", Version := "", Content := [] }

/-- Modelled from the spec: `blueprint.Change` is declared in
`internal/blueprint`, not under src. These are the fields `json.go` reads and
writes: the four it copies and the `Blueprint` whose version it sorts by. -/
structure Change where
  Commit : String
  Message : String
  Revision : Option Int
  Timestamp : String
  Blueprint : Blueprint
  deriving DecidableEq, Repr

/-- The record `changeV0`. -/
structure changeV0 where
  Commit : String
  Message : String
  Revision : Option Int
  Timestamp : String
  deriving DecidableEq, Repr

/-- Modelled from the spec: `common.ImageBuildState` is declared in
`internal/common`, not under src: one of `WAITING`, `RUNNING`, `FINISHED`,
`FAILED`. -/
inductive ImageBuildState where
  | IBWaiting
  | IBRunning
  | IBFinished
  | IBFailed
  deriving DecidableEq, Repr

/-- Modelled from the spec: `distro.ImageType` is an interface declared in
`internal/distro`, not under src. `json.go` calls `Name()` only; what else an
image type carries is kept as one value. -/
structure ImageType where
  Name : String
  Details : List Nat
  deriving DecidableEq, Repr

/-- Modelled from the spec: `distro.Arch` is an interface declared in
`internal/distro`, not under src. `json.go` calls `GetImageType` only; `none`
is its error. -/
structure Arch where
  GetImageType : String → Option ImageType

abbrev UUID := Nat

abbrev Time := Nat

abbrev Manifest := List Nat

abbrev Target := List Nat

/-- The record `imageBuildV0`. -/
structure imageBuildV0 where
  ID : Int
  ImageType : String
  Manifest : Option Manifest
  Targets : List Target
  JobCreated : Time
  JobStarted : Time
  JobFinished : Time
  Size : Nat
  JobID : UUID
  QueueStatus : ImageBuildState
  deriving DecidableEq, Repr

/-- The record `composeV0`. -/
structure composeV0 where
  Blueprint : Option Blueprint
  ImageBuilds : List imageBuildV0
  deriving DecidableEq, Repr

/-- The record `sourceV0`. -/
structure sourceV0 where
  Name : String
  SourceType : String
  URL : String
  CheckGPG : Bool
  CheckSSL : Bool
  System : Bool
  deriving DecidableEq, Repr

/-- The record `storeV0`. -/
structure storeV0 where
  Blueprints : List (String × Blueprint)
  Workspace : List (String × Blueprint)
  Composes : List (UUID × composeV0)
  Sources : List (String × sourceV0)
  Changes : List (String × List (String × changeV0))
  Commits : List (String × List String)
  deriving DecidableEq, Repr

/-- Modelled from the spec: `ImageBuild` is declared in `compose.go` of the
package, not under src. These are the fields `json.go` reads and writes; the
image type is an interface value and may be nil. -/
structure ImageBuild where
  ID : Int
  ImageType : Option ImageType
  Manifest : Option Manifest
  Targets : List Target
  JobCreated : Time
  JobStarted : Time
  JobFinished : Time
  Size : Nat
  JobID : UUID
  QueueStatus : ImageBuildState
  deriving DecidableEq, Repr

/-- The zero value of `ImageBuild`. -/
def ImageBuild.zero : ImageBuild :=
  { ID := 0, ImageType := none, Manifest := none, Targets := [], JobCreated := 0,
    JobStarted := 0, JobFinished := 0, Size := 0, JobID := 0,
    QueueStatus := ImageBuildState.IBWaiting }

/-- Modelled from the spec: `Compose` is declared in `compose.go` of the
package, not under src: a blueprint and exactly one image build. -/
structure Compose where
  Blueprint : Option Blueprint
  ImageBuild : ImageBuild
  deriving DecidableEq, Repr

/-- Modelled from the spec: `SourceConfig` is declared in `store.go` of the
package, not under src; `json.go` converts it to and from `sourceV0`, so it has
the same fields. -/
structure SourceConfig where
  Name : String
  SourceType : String
  URL : String
  CheckGPG : Bool
  CheckSSL : Bool
  System : Bool
  deriving DecidableEq, Repr

/-- Modelled from the spec: `Store` is declared in `store.go` of the package,
not under src. These are the fields `json.go` reads and writes. -/
structure Store where
  blueprints : List (String × Blueprint)
  workspace : List (String × Blueprint)
  composes : List (UUID × Compose)
  sources : List (String × SourceConfig)
  blueprintsChanges : List (String × List (String × Change))
  blueprintsCommits : List (String × List String)
  deriving DecidableEq, Repr

/-- The value of the map under a key, `none` when the key is missing. -/
def lookup {κ ν : Type} [DecidableEq κ] (m : List (κ × ν)) (k : κ) : Option ν :=
  (m.find? (fun kv => decide (kv.1 = k))).map (fun kv => kv.2)

/-- The assignment `m[k] = v`: the value of an existing key is replaced, a new
key is added. -/
def setKey {κ ν : Type} [DecidableEq κ] (m : List (κ × ν)) (k : κ) (v : ν) : List (κ × ν) :=
  if m.any (fun kv => decide (kv.1 = k)) then
    m.map (fun kv => if kv.1 = k then (k, v) else kv)
  else
    m ++ [(k, v)]

/-- The errors of `newComposeFromV0`. -/
inductive ComposeError where
  | invalidImageType
  | noImageBuild
  deriving DecidableEq, Repr

/-- What `json.go` uses of the package `go-semver`: `NewVersion` (`none` is
its error), the version `0.0.0` built by `semver.New("0.0.0")`, and
`LessThan`. -/
structure Semver where
  Version : Type
  NewVersion : String → Option Version
  zero : Version
  LessThan : Version → Version → Bool

/-- The table `imageTypeCompatMapping`. -/
def imageTypeCompatMapping : List (String × String) :=
  [("vhd", "Azure"), ("ami", "AWS"), ("liveiso", "LiveISO"), ("openstack", "OpenStack"),
   ("qcow2", "qcow2"), ("vmdk", "VMWare"), ("ext4-filesystem", "Raw-filesystem"),
   ("partitioned-disk", "Partitioned-disk"), ("tar", "Tar"), ("test_type", "test_type")]

/-- The function `imageTypeToCompatString`, on the name of the image type: a
missing key of a Go map reads as the empty string. -/
def imageTypeToCompatString (imgType : ImageType) : String :=
  (lookup imageTypeCompatMapping imgType.Name).getD ""

/-- The function `imageTypeFromCompatString`; `none` is nil. The loop returns
at the first entry of the table whose value is `input`. -/
def imageTypeFromCompatString (input : String) (arch : Arch) : Option ImageType :=
  match imageTypeCompatMapping.find? (fun kv => decide (kv.2 = input)) with
  | some kv => arch.GetImageType kv.1
  | none => none

/-- The function `newBlueprintsFromV0`. -/
def newBlueprintsFromV0 (blueprintsStruct : List (String × Blueprint)) :
    List (String × Blueprint) :=
  blueprintsStruct.map (fun kv => (kv.1, kv.2.DeepCopy))

/-- The function `newWorkspaceFromV0`. -/
def newWorkspaceFromV0 (workspaceStruct : List (String × Blueprint)) :
    List (String × Blueprint) :=
  workspaceStruct.map (fun kv => (kv.1, kv.2.DeepCopy))

/-- The function `newComposeFromV0`: the loop over the image builds returns in
its first round. -/
def newComposeFromV0 (composeStruct : composeV0) (arch : Arch) : Except ComposeError Compose :=
  match composeStruct.ImageBuilds with
  | [] => .error ComposeError.noImageBuild
  | imgBuild :: _ =>
    match imageTypeFromCompatString imgBuild.ImageType arch with
    | none => .error ComposeError.invalidImageType
    | some imgType =>
      .ok { Blueprint := composeStruct.Blueprint,
            ImageBuild :=
              { ID := imgBuild.ID, ImageType := some imgType, Manifest := imgBuild.Manifest,
                Targets := imgBuild.Targets, JobCreated := imgBuild.JobCreated,
                JobStarted := imgBuild.JobStarted, JobFinished := imgBuild.JobFinished,
                Size := imgBuild.Size, JobID := imgBuild.JobID,
                QueueStatus := imgBuild.QueueStatus } }

/-- The function `newComposesFromV0`: invalid composes are left out. -/
def newComposesFromV0 (composesStruct : List (UUID × composeV0)) (arch : Arch) :
    List (UUID × Compose) :=
  composesStruct.filterMap (fun kv =>
    match newComposeFromV0 kv.2 arch with
    | .ok c => some (kv.1, c)
    | .error _ => none)

/-- The function `newSourceConfigsFromV0`. -/
def newSourceConfigsFromV0 (sourcesStruct : List (String × sourceV0)) :
    List (String × SourceConfig) :=
  sourcesStruct.map (fun kv =>
    (kv.1, { Name := kv.2.Name, SourceType := kv.2.SourceType, URL := kv.2.URL,
             CheckGPG := kv.2.CheckGPG, CheckSSL := kv.2.CheckSSL, System := kv.2.System }))

/-- The function `newChangesFromV0`: the blueprint of a change is not set. -/
def newChangesFromV0 (changesStruct : List (String × List (String × changeV0))) :
    List (String × List (String × Change)) :=
  changesStruct.map (fun kv =>
    (kv.1, kv.2.map (fun cc =>
      (cc.1, { Commit := cc.2.Commit, Message := cc.2.Message, Revision := cc.2.Revision,
               Timestamp := cc.2.Timestamp, Blueprint := Blueprint.zero }))))

/-- The function `newCommitsFromV0`. -/
def newCommitsFromV0 (commitsStruct : List (String × List String)) :
    List (String × List String) :=
  commitsStruct.map (fun kv => (kv.1, kv.2))

/-- The first loop of `newStoreFromV0`, for one compose: a build that is
queued or running is failed. -/
def failUnfinished (compose : Compose) : Compose :=
  match compose.ImageBuild.QueueStatus with
  | ImageBuildState.IBRunning =>
    { compose with ImageBuild :=
        { compose.ImageBuild with QueueStatus := ImageBuildState.IBFailed } }
  | ImageBuildState.IBWaiting =>
    { compose with ImageBuild :=
        { compose.ImageBuild with QueueStatus := ImageBuildState.IBFailed } }
  | _ => compose

/-- The comparison `newStoreFromV0` hands to `sort.Slice`: by timestamp, and
by version of the blueprint when the timestamps are equal; a version that does
not parse counts as `0.0.0`. -/
def changeLess (sv : Semver) (a b : Change) : Bool :=
  if a.Timestamp = b.Timestamp then
    sv.LessThan ((sv.NewVersion a.Blueprint.Version).getD sv.zero)
      ((sv.NewVersion b.Blueprint.Version).getD sv.zero)
  else
    decide (a.Timestamp < b.Timestamp)

/-- The second loop of `newStoreFromV0`, for one blueprint name: when the
blueprint has not as many commits as changes, its commit list is rebuilt from
the sorted changes. -/
def populateCommits (sv : Semver) (sortSlice : (Change → Change → Bool) → List Change → List Change)
    (changes : List (String × List (String × Change))) (commits : List (String × List String))
    (name : String) : List (String × List String) :=
  if ((lookup changes name).getD []).length ≠ ((lookup commits name).getD []).length then
    setKey commits name
      ((sortSlice (changeLess sv) (((lookup changes name).getD []).map (fun cc => cc.2))).map
        (fun c => c.Commit))
  else
    commits

/-- The function `newStoreFromV0`. -/
def newStoreFromV0 (sv : Semver)
    (sortSlice : (Change → Change → Bool) → List Change → List Change)
    (storeStruct : storeV0) (arch : Arch) : Store :=
  let store : Store :=
    { blueprints := newBlueprintsFromV0 storeStruct.Blueprints,
      workspace := newWorkspaceFromV0 storeStruct.Workspace,
      composes := newComposesFromV0 storeStruct.Composes arch,
      sources := newSourceConfigsFromV0 storeStruct.Sources,
      blueprintsChanges := newChangesFromV0 storeStruct.Changes,
      blueprintsCommits := newCommitsFromV0 storeStruct.Commits }
  { store with
    composes := store.composes.map (fun kv => (kv.1, failUnfinished kv.2)),
    blueprintsCommits :=
      store.blueprintsChanges.foldl
        (fun commits kv => populateCommits sv sortSlice store.blueprintsChanges commits kv.1)
        store.blueprintsCommits }

/-- The body of the loop of `newComposesV0`, for one compose; `none` is a
panic: the call of `Name()` on a nil image type, or the explicit panic for an
image type without a compatibility string. -/
def newComposeV0 (compose : Compose) : Option composeV0 :=
  match compose.ImageBuild.ImageType with
  | none => none
  | some t =>
    if imageTypeToCompatString t = "" then
      none
    else
      some { Blueprint := compose.Blueprint,
             ImageBuilds :=
               [{ ID := compose.ImageBuild.ID, ImageType := imageTypeToCompatString t,
                  Manifest := compose.ImageBuild.Manifest, Targets := compose.ImageBuild.Targets,
                  JobCreated := compose.ImageBuild.JobCreated,
                  JobStarted := compose.ImageBuild.JobStarted,
                  JobFinished := compose.ImageBuild.JobFinished,
                  Size := compose.ImageBuild.Size, JobID := compose.ImageBuild.JobID,
                  QueueStatus := compose.ImageBuild.QueueStatus }] }

/-- The function `newComposesV0`; `none` is a panic. -/
def newComposesV0 : List (UUID × Compose) → Option (List (UUID × composeV0))
  | [] => some []
  | kv :: rest =>
    match newComposeV0 kv.2 with
    | none => none
    | some c => (newComposesV0 rest).map (fun cs => (kv.1, c) :: cs)

/-- The function `newSourcesV0`. -/
def newSourcesV0 (sources : List (String × SourceConfig)) : List (String × sourceV0) :=
  sources.map (fun kv =>
    (kv.1, { Name := kv.2.Name, SourceType := kv.2.SourceType, URL := kv.2.URL,
             CheckGPG := kv.2.CheckGPG, CheckSSL := kv.2.CheckSSL, System := kv.2.System }))

/-- The function `newChangesV0`: the blueprint of a change is not copied. -/
def newChangesV0 (changes : List (String × List (String × Change))) :
    List (String × List (String × changeV0)) :=
  changes.map (fun kv =>
    (kv.1, kv.2.map (fun cc =>
      (cc.1, { Commit := cc.2.Commit, Message := cc.2.Message, Revision := cc.2.Revision,
               Timestamp := cc.2.Timestamp }))))

/-- The function `newCommitsV0`. -/
def newCommitsV0 (commits : List (String × List String)) : List (String × List String) :=
  commits.map (fun kv => (kv.1, kv.2))

/-- The method `toStoreV0`; `none` is a panic. -/
def toStoreV0 (store : Store) : Option storeV0 :=
  (newComposesV0 store.composes).map (fun composes =>
    { Blueprints := store.blueprints,
      Workspace := store.workspace,
      Composes := composes,
      Sources := newSourcesV0 store.sources,
      Changes := newChangesV0 store.blueprintsChanges,
      Commits := newCommitsV0 store.blueprintsCommits })

/-- The change with its blueprint emptied: what is left of a change once it was
serialised and loaded. -/
def Change.stored (c : Change) : Change := { c with Blueprint := Blueprint.zero }

/-! ## Concrete stores -/

/-- Versions as natural numbers, for concrete runs. -/
def natSemver : Semver :=
  { Version := Nat, NewVersion := fun s => s.toNat?, zero := 0,
    LessThan := fun a b => decide (a < b) }

/-- Insertion of one change into a sorted list. -/
def insertSorted (less : Change → Change → Bool) (c : Change) : List Change → List Change
  | [] => [c]
  | d :: ds => if less d c then d :: insertSorted less c ds else c :: d :: ds

/-- A stable sort, one of the outcomes `sort.Slice` may give. -/
def insertionSort (less : Change → Change → Bool) : List Change → List Change
  | [] => []
  | c :: cs => insertSorted less c (insertionSort less cs)

/-- An architecture with the image types `qcow2` and `edge`. -/
def testArch : Arch :=
  { GetImageType := fun name =>
      if name = "qcow2" then some { Name := "qcow2", Details := [1] }
      else if name = "edge" then some { Name := "edge", Details := [2] }
      else none }

/-- A store with one blueprint, one finished and one running `qcow2` compose,
and one change of the blueprint that carries the blueprint. -/
def sampleStore : Store :=
  { blueprints := [("base", { Name := "base", Version := "1.0.0", Content := [1] })],
    workspace := [],
    composes :=
      [(1, { Blueprint := some { Name := "base", Version := "1.0.0", Content := [1] },
             ImageBuild := { ImageBuild.zero with
               ImageType := some { Name := "qcow2", Details := [1] },
               QueueStatus := ImageBuildState.IBFinished } }),
       (2, { Blueprint := none,
             ImageBuild := { ImageBuild.zero with
               ImageType := some { Name := "qcow2", Details := [1] },
               QueueStatus := ImageBuildState.IBRunning } })],
    sources := [("fedora", { Name := "fedora", SourceType := "yum-baseurl", URL := "u",
                             CheckGPG := true, CheckSSL := true, System := false })],
    blueprintsChanges :=
      [("base", [("c1", { Commit := "c1", Message := "first", Revision := none,
                          Timestamp := "2020-01-01T00:00:00Z",
                          Blueprint := { Name := "base", Version := "1.0.0", Content := [1] } })])],
    blueprintsCommits := [("base", ["c1"])] }

/-- A store whose only compose has the image type `edge`, which the
architecture supports and the compatibility table does not list. -/
def edgeStore : Store :=
  { blueprints := [], workspace := [],
    composes :=
      [(1, { Blueprint := none,
             ImageBuild := { ImageBuild.zero with
               ImageType := some { Name := "edge", Details := [2] } } })],
    sources := [], blueprintsChanges := [], blueprintsCommits := [] }

/-! ## The range over the compatibility table -/

/-- The function `imageTypeFromCompatString` when the range loop visits the
entries of the table in the order `order`; `imageTypeFromCompatString` is the
case of the order of the declaration. -/
def imageTypeFromCompatStringOrder (order : List (String × String)) (input : String)
    (arch : Arch) : Option ImageType :=
  match order.find? (fun kv => decide (kv.2 = input)) with
  | some kv => arch.GetImageType kv.1
  | none => none

/-! ## Concrete documents -/

/-- An image build of type `qcow2` with the given status. -/
def qcow2Build (status : ImageBuildState) : imageBuildV0 :=
  { ID := 0, ImageType := "qcow2", Manifest := none, Targets := [[7]], JobCreated := 5,
    JobStarted := 6, JobFinished := 0, Size := 1024, JobID := 9, QueueStatus := status }

/-- A stored compose of the type `edge-commit`, which the table does not
list. -/
def edgeCommitCompose : composeV0 :=
  { Blueprint := none,
    ImageBuilds := [{ qcow2Build ImageBuildState.IBFinished with ImageType := "edge-commit" }] }

/-- The compose a waiting or running `qcow2` compose of the architecture
`testArch` is loaded as. -/
def failedCompose : Compose :=
  { Blueprint := none,
    ImageBuild :=
      { ID := 0, ImageType := some { Name := "qcow2", Details := [1] }, Manifest := none,
        Targets := [[7]], JobCreated := 5, JobStarted := 6, JobFinished := 0,
        Size := 1024, JobID := 9, QueueStatus := ImageBuildState.IBFailed } }

/-- A stored document with a waiting, a running and a finished `qcow2` compose,
a compose of the unknown type `edge-commit`, a compose of the type `Azure`,
which the architecture `testArch` does not support, and a blueprint with two
changes and no commit list. -/
def sampleDocument : storeV0 :=
  { Blueprints := [("base", { Name := "base", Version := "1.0.0", Content := [1] })],
    Workspace := [],
    Composes :=
      [(1, { Blueprint := none, ImageBuilds := [qcow2Build ImageBuildState.IBWaiting] }),
       (2, { Blueprint := none, ImageBuilds := [qcow2Build ImageBuildState.IBRunning] }),
       (3, { Blueprint := none, ImageBuilds := [qcow2Build ImageBuildState.IBFinished] }),
       (4, edgeCommitCompose),
       (5, { Blueprint := none,
             ImageBuilds := [{ qcow2Build ImageBuildState.IBFinished with
                               ImageType := "Azure" }] })],
    Sources := [],
    Changes :=
      [("base", [("c2", { Commit := "c2", Message := "second", Revision := none,
                          Timestamp := "2" }),
                 ("c1", { Commit := "c1", Message := "first", Revision := none,
                          Timestamp := "1" })])],
    Commits := [] }

/-- The changes of the blueprint `base` of the sample document, as loaded. -/
def loadedBaseChanges : List (String × Change) :=
  [("c2", { Commit := "c2", Message := "second", Revision := none, Timestamp := "2",
            Blueprint := Blueprint.zero }),
   ("c1", { Commit := "c1", Message := "first", Revision := none, Timestamp := "1",
            Blueprint := Blueprint.zero })]

/-- A store whose blueprint `base` has two changes of the same timestamp and no
commit list: the change `c2`, whose blueprint has the version 2, and the change
`c1`, whose blueprint has the version 1. -/
def tieStore : Store :=
  { blueprints := [], workspace := [], composes := [], sources := [],
    blueprintsChanges :=
      [("base", [("c2", { Commit := "c2", Message := "second", Revision := none,
                          Timestamp := "5",
                          Blueprint := { Name := "base", Version := "2", Content := [] } }),
                 ("c1", { Commit := "c1", Message := "first", Revision := none,
                          Timestamp := "5",
                          Blueprint := { Name := "base", Version := "1", Content := [] } })])],
    blueprintsCommits := [] }

/-- The store `tieStore` with the versions of the two blueprints exchanged. -/
def tieStoreExchanged : Store :=
  { blueprints := [], workspace := [], composes := [], sources := [],
    blueprintsChanges :=
      [("base", [("c2", { Commit := "c2", Message := "second", Revision := none,
                          Timestamp := "5",
                          Blueprint := { Name := "base", Version := "1", Content := [] } }),
                 ("c1", { Commit := "c1", Message := "first", Revision := none,
                          Timestamp := "5",
                          Blueprint := { Name := "base", Version := "2", Content := [] } })])],
    blueprintsCommits := [] }

/-- Versions written as decimal numerals and read digit by digit, for concrete
runs; any other string does not parse. -/
def digitsSemver : Semver :=
  { Version := Nat,
    NewVersion := fun s =>
      if s.toList ≠ [] ∧ s.toList.all Char.isDigit = true then
        some (s.toList.foldl (fun n c => n * 10 + (c.toNat - 48)) 0)
      else none,
    zero := 0,
    LessThan := fun a b => decide (a < b) }

end store

namespace rhel8

/-!
# osbuild-composer: the RHEL 8 distribution (`internal/distro/rhel8/distro.go`)

A shallow embedding of the image types and architectures that `New` builds,
of `GetImageType` and of `Size`.

Modelling conventions

* `uint64` is a natural number below `2 ^ 64`; the arithmetic of `Size` is
  reduced modulo `2 ^ 64` where the source can overflow.
* a map is an association list, read with `store.lookup` and written with
  `store.setKey`, as in the model of the store.
* an image type is its scalar fields: the package lists, the service lists and
  the assembler are read by functions that are not part of this model, and the
  pointers back to the architecture and the distribution are left out.
-/

/-- The record `imageType`. -/
structure imageType where
  name : String
  filename : String
  mimeType : String
  defaultTarget : String
  kernelOptions : String
  bootable : Bool
  rpmOstree : Bool
  defaultSize : Nat
  deriving DecidableEq, Repr

/-- The record `architecture`. -/
structure architecture where
  name : String
  legacy : String
  uefi : Bool
  imageTypes : List (String × imageType)
  deriving DecidableEq, Repr

/-- The record `distribution`. -/
structure distribution where
  arches : List (String × architecture)
  imageTypes : List (String × imageType)
  deriving DecidableEq, Repr

/-- The method `setArches`: the field `legacy` is not copied. -/
def distribution.setArches (d : distribution) (arches : List architecture) : distribution :=
  let copy : architecture → architecture := fun a =>
    { name := a.name, legacy := "", uefi := a.uefi, imageTypes := a.imageTypes }
  { d with arches := arches.foldl (fun m a => store.setKey m a.name (copy a)) [] }

/-- The method `GetArch`; `none` is its error. -/
def distribution.GetArch (d : distribution) (arch : String) : Option architecture :=
  store.lookup d.arches arch

/-- The method `GetImageType`; `none` is its error. -/
def architecture.GetImageType (a : architecture) (imgType : String) : Option imageType :=
  store.lookup a.imageTypes imgType

/-- The method `setImageTypes`: the image types are stored under their
names. -/
def architecture.setImageTypes (a : architecture) (imageTypes : List imageType) : architecture :=
  let copy : imageType → imageType := fun it =>
    { name := it.name, filename := it.filename, mimeType := it.mimeType,
      defaultTarget := it.defaultTarget, kernelOptions := it.kernelOptions,
      bootable := it.bootable, rpmOstree := it.rpmOstree, defaultSize := it.defaultSize }
  { a with imageTypes := imageTypes.foldl (fun m it => store.setKey m it.name (copy it)) [] }

/-- The method `Name`. -/
def imageType.Name (t : imageType) : String := t.name

/-- The constant `MegaByte` of `Size`. -/
def MegaByte : Nat := 1024 * 1024

/-- The constant `GigaByte` of `New`. -/
def GigaByte : Nat := 1024 * 1024 * 1024

/-- The method `Size`, on a `uint64`: the product is computed modulo `2 ^ 64`
(the sum `size/MegaByte + 1` is below `2 ^ 64`). -/
def imageType.Size (t : imageType) (size : Nat) : Nat :=
  let size :=
    if t.name = "vhd" ∧ size % MegaByte ≠ 0 then
      (size / MegaByte + 1) * MegaByte % 2 ^ 64
    else
      size
  if size = 0 then t.defaultSize else size

/-- The image type `amiImgType` of `New`. -/
def amiImgType : imageType :=
  { name := "ami", filename := "image.vhdx", mimeType := "application/octet-stream",
    defaultTarget := "multi-user.target",
    kernelOptions := "ro console=ttyS0,115200n8 console=tty0 net.ifnames=0 rd.blacklist=nouveau nvme_core.io_timeout=4294967295 crashkernel=auto",
    bootable := true, rpmOstree := false, defaultSize := 6 * GigaByte }

/-- The image type `qcow2ImageType` of `New`. -/
def qcow2ImageType : imageType :=
  { name := "qcow2", filename := "disk.qcow2", mimeType := "application/x-qemu-disk",
    defaultTarget := "",
    kernelOptions := "console=ttyS0 console=ttyS0,115200n8 no_timer_check crashkernel=auto net.ifnames=0",
    bootable := true, rpmOstree := false, defaultSize := 2 * GigaByte }

/-- The image type `openstackImgType` of `New`. -/
def openstackImgType : imageType :=
  { name := "openstack", filename := "disk.qcow2", mimeType := "application/x-qemu-disk",
    defaultTarget := "", kernelOptions := "ro net.ifnames=0",
    bootable := true, rpmOstree := false, defaultSize := 2 * GigaByte }

/-- The image type `tarImgType` of `New`: no default size is given. -/
def tarImgType : imageType :=
  { name := "tar", filename := "root.tar.xz", mimeType := "application/x-tar",
    defaultTarget := "", kernelOptions := "ro net.ifnames=0",
    bootable := false, rpmOstree := false, defaultSize := 0 }

/-- The image type `vhdImgType` of `New`. -/
def vhdImgType : imageType :=
  { name := "vhd", filename := "disk.vhd", mimeType := "application/x-vhd",
    defaultTarget := "multi-user.target",
    kernelOptions := "ro biosdevname=0 rootdelay=300 console=ttyS0 earlyprintk=ttyS0 net.ifnames=0",
    bootable := true, rpmOstree := false, defaultSize := 2 * GigaByte }

/-- The image type `vmdkImgType` of `New`. -/
def vmdkImgType : imageType :=
  { name := "vmdk", filename := "disk.vmdk", mimeType := "application/x-vmdk",
    defaultTarget := "", kernelOptions := "ro net.ifnames=0",
    bootable := true, rpmOstree := false, defaultSize := 2 * GigaByte }

/-- The architecture `x8664` of `New`. -/
def x8664 : architecture :=
  architecture.setImageTypes
    { name := "x86_64", legacy := "i386-pc", uefi := false, imageTypes := [] }
    [amiImgType, qcow2ImageType, openstackImgType, tarImgType, vhdImgType, vmdkImgType]

/-- The architecture `aarch64` of `New`. -/
def aarch64 : architecture :=
  architecture.setImageTypes
    { name := "aarch64", legacy := "", uefi := true, imageTypes := [] }
    [amiImgType, qcow2ImageType, openstackImgType, tarImgType]

/-- The architecture `ppc64le` of `New`. -/
def ppc64le : architecture :=
  architecture.setImageTypes
    { name := "ppc64le", legacy := "powerpc-ieee1275", uefi := false, imageTypes := [] }
    [qcow2ImageType, tarImgType]

/-- The architecture `s390x` of `New`. -/
def s390x : architecture :=
  architecture.setImageTypes
    { name := "s390x", legacy := "", uefi := false, imageTypes := [] }
    [tarImgType]

/-- The function `New`. -/
def New : distribution :=
  distribution.setArches { arches := [], imageTypes := [] } [x8664, aarch64, ppc64le, s390x]

/-- An image type behind the interface `distro.ImageType`, as the store holds
it: `Name()` is the name, and the default size stands for the rest. -/
def imageType.toImageType (t : imageType) : store.ImageType :=
  { Name := t.Name, Details := [t.defaultSize] }

/-- An architecture behind the interface `distro.Arch`, as the store calls
it. -/
def architecture.toArch (a : architecture) : store.Arch :=
  { GetImageType := fun name => (a.GetImageType name).map imageType.toImageType }

end rhel8

namespace weldr

/-!
# osbuild-composer: the store of the weldr API (`internal/weldr/store.go`)

A shallow embedding of the store of blueprints and composes.

Modelling conventions

* a Go map is a function into `Option`, as in the model of the queue.
* a slice that may be nil is an `Option` of a list, `none` for nil; a pointer
  to a blueprint is an `Option`, `none` for nil.
* `time.Time` is a natural number, zero for the zero time; `time.Now()` is the
  argument `now` of the functions that call it.
* a `uuid.UUID` is its canonical text, so `String()` is the identity.
* the channel `pendingJobs` is the list of the jobs sent on it so far. The
  mutex and the channel of serialised states are left out: `change(f)` is `f`.
* a panic is `none`.
-/

abbrev UUID := String

abbrev Time := Nat

/-- The record `blueprintPackage`. -/
structure blueprintPackage where
  Name : String
  Version : String
  deriving DecidableEq, Repr

/-- The record `blueprint`. -/
structure blueprint where
  Name : String
  Description : String
  Version : String
  Packages : Option (List blueprintPackage)
  Modules : Option (List blueprintPackage)
  deriving DecidableEq, Repr

/-- The zero value of `blueprint`. -/
def blueprint.zero : blueprint :=
  { Name := "", Description := "", Version := "", Packages := none, Modules := none }

/-- Modelled from the spec: `target.Target` and the constructors
`NewLocalTarget` and `NewLocalTargetOptions` are declared in `internal/target`,
not under src. `store.go` builds local targets only, from a location. -/
inductive Target where
  | localTarget (location : String)
  deriving DecidableEq, Repr

/-- Modelled from the spec: `pipeline.Pipeline` is declared in
`internal/pipeline`, not under src. `store.go` builds two pipelines, neither of
which reads the blueprint: the one of `translateToTarPipeline` and the one of
`translateToQCOW2Pipeline`. -/
inductive Pipeline where
  | tarPipeline
  | qcow2Pipeline
  deriving DecidableEq, Repr

/-- Modelled from the spec: `job.Job` is declared in `internal/job`, not under
src. These are the fields `addCompose` fills in. -/
structure Job where
  ComposeID : UUID
  Pipeline : Pipeline
  Targets : List Target
  deriving DecidableEq, Repr

set_option linter.dupNamespace false in
/-- Modelled from the spec: `job.Status` is declared in `internal/job`, not
under src. These are the fields the update loop reads. -/
structure Status where
  ComposeID : UUID
  Status : String
  deriving DecidableEq, Repr

/-- The record `compose`. -/
structure compose where
  QueueStatus : String
  Blueprint : Option blueprint
  OutputType : String
  Targets : List Target
  JobCreated : Time
  JobStarted : Time
  JobFinished : Time
  deriving DecidableEq, Repr

/-- The record `store`, with the jobs sent on `pendingJobs`. -/
structure store where
  Blueprints : String → Option blueprint
  Workspace : String → Option blueprint
  Composes : UUID → Option compose
  pendingJobs : List Job

/-- The store `newStore` builds from no initial state. -/
def newStore : store :=
  { Blueprints := fun _ => none, Workspace := fun _ => none, Composes := fun _ => none,
    pendingJobs := [] }

/-- One round of the update loop of `newStore`: the function handed to
`change`, for the update received, at the time `now`. The compose is copied
from the map into the local variable `compose`, the assignments go to that
variable, and the map is not written. The result is the store after the round
and the last value of the local variable, `none` when there is no such
compose. -/
def jobUpdate (s : store) (update : Status) (now : Time) : store × Option compose :=
  match s.Composes update.ComposeID with
  | none => (s, none)
  | some compose =>
    if compose.QueueStatus ≠ update.Status then
      let compose :=
        if update.Status = "RUNNING" then { compose with JobStarted := now }
        else if update.Status = "FINISHED" ∨ update.Status = "FAILED" then
          { compose with JobFinished := now }
        else compose
      (s, some { compose with QueueStatus := update.Status })
    else
      (s, some compose)

/-- The method `getBlueprint`. The result is the return value, the blueprint
written through `bp`, and the flag behind `changed` (`none` for a nil pointer,
otherwise the value of the variable pointed to), with the store after the
call: the method writes through its two pointers only. -/
def getBlueprint (s : store) (name : String) (changed : Option Bool) :
    (Bool × blueprint × Option Bool) × store :=
  let inWorkspace := (s.Workspace name).isSome
  let found := if inWorkspace then s.Workspace name else s.Blueprints name
  match found with
  | none => ((false, blueprint.zero, changed), s)
  | some bp =>
    let bp := if bp.Packages = none then { bp with Packages := some [] } else bp
    let bp := if bp.Modules = none then { bp with Modules := some [] } else bp
    let changed := if changed ≠ none then some inWorkspace else changed
    ((true, bp, changed), s)

/-- The method `getBlueprintCommitted`: the return value and the blueprint
written through `bp`, with the store after the call. -/
def getBlueprintCommitted (s : store) (name : String) : (Bool × blueprint) × store :=
  match s.Blueprints name with
  | none => ((false, blueprint.zero), s)
  | some bp =>
    let bp := if bp.Packages = none then { bp with Packages := some [] } else bp
    let bp := if bp.Modules = none then { bp with Modules := some [] } else bp
    ((true, bp), s)

/-- The method `pushBlueprint`. -/
def pushBlueprint (s : store) (bp : blueprint) : store :=
  { s with Workspace := Function.update s.Workspace bp.Name none,
           Blueprints := Function.update s.Blueprints bp.Name (some bp) }

/-- The method `pushBlueprintToWorkspace`. -/
def pushBlueprintToWorkspace (s : store) (bp : blueprint) : store :=
  { s with Workspace := Function.update s.Workspace bp.Name (some bp) }

/-- The method `translateToPipeline`; `none` is the panic for an output format
other than `tar` and `qcow2`. The receiver is not read, and may be nil. -/
def translateToPipeline (_b : Option blueprint) (outputFormat : String) : Option Pipeline :=
  if outputFormat = "tar" then some Pipeline.tarPipeline
  else if outputFormat = "qcow2" then some Pipeline.qcow2Pipeline
  else none

/-- The method `addCompose`, at the time `now`; `none` is the panic of
`translateToPipeline`, which is reached after the compose was stored. -/
def addCompose (s : store) (composeID : UUID) (bp : Option blueprint) (composeType : String)
    (now : Time) : Option store :=
  let targets := [Target.localTarget ("/var/lib/osbuild-composer/outputs/" ++ composeID)]
  let c : compose :=
    { QueueStatus := "WAITING", Blueprint := bp, OutputType := composeType, Targets := targets,
      JobCreated := now, JobStarted := 0, JobFinished := 0 }
  let s1 : store := { s with Composes := Function.update s.Composes composeID (some c) }
  match translateToPipeline bp composeType with
  | none => none
  | some p =>
    some { s1 with pendingJobs :=
      s1.pendingJobs ++ [{ ComposeID := composeID, Pipeline := p, Targets := targets }] }

/-! ## Concrete stores -/

/-- A blueprint without packages and modules. -/
def bareBlueprint : blueprint :=
  { Name := "base", Description := "", Version := "0.0.1", Packages := none, Modules := none }

/-- A blueprint with one package. -/
def httpdBlueprint : blueprint :=
  { Name := "base", Description := "web", Version := "0.0.2",
    Packages := some [{ Name := "httpd", Version := "2.4.*" }], Modules := none }

/-- A store with the blueprint `base` committed and, changed, in the
workspace. -/
def shadowedStore : store :=
  pushBlueprintToWorkspace (pushBlueprint newStore bareBlueprint) httpdBlueprint

/-- The id of a compose. -/
def sampleComposeID : UUID := "c57ecd2f-5c84-43ac-a541-5fb488e7960c"

/-- A store with one compose, added at the time 100 and waiting. -/
def waitingStore : store :=
  (addCompose newStore sampleComposeID (some bareBlueprint) "tar" 100).getD newStore

/-- The compose of `waitingStore`. -/
def waitingCompose : compose :=
  { QueueStatus := "WAITING", Blueprint := some bareBlueprint, OutputType := "tar",
    Targets := [Target.localTarget
      "/var/lib/osbuild-composer/outputs/c57ecd2f-5c84-43ac-a541-5fb488e7960c"],
    JobCreated := 100, JobStarted := 0, JobFinished := 0 }

end weldr

namespace upload

/-!
# osbuild-composer: upload requests and responses (`internal/weldr/upload.go`)

A shallow embedding of `targetsToUploadResponses` and `uploadRequestToTarget`.

Modelling conventions

* an interface value is an `Option` of the sum of the pointer types the code
  switches on; `none` is nil, or a value of any other type.
* `uuid.New()` and `time.Now()` are arguments; `time.Time` is the number of
  nanoseconds `UnixNano()` gives.
* `CreationTime` holds those nanoseconds: the conversion to `float64` and the
  division by `1000000000` are not modelled.
* the status of a target is the `ImageBuildState` of the model of the store.
-/

abbrev UUID := Nat

abbrev Time := Nat

/-- The record `awsUploadSettings`. -/
structure awsUploadSettings where
  Region : String
  AccessKeyID : String
  SecretAccessKey : String
  Bucket : String
  Key : String
  deriving DecidableEq, Repr

/-- The record `azureUploadSettings`. -/
structure azureUploadSettings where
  Account : String
  AccessKey : String
  Container : String
  deriving DecidableEq, Repr

/-- The interface `uploadSettings`, for the two pointer types the code switches
on. -/
inductive uploadSettings where
  | aws (options : awsUploadSettings)
  | azure (options : azureUploadSettings)
  deriving DecidableEq, Repr

/-- The record `uploadResponse`. -/
structure uploadResponse where
  Uuid : UUID
  Status : store.ImageBuildState
  ProviderName : String
  ImageName : String
  CreationTime : Nat
  Settings : Option uploadSettings
  deriving DecidableEq, Repr

/-- The record `uploadRequest`. -/
structure uploadRequest where
  Provider : String
  ImageName : String
  Settings : Option uploadSettings
  deriving DecidableEq, Repr

/-- Modelled from the spec: `target.LocalTargetOptions` is declared in
`internal/target`, not under src. `upload.go` reads no field of it. -/
structure LocalTargetOptions where
  Filename : String
  deriving DecidableEq, Repr

/-- Modelled from the spec: `target.AWSTargetOptions` is declared in
`internal/target`, not under src. These are the fields `upload.go` reads and
writes. -/
structure AWSTargetOptions where
  Filename : String
  Region : String
  AccessKeyID : String
  SecretAccessKey : String
  Bucket : String
  Key : String
  deriving DecidableEq, Repr

/-- Modelled from the spec: `target.AzureTargetOptions` is declared in
`internal/target`, not under src. These are the fields `upload.go` reads and
writes. -/
structure AzureTargetOptions where
  Filename : String
  Account : String
  AccessKey : String
  Container : String
  deriving DecidableEq, Repr

/-- The record `GCPTargetOptions` of `internal/target/gcp_target.go`. -/
structure GCPTargetOptions where
  Filename : String
  Bucket : String
  Object : String
  deriving DecidableEq, Repr

/-- Modelled from the spec: the interface `target.TargetOptions` is declared
in `internal/target`, not under src: the pointer types `upload.go` switches on,
and the options of `gcp_target.go`. -/
inductive TargetOptions where
  | localOptions (options : LocalTargetOptions)
  | awsOptions (options : AWSTargetOptions)
  | azureOptions (options : AzureTargetOptions)
  | gcpOptions (options : GCPTargetOptions)
  deriving DecidableEq, Repr

/-- Modelled from the spec: `target.Target` is declared in `internal/target`,
not under src. These are the fields `upload.go` reads and writes. -/
structure Target where
  Uuid : UUID
  ImageName : String
  Name : String
  Created : Time
  Status : store.ImageBuildState
  Options : Option TargetOptions
  deriving DecidableEq, Repr

/-- The zero value of `target.Target`. -/
def Target.zero : Target :=
  { Uuid := 0, ImageName := "", Name := "", Created := 0,
    Status := store.ImageBuildState.IBWaiting, Options := none }

/-- The function `targetsToUploadResponses`. -/
def targetsToUploadResponses : List Target → List uploadResponse
  | [] => []
  | t :: targets =>
    let upload : uploadResponse :=
      { Uuid := t.Uuid, Status := t.Status, ProviderName := "", ImageName := t.ImageName,
        CreationTime := t.Created, Settings := none }
    match t.Options with
    | some (TargetOptions.localOptions _) => targetsToUploadResponses targets
    | some (TargetOptions.awsOptions options) =>
      { upload with
        ProviderName := "aws",
        Settings := some (uploadSettings.aws
          { Region := options.Region, AccessKeyID := options.AccessKeyID,
            SecretAccessKey := options.SecretAccessKey, Bucket := options.Bucket,
            Key := options.Key }) } :: targetsToUploadResponses targets
    | some (TargetOptions.azureOptions options) =>
      { upload with
        ProviderName := "azure",
        Settings := some (uploadSettings.azure
          { Account := options.Account, AccessKey := options.AccessKey,
            Container := options.Container }) } :: targetsToUploadResponses targets
    | _ => upload :: targetsToUploadResponses targets

/-- The function `uploadRequestToTarget`; `none` is its error. Modelled from
the spec: `distro.Distro` is declared in `internal/distro`, not under src; its
method `FilenameFromType` is the argument `filenameFromType`, which gives the
file name and the MIME type of an image type, or `none` for its error. -/
def uploadRequestToTarget (u : uploadRequest)
    (filenameFromType : String → Option (String × String)) (imageType : String)
    (newUuid : UUID) (now : Time) : Option Target :=
  match filenameFromType imageType with
  | none => none
  | some (filename, _) =>
    let t : Target :=
      { Target.zero with
        Uuid := newUuid, ImageName := u.ImageName,
        Status := store.ImageBuildState.IBWaiting, Created := now }
    match u.Settings with
    | some (uploadSettings.aws options) =>
      some { t with
        Name := "org.osbuild.aws",
        Options := some (TargetOptions.awsOptions
          { Filename := filename, Region := options.Region,
            AccessKeyID := options.AccessKeyID, SecretAccessKey := options.SecretAccessKey,
            Bucket := options.Bucket, Key := options.Key }) }
    | some (uploadSettings.azure options) =>
      some { t with
        Name := "org.osbuild.azure",
        Options := some (TargetOptions.azureOptions
          { Filename := filename, Account := options.Account,
            AccessKey := options.AccessKey, Container := options.Container }) }
    | none => some t

/-- The provider name `targetsToUploadResponses` gives for the settings. -/
def uploadSettings.provider : uploadSettings → String
  | .aws _ => "aws"
  | .azure _ => "azure"

/-- The target is a local target. -/
def Target.isLocal (t : Target) : Bool :=
  match t.Options with
  | some (TargetOptions.localOptions _) => true
  | _ => false

/-! ## Concrete requests -/

/-- An upload request for AWS. -/
def awsRequest : uploadRequest :=
  { Provider := "aws", ImageName := "my-image",
    Settings := some (uploadSettings.aws
      { Region := "eu-central-1", AccessKeyID := "id", SecretAccessKey := "secret",
        Bucket := "bucket", Key := "key" }) }

/-- A distribution that knows the image type `ami`. -/
def amiFilename (imageType : String) : Option (String × String) :=
  if imageType = "ami" then some ("image.vhdx", "application/octet-stream") else none

end upload

namespace worker

/-!
# osbuild-composer: the client of the worker API (`internal/worker/client.go`)

A shallow embedding of `JobCanceled`.

Modelling conventions

* a `uuid.UUID` is its canonical text, so `String()` is the identity.
* the HTTP client is the argument `get`: what `c.client.Get` returns for a URL,
  `none` for its error, otherwise the status code and the body of the
  response.
* the JSON decoder is the argument `decode`, `none` for its error.
-/

abbrev UUID := String

/-- The fields of `Client` that `createURL` reads. -/
structure Client where
  scheme : String
  hostname : String
  deriving DecidableEq, Repr

/-- The record `jobResponse` of `json.go`. -/
structure jobResponse where
  ID : UUID
  Canceled : Bool
  deriving DecidableEq, Repr

/-- What `JobCanceled` reads of an `http.Response`. -/
structure Response where
  StatusCode : Nat
  Body : List Nat
  deriving DecidableEq, Repr

/-- The constant `http.StatusOK`. -/
def StatusOK : Nat := 200

/-- The method `createURL`. -/
def Client.createURL (c : Client) (path : String) : String :=
  c.scheme ++ "://" ++ c.hostname ++ path

/-- The method `JobCanceled`. -/
def Client.JobCanceled (c : Client) (get : String → Option Response)
    (decode : List Nat → Option jobResponse) (jobID : UUID) : Bool :=
  match get (c.createURL ("/job-queue/v1/jobs/" ++ jobID)) with
  | none => true
  | some response =>
    if response.StatusCode ≠ StatusOK then
      true
    else
      match decode response.Body with
      | none => true
      | some jr => jr.Canceled

end worker

namespace osbuildworker

/-!
# osbuild-composer: the worker (`cmd/osbuild-worker/main.go`)

A shallow embedding of the loop of `main`, of the steps of `main` before the
loop, and of `WatchJob`.

Modelling conventions

* what the worker finds outside itself is an argument: the command line and
  the environment, the outcome of the calls of the client, and what `RunJob`
  returns.
* a pointer to a result is an `Option`, `none` for nil.
* the process ends with `os.Exit(0)` where the code says so, and by `log.Fatal`
  or `log.Fatalf`, which print and call `os.Exit(1)` (package `log` of the
  standard library). The exit status is a natural number.
* `WatchJob` runs beside `RunJob`; the model has the two apart.
-/

/-- Modelled from the spec: `osbuild.Result` is declared in `internal/osbuild`,
not under src. `main` writes its flag `Success`; the rest is kept as one
value. -/
structure Result where
  Success : Bool
  Output : List Nat
  deriving DecidableEq, Repr

/-- The error `RunJob` returns, as `main` tells errors apart. Modelled from the
spec: `OSBuildError` is declared in `osbuild.go` of the command, not under src;
`main` reads its field `Result`. Every other error is `other`. -/
inductive JobError where
  | OSBuildError (Result : Option Result)
  | other (message : String)
  deriving DecidableEq, Repr

/-- The status of `log.Fatal` and `log.Fatalf`. -/
def logFatal : Nat := 1

/-- Lines 261 to 290 of `main`: the status and the result handed to
`job.Update`, from the result and the error of `RunJob`. -/
def jobUpdate (result : Option Result) (err : Option JobError) :
    store.ImageBuildState × Option Result :=
  match err with
  | some e =>
    let result :=
      match e with
      | JobError.OSBuildError r => r
      | JobError.other _ => result
    let result : Result :=
      match result with
      | none => { Success := false, Output := [] }
      | some r => r
    (store.ImageBuildState.IBFailed, some { result with Success := false })
  | none => (store.ImageBuildState.IBFinished, result)

/-- The function `WatchJob`, on the answers of `job.Canceled()` at the firings
of the timer until the context is done: the status the process exits with, or
`none` when the function returns. -/
def WatchJob : List (Except String Bool) → Option Nat
  | [] => none
  | .error _ :: _ => some 0
  | .ok true :: _ => some 0
  | .ok false :: polls => WatchJob polls

/-- What `main` finds when it starts: the flag `-unix`, the address argument,
the variable `CACHE_DIRECTORY`, and whether `createTLSConfig` and
`worker.NewClient` succeed. -/
structure Environment where
  unix : Bool
  address : String
  cacheDirectory : Option String
  tlsConfig : Bool
  newClient : Bool
  deriving DecidableEq, Repr

/-- The steps of `main` before the loop: the status the process exits with, or
`none` when the loop is entered. -/
def startup (env : Environment) : Option Nat :=
  if env.address = "" then some 0
  else if env.cacheDirectory = none then some logFatal
  else if env.unix then none
  else if env.tlsConfig = false then some logFatal
  else if env.newClient = false then some logFatal
  else none

/-- What one round of the loop of `main` finds: whether `RequestJob` succeeds,
what `RunJob` returns, and whether `job.Update` succeeds. -/
structure Round where
  requestJob : Bool
  result : Option Result
  err : Option JobError
  update : Bool
  deriving DecidableEq, Repr

/-- One round of the loop of `main`: the status the process exits with, `none`
when the loop goes on, and the update sent with `job.Update`, if any. -/
def round (r : Round) : Option Nat × Option (store.ImageBuildState × Option Result) :=
  if r.requestJob = false then (some logFatal, none)
  else if r.update = false then (some logFatal, some (jobUpdate r.result r.err))
  else (none, some (jobUpdate r.result r.err))

end osbuildworker

namespace osbuildpipeline

/-!
# osbuild-composer: the pipeline command (`cmd/osbuild-pipeline/main.go`)

A shallow embedding of lines 78 to 94 of `main`: the list of packages handed
to the dependency solver. A panic is `none`.
-/

/-- Modelled from the spec: `blueprint.Package` is declared in
`internal/blueprint`, not under src. `main` reads its name and its version. -/
structure Package where
  Name : String
  Version : String
  deriving DecidableEq, Repr

/-- The body of the loop over the packages of the blueprint: the entry
`packages[i]` for the package `pkg`. -/
def packageSpec (pkg : Package) : String :=
  let s := pkg.Name
  if pkg.Version ≠ "" ∧ pkg.Version ≠ "*" then
    s ++ ("-" ++ pkg.Version)
  else if pkg.Version = "*" then
    s ++ "-*-*.*"
  else
    s

/-- Lines 78 to 94 of `main`: the list `packages` after the `append`, from the
packages of the blueprint and what `d.BasePackages` returns (the packages and
the excluded packages, `none` for its error). -/
def depsolvePackages (blueprintPackages : List Package)
    (basePackages : Option (List String × List String)) : Option (List String) :=
  let packages := blueprintPackages.map packageSpec
  match basePackages with
  | none => none
  | some (pkgs, _) => some (pkgs ++ packages)

end osbuildpipeline

namespace testjobqueue

/-! ## What `countFinishedJobs` computes -/

theorem countFinishedJobsFrom_congr {q q1 : testJobQueue} (h : q1.jobs = q.jobs) (n : Nat)
    (ids : List UUID) : countFinishedJobsFrom q1 n ids = countFinishedJobsFrom q n ids := by
  induction ids generalizing n with
  | nil => rfl
  | cons d ds ih =>
    simp only [countFinishedJobsFrom, h]
    cases q.jobs d with
    | none => rfl
    | some j => exact ih _

theorem countFinishedJobs_congr {q q1 : testJobQueue} (h : q1.jobs = q.jobs)
    (ids : List UUID) : countFinishedJobs q1 ids = countFinishedJobs q ids :=
  countFinishedJobsFrom_congr h 0 ids

theorem countFinishedJobsFrom_ok {q : testJobQueue} {ids : List UUID} {n m : Nat}
    (h : countFinishedJobsFrom q n ids = .ok m) :
    (∀ d ∈ ids, ∃ jd, q.jobs d = some jd) ∧ n ≤ m ∧ m ≤ n + ids.length ∧
      (m = n + ids.length ↔ ∀ d ∈ ids, finished q d) := by
  induction ids generalizing n with
  | nil =>
    simp only [countFinishedJobsFrom, Except.ok.injEq] at h
    subst h
    simp
  | cons d ds ih =>
    simp only [countFinishedJobsFrom] at h
    cases hd : q.jobs d with
    | none => rw [hd] at h; cases h
    | some j =>
      rw [hd] at h
      obtain ⟨h1, h2, h3, h4⟩ := ih h
      by_cases hr : j.Result ≠ none
      · rw [if_pos hr] at h2 h3 h4
        refine ⟨?_, by omega, by simp only [List.length_cons]; omega, ?_⟩
        · intro x hx
          rcases List.mem_cons.1 hx with rfl | hx
          · exact ⟨j, hd⟩
          · exact h1 x hx
        · simp only [List.length_cons, List.forall_mem_cons]
          constructor
          · intro hm
            exact ⟨⟨j, hd, hr⟩, h4.1 (by omega)⟩
          · intro hall
            have := h4.2 hall.2
            omega
      · rw [if_neg hr] at h2 h3 h4
        refine ⟨?_, by omega, by simp only [List.length_cons]; omega, ?_⟩
        · intro x hx
          rcases List.mem_cons.1 hx with rfl | hx
          · exact ⟨j, hd⟩
          · exact h1 x hx
        · simp only [List.length_cons, List.forall_mem_cons]
          constructor
          · intro hm
            omega
          · rintro ⟨⟨jd, hjd, hres⟩, -⟩
            rw [hd] at hjd
            cases hjd
            exact absurd hres hr

theorem countFinishedJobsFrom_total {q : testJobQueue} {ids : List UUID}
    (h : ∀ d ∈ ids, ∃ jd, q.jobs d = some jd) (n : Nat) :
    ∃ m, countFinishedJobsFrom q n ids = .ok m := by
  induction ids generalizing n with
  | nil => exact ⟨n, rfl⟩
  | cons d ds ih =>
    obtain ⟨jd, hjd⟩ := h d (List.mem_cons_self _ _)
    simp only [countFinishedJobsFrom, hjd]
    exact ih (fun x hx => h x (List.mem_cons_of_mem _ hx)) _

theorem countFinishedJobsFrom_error {q : testJobQueue} {ids : List UUID} {n : Nat} {e : Error}
    (h : countFinishedJobsFrom q n ids = .error e) :
    e = Error.ErrNotExist ∧ ∃ d ∈ ids, q.jobs d = none := by
  induction ids generalizing n with
  | nil => simp [countFinishedJobsFrom] at h
  | cons d ds ih =>
    simp only [countFinishedJobsFrom] at h
    cases hd : q.jobs d with
    | none =>
      rw [hd] at h
      simp only [Except.error.injEq] at h
      exact ⟨h.symm, d, List.mem_cons_self _ _, hd⟩
    | some j =>
      rw [hd] at h
      obtain ⟨h1, x, hx, hx2⟩ := ih h
      exact ⟨h1, x, List.mem_cons_of_mem _ hx, hx2⟩

theorem countFinishedJobs_ok {q : testJobQueue} {ids : List UUID} {m : Nat}
    (h : countFinishedJobs q ids = .ok m) :
    (∀ d ∈ ids, ∃ jd, q.jobs d = some jd) ∧ (m = ids.length ↔ ∀ d ∈ ids, finished q d) := by
  obtain ⟨h1, -, -, h4⟩ := countFinishedJobsFrom_ok h
  exact ⟨h1, by simpa using h4⟩

theorem countFinishedJobs_total {q : testJobQueue} {ids : List UUID}
    (h : ∀ d ∈ ids, ∃ jd, q.jobs d = some jd) : ∃ m, countFinishedJobs q ids = .ok m :=
  countFinishedJobsFrom_total h 0

theorem countFinishedJobs_error {q : testJobQueue} {ids : List UUID} {e : Error}
    (h : countFinishedJobs q ids = .error e) :
    e = Error.ErrNotExist ∧ ∃ d ∈ ids, q.jobs d = none :=
  countFinishedJobsFrom_error h

/-! ## Well-formedness of the reachable states -/

theorem WF_New : WF New := by
  constructor <;> intros <;> simp_all [New]

/-- Replacing the ready list of one type by ids that may be ready. -/
theorem WF.set_pending {q : testJobQueue} (h : WF q) (t : String) (l : List UUID)
    (hl : ∀ x ∈ l, ∃ j, q.jobs x = some j ∧ j.JobType = t ∧
      ∀ d ∈ j.Dependencies, finished q d) :
    WF { q with pending := Function.update q.pending t l } := by
  refine ⟨h.id_eq, ?_, h.dependants_ok, h.result_iff, h.started_ok, h.finished_started⟩
  intro t1 id hid
  simp only [Function.update_apply] at hid
  by_cases ht : t1 = t
  · rw [if_pos ht] at hid
    subst ht
    exact hl id hid
  · rw [if_neg ht] at hid
    exact h.pending_ok t1 id hid

/-- Replacing the dependants map by one that only registers waiting jobs. -/
theorem WF.set_dependants {q : testJobQueue} (h : WF q) (m : UUID → Option (List UUID))
    (hm : ∀ k l, m k = some l → ∀ id ∈ l, ∃ j, q.jobs id = some j ∧ k ∈ j.Dependencies ∧
      ∀ d ∈ j.Dependencies, ∃ jd, q.jobs d = some jd) :
    WF { q with dependants := m } :=
  ⟨h.id_eq, h.pending_ok, hm, h.result_iff, h.started_ok, h.finished_started⟩

/-- Writing through the pointer of a job: the id, type and dependencies stay,
a result is not taken away. -/
theorem WF.update_job {q : testJobQueue} (h : WF q) {id : UUID} {j : job} (j1 : job)
    (hj : q.jobs id = some j) (hid : j1.Id = j.Id) (hty : j1.JobType = j.JobType)
    (hdeps : j1.Dependencies = j.Dependencies) (hres : j.Result ≠ none → j1.Result ≠ none)
    (hri : j1.Result ≠ none ↔ j1.FinishedAt ≠ 0)
    (hst : j1.StartedAt ≠ 0 → ∀ d ∈ j.Dependencies, finished q d)
    (hfs : j1.FinishedAt ≠ 0 → j1.StartedAt ≠ 0) :
    WF { q with jobs := Function.update q.jobs id (some j1) } := by
  have hex : ∀ x jx, q.jobs x = some jx →
      ∃ jy, Function.update q.jobs id (some j1) x = some jy := by
    intro x jx hx
    by_cases hxi : x = id
    · exact ⟨j1, by rw [hxi, Function.update_same]⟩
    · exact ⟨jx, by rw [Function.update_noteq hxi]; exact hx⟩
  have hfin : ∀ d, finished q d →
      finished { q with jobs := Function.update q.jobs id (some j1) } d := by
    rintro d ⟨jd, hjd, hr⟩
    by_cases hdi : d = id
    · subst hdi
      rw [hj] at hjd
      cases hjd
      exact ⟨j1, by simp, hres hr⟩
    · exact ⟨jd, by simpa [Function.update_noteq hdi] using hjd, hr⟩
  constructor
  · intro x jx hx
    by_cases hxi : x = id
    · subst hxi
      simp only [Function.update_same, Option.some.injEq] at hx
      subst hx
      rw [hid]
      exact h.id_eq _ _ hj
    · simp only [Function.update_noteq hxi] at hx
      exact h.id_eq _ _ hx
  · intro t x hx
    obtain ⟨jx, hjx, htx, hdx⟩ := h.pending_ok t x hx
    by_cases hxi : x = id
    · subst hxi
      rw [hj] at hjx
      cases hjx
      refine ⟨j1, by simp, by rw [hty]; exact htx, ?_⟩
      rw [hdeps]
      exact fun d hd => hfin d (hdx d hd)
    · exact ⟨jx, by simpa [Function.update_noteq hxi] using hjx, htx,
        fun d hd => hfin d (hdx d hd)⟩
  · intro k l hkl x hx
    obtain ⟨jx, hjx, hkx, hdx⟩ := h.dependants_ok k l hkl x hx
    by_cases hxi : x = id
    · subst hxi
      rw [hj] at hjx
      cases hjx
      refine ⟨j1, by simp, by rw [hdeps]; exact hkx, ?_⟩
      rw [hdeps]
      intro d hd
      obtain ⟨jd, hjd⟩ := hdx d hd
      exact hex d jd hjd
    · refine ⟨jx, by simpa [Function.update_noteq hxi] using hjx, hkx, ?_⟩
      intro d hd
      obtain ⟨jd, hjd⟩ := hdx d hd
      exact hex d jd hjd
  · intro x jx hx
    by_cases hxi : x = id
    · subst hxi
      simp only [Function.update_same, Option.some.injEq] at hx
      subst hx
      exact hri
    · simp only [Function.update_noteq hxi] at hx
      exact h.result_iff _ _ hx
  · intro x jx hx hs d hd
    by_cases hxi : x = id
    · subst hxi
      simp only [Function.update_same, Option.some.injEq] at hx
      subst hx
      rw [hdeps] at hd
      exact hfin d (hst hs d hd)
    · simp only [Function.update_noteq hxi] at hx
      exact hfin d (h.started_ok _ _ hx hs d hd)
  · intro x jx hx
    by_cases hxi : x = id
    · subst hxi
      simp only [Function.update_same, Option.some.injEq] at hx
      subst hx
      exact hfs
    · simp only [Function.update_noteq hxi] at hx
      exact h.finished_started _ _ hx

/-- Storing a new job under an id that no job has. -/
theorem WF.insert_job {q : testJobQueue} (h : WF q) {id : UUID} (jn : job)
    (hfresh : q.jobs id = none) (hid : jn.Id = id) (hres : jn.Result = none)
    (hs : jn.StartedAt = 0) (hf : jn.FinishedAt = 0) :
    WF { q with jobs := Function.update q.jobs id (some jn) } := by
  have hne : ∀ x jx, q.jobs x = some jx → x ≠ id := by
    intro x jx hx hxi
    rw [hxi, hfresh] at hx
    cases hx
  have hkeep : ∀ x jx, q.jobs x = some jx →
      Function.update q.jobs id (some jn) x = some jx := by
    intro x jx hx
    rw [Function.update_noteq (hne x jx hx)]
    exact hx
  have hfin : ∀ d, finished q d →
      finished { q with jobs := Function.update q.jobs id (some jn) } d := by
    rintro d ⟨jd, hjd, hr⟩
    exact ⟨jd, hkeep d jd hjd, hr⟩
  have hold : ∀ x jx, Function.update q.jobs id (some jn) x = some jx →
      (x = id ∧ jx = jn) ∨ (x ≠ id ∧ q.jobs x = some jx) := by
    intro x jx hx
    by_cases hxi : x = id
    · subst hxi
      simp only [Function.update_same, Option.some.injEq] at hx
      exact Or.inl ⟨rfl, hx.symm⟩
    · simp only [Function.update_noteq hxi] at hx
      exact Or.inr ⟨hxi, hx⟩
  constructor
  · intro x jx hx
    rcases hold x jx hx with ⟨rfl, rfl⟩ | ⟨-, hx1⟩
    · exact hid
    · exact h.id_eq _ _ hx1
  · intro t x hx
    obtain ⟨jx, hjx, htx, hdx⟩ := h.pending_ok t x hx
    exact ⟨jx, hkeep x jx hjx, htx, fun d hd => hfin d (hdx d hd)⟩
  · intro k l hkl x hx
    obtain ⟨jx, hjx, hkx, hdx⟩ := h.dependants_ok k l hkl x hx
    refine ⟨jx, hkeep x jx hjx, hkx, ?_⟩
    intro d hd
    obtain ⟨jd, hjd⟩ := hdx d hd
    exact ⟨jd, hkeep d jd hjd⟩
  · intro x jx hx
    rcases hold x jx hx with ⟨rfl, rfl⟩ | ⟨-, hx1⟩
    · simp [hres, hf]
    · exact h.result_iff _ _ hx1
  · intro x jx hx hst d hd
    rcases hold x jx hx with ⟨rfl, rfl⟩ | ⟨-, hx1⟩
    · exact absurd hs hst
    · exact hfin d (h.started_ok _ _ hx1 hst d hd)
  · intro x jx hx hfa
    rcases hold x jx hx with ⟨rfl, rfl⟩ | ⟨-, hx1⟩
    · exact absurd hf hfa
    · exact h.finished_started _ _ hx1 hfa

/-! ## The calls keep the queue well-formed -/

theorem addDependant_apply (newId : UUID) (m : UUID → Option (List UUID)) (ids : List UUID)
    (k : UUID) :
    addDependant newId m ids k =
      if k ∈ ids then some ((m k).getD [] ++ List.replicate (ids.count k) newId) else m k := by
  induction ids generalizing m with
  | nil => simp [addDependant]
  | cons d ds ih =>
    rw [addDependant, ih]
    by_cases hkd : k = d
    · subst hkd
      by_cases hk : k ∈ ds
      · simp [hk, List.replicate_succ]
      · simp [hk, List.count_eq_zero_of_not_mem hk]
    · have hdk : d ≠ k := fun e => hkd e.symm
      by_cases hk : k ∈ ds
      · simp [hk, hkd, hdk, Function.update_noteq hkd]
      · simp [hk, hkd, hdk, Function.update_noteq hkd]

theorem addDependant_mem {newId : UUID} {m : UUID → Option (List UUID)} {ids : List UUID}
    {k : UUID} {l : List UUID} (h : addDependant newId m ids k = some l) :
    ∀ x ∈ l, (∃ l0, m k = some l0 ∧ x ∈ l0) ∨ (x = newId ∧ k ∈ ids) := by
  intro x hx
  rw [addDependant_apply] at h
  by_cases hk : k ∈ ids
  · rw [if_pos hk] at h
    simp only [Option.some.injEq] at h
    subst h
    rcases List.mem_append.1 hx with hx | hx
    · cases hm : m k with
      | none => simp [hm] at hx
      | some l0 =>
        rw [hm] at hx
        exact Or.inl ⟨l0, rfl, hx⟩
    · exact Or.inr ⟨(List.mem_replicate.1 hx).2, hk⟩
  · rw [if_neg hk] at h
    exact Or.inl ⟨l, h, hx⟩

theorem Enqueue_marshalError (q : testJobQueue) (newId : UUID) (now : Time) (jobType : String)
    (deps : List UUID) : Enqueue q newId now jobType none deps = (.error Error.marshalError, q) :=
  rfl

theorem Enqueue_error {q : testJobQueue} {newId : UUID} {now : Time} {jobType : String}
    {a : RawMessage} {deps : List UUID} {e : Error}
    (h : countFinishedJobs (storedJob q newId now jobType a deps) deps = .error e) :
    Enqueue q newId now jobType (some a) deps =
      (.error e, storedJob q newId now jobType a deps) := by
  simp only [storedJob, enqueuedJob] at h
  simp only [Enqueue, h]
  rfl

theorem Enqueue_ready {q : testJobQueue} {newId : UUID} {now : Time} {jobType : String}
    {a : RawMessage} {deps : List UUID}
    (h : countFinishedJobs (storedJob q newId now jobType a deps) deps = .ok deps.length) :
    Enqueue q newId now jobType (some a) deps =
      (.ok newId, { storedJob q newId now jobType a deps with
        pending := Function.update q.pending jobType (q.pending jobType ++ [newId]) }) := by
  simp only [storedJob, enqueuedJob] at h
  simp only [Enqueue, h]
  rfl

theorem Enqueue_waiting {q : testJobQueue} {newId : UUID} {now : Time} {jobType : String}
    {a : RawMessage} {deps : List UUID} {n : Nat}
    (h : countFinishedJobs (storedJob q newId now jobType a deps) deps = .ok n)
    (hn : n ≠ deps.length) :
    Enqueue q newId now jobType (some a) deps =
      (.ok newId, { storedJob q newId now jobType a deps with
        dependants := addDependant newId q.dependants deps }) := by
  simp only [storedJob, enqueuedJob] at h
  simp only [Enqueue, h, if_neg hn]
  rfl

theorem WF_storedJob {q : testJobQueue} (h : WF q) {newId : UUID} (hfresh : q.jobs newId = none)
    (now : Time) (jobType : String) (a : RawMessage) (deps : List UUID) :
    WF (storedJob q newId now jobType a deps) :=
  h.insert_job (enqueuedJob newId now jobType a deps) hfresh rfl rfl rfl rfl

theorem storedJob_jobs_self (q : testJobQueue) (newId : UUID) (now : Time) (jobType : String)
    (a : RawMessage) (deps : List UUID) :
    (storedJob q newId now jobType a deps).jobs newId =
      some (enqueuedJob newId now jobType a deps) := by
  simp [storedJob]

theorem WF_Enqueue {q : testJobQueue} (h : WF q) {newId : UUID} (hfresh : q.jobs newId = none)
    (now : Time) (jobType : String) (args : Option RawMessage) (deps : List UUID) :
    WF (Enqueue q newId now jobType args deps).2 := by
  cases args with
  | none => exact h
  | some a =>
    have h1 := WF_storedJob h hfresh now jobType a deps
    cases hc : countFinishedJobs (storedJob q newId now jobType a deps) deps with
    | error e =>
      rw [Enqueue_error hc]
      exact h1
    | ok n =>
      obtain ⟨hex, hall⟩ := countFinishedJobs_ok hc
      by_cases hn : n = deps.length
      · subst hn
        rw [Enqueue_ready hc]
        refine h1.set_pending jobType _ ?_
        intro x hx
        rcases List.mem_append.1 hx with hx | hx
        · exact h1.pending_ok jobType x hx
        · rw [List.mem_singleton.1 hx]
          exact ⟨_, storedJob_jobs_self q newId now jobType a deps, rfl, hall.1 rfl⟩
      · rw [Enqueue_waiting hc hn]
        refine h1.set_dependants _ ?_
        intro k l hkl x hx
        rcases addDependant_mem hkl x hx with ⟨l0, hl0, hx0⟩ | ⟨rfl, hk⟩
        · exact h1.dependants_ok k l0 hl0 x hx0
        · exact ⟨_, storedJob_jobs_self q x now jobType a deps, hk, hex⟩

theorem WF_Dequeue {q : testJobQueue} (h : WF q) {now : Time} (hnow : now ≠ 0)
    (unmarshal : RawMessage → Bool) (jobTypes : List String) :
    WF (Dequeue q now unmarshal jobTypes).2 := by
  induction jobTypes with
  | nil => exact h
  | cons t ts ih =>
    unfold Dequeue
    cases hp : q.pending t with
    | nil => exact ih
    | cons id rest =>
      have hmem : id ∈ q.pending t := by rw [hp]; exact List.mem_cons_self _ _
      have h1 : WF { q with pending := Function.update q.pending t rest } :=
        h.set_pending t rest
          (fun x hx => h.pending_ok t x (by rw [hp]; exact List.mem_cons_of_mem _ hx))
      obtain ⟨j, hj, -, hdeps⟩ := h.pending_ok t id hmem
      simp only [hj]
      by_cases hu : unmarshal j.Args = true
      · simp only [hu, if_true]
        exact h1.update_job { j with StartedAt := now } hj rfl rfl rfl (fun hr => hr)
          (h.result_iff id j hj) (fun _ => hdeps) (fun _ => hnow)
      · simp only [hu]
        exact h1

theorem promoteDependants_jobs (q : testJobQueue) (l : List UUID) :
    (promoteDependants q l).2.jobs = q.jobs := by
  induction l generalizing q with
  | nil => rfl
  | cons depid rest ih =>
    unfold promoteDependants
    cases hj : q.jobs depid with
    | none => rfl
    | some dep =>
      simp only []
      cases hc : countFinishedJobs q dep.Dependencies with
      | error e => rfl
      | ok n =>
        simp only []
        split
        · rw [ih]
        · rw [ih]

theorem promoteDependants_dependants (q : testJobQueue) (l : List UUID) :
    (promoteDependants q l).2.dependants = q.dependants := by
  induction l generalizing q with
  | nil => rfl
  | cons depid rest ih =>
    unfold promoteDependants
    cases hj : q.jobs depid with
    | none => rfl
    | some dep =>
      simp only []
      cases hc : countFinishedJobs q dep.Dependencies with
      | error e => rfl
      | ok n =>
        simp only []
        split
        · rw [ih]
        · rw [ih]

theorem WF_promoteDependants {q : testJobQueue} (h : WF q) (l : List UUID) :
    WF (promoteDependants q l).2 := by
  induction l generalizing q with
  | nil => exact h
  | cons depid rest ih =>
    unfold promoteDependants
    cases hj : q.jobs depid with
    | none => exact h
    | some dep =>
      simp only []
      cases hc : countFinishedJobs q dep.Dependencies with
      | error e => exact h
      | ok n =>
        simp only []
        split
        · rename_i hn
          apply ih
          refine h.set_pending dep.JobType _ ?_
          intro x hx
          rcases List.mem_append.1 hx with hx | hx
          · exact h.pending_ok _ x hx
          · rw [List.mem_singleton.1 hx, h.id_eq depid dep hj]
            exact ⟨dep, hj, rfl, (countFinishedJobs_ok hc).2.1 hn⟩
        · exact ih h

/-- In a well-formed queue the promotion loop runs to its end. -/
theorem promoteDependants_noError {q : testJobQueue} {l : List UUID}
    (hl : ∀ x ∈ l, ∃ j, q.jobs x = some j ∧ ∀ d ∈ j.Dependencies, ∃ jd, q.jobs d = some jd) :
    (promoteDependants q l).1 = none := by
  induction l generalizing q with
  | nil => rfl
  | cons depid rest ih =>
    unfold promoteDependants
    obtain ⟨dep, hj, hdeps⟩ := hl depid (List.mem_cons_self _ _)
    obtain ⟨n, hc⟩ := countFinishedJobs_total hdeps
    simp only [hj, hc]
    split
    · exact ih (fun x hx => hl x (List.mem_cons_of_mem _ hx))
    · exact ih (fun x hx => hl x (List.mem_cons_of_mem _ hx))

theorem FinishJob_notExist {q : testJobQueue} {id : UUID} (h : q.jobs id = none) (now : Time)
    (result : Option RawMessage) : FinishJob q id now result = (some Error.ErrNotExist, q) := by
  simp only [FinishJob, h]

theorem FinishJob_notRunning {q : testJobQueue} {id : UUID} {j : job} (h : q.jobs id = some j)
    (hr : j.StartedAt = 0 ∨ j.FinishedAt ≠ 0) (now : Time) (result : Option RawMessage) :
    FinishJob q id now result = (some Error.ErrNotRunning, q) := by
  simp only [FinishJob, h, if_pos hr]

theorem FinishJob_marshalError {q : testJobQueue} {id : UUID} {j : job} (h : q.jobs id = some j)
    (hr : ¬ (j.StartedAt = 0 ∨ j.FinishedAt ≠ 0)) (now : Time) :
    FinishJob q id now none = (some Error.marshalError,
      { q with jobs := Function.update q.jobs id (some { j with Result := none }) }) := by
  simp only [FinishJob, h, if_neg hr]

theorem FinishJob_running {q : testJobQueue} {id : UUID} {j : job} (h : q.jobs id = some j)
    (hr : ¬ (j.StartedAt = 0 ∨ j.FinishedAt ≠ 0)) (now : Time) (r : RawMessage) :
    FinishJob q id now (some r) =
      match promoteDependants (recordedFinish q id j now r) ((q.dependants id).getD []) with
      | (some e, q2) => (some e, q2)
      | (none, q2) =>
        (none, { q2 with dependants := Function.update q2.dependants id none }) := by
  simp only [FinishJob, h, if_neg hr]
  rfl

theorem WF_recordedFinish {q : testJobQueue} (h : WF q) {id : UUID} {j : job}
    (hj : q.jobs id = some j) (hr : ¬ (j.StartedAt = 0 ∨ j.FinishedAt ≠ 0)) {now : Time}
    (hnow : now ≠ 0) (r : RawMessage) : WF (recordedFinish q id j now r) := by
  have hs : j.StartedAt ≠ 0 := fun e => hr (Or.inl e)
  exact h.update_job (finishedJob j now r) hj rfl rfl rfl (fun _ => by simp [finishedJob])
    (by simp [finishedJob, hnow]) (fun _ => h.started_ok id j hj hs) (fun _ => hs)

theorem WF_FinishJob {q : testJobQueue} (h : WF q) (id : UUID) {now : Time} (hnow : now ≠ 0)
    (result : Option RawMessage) : WF (FinishJob q id now result).2 := by
  cases hj : q.jobs id with
  | none => rw [FinishJob_notExist hj]; exact h
  | some j =>
    by_cases hr : j.StartedAt = 0 ∨ j.FinishedAt ≠ 0
    · rw [FinishJob_notRunning hj hr]; exact h
    · cases result with
      | none =>
        rw [FinishJob_marshalError hj hr]
        have hf : j.FinishedAt = 0 := by
          by_contra hne
          exact hr (Or.inr hne)
        have hres : j.Result = none := by
          by_contra hne
          exact (h.result_iff id j hj).1 hne hf
        exact h.update_job { j with Result := none } hj rfl rfl rfl
          (fun hne => absurd hres hne) (by simp [hf])
          (fun hs => h.started_ok id j hj hs) (fun hne => absurd hf hne)
      | some r =>
        rw [FinishJob_running hj hr]
        have h1 := WF_recordedFinish h hj hr hnow r
        have h2 := WF_promoteDependants h1 ((q.dependants id).getD [])
        generalize promoteDependants (recordedFinish q id j now r) ((q.dependants id).getD []) = res
          at h2
        rcases res with ⟨_ | e, q2⟩
        · refine h2.set_dependants _ ?_
          intro k l hkl
          by_cases hk : k = id
          · rw [hk, Function.update_same] at hkl
            cases hkl
          · rw [Function.update_noteq hk] at hkl
            exact h2.dependants_ok k l hkl
        · exact h2

theorem WF_CancelJob {q : testJobQueue} (h : WF q) (id : UUID) : WF (CancelJob q id).2 := by
  unfold CancelJob
  cases hj : q.jobs id with
  | none => exact h
  | some j =>
    exact h.update_job { j with Canceled := true } hj rfl rfl rfl (fun hr => hr)
      (h.result_iff id j hj) (fun hs => h.started_ok id j hj hs)
      (fun hf => h.finished_started id j hj hf)

theorem WF_apply {q : testJobQueue} (h : WF q) {op : Op} (hop : op.admissible q) :
    WF (op.apply q) := by
  cases op with
  | enqueue newId now jobType args deps => exact WF_Enqueue h hop.1 now jobType args deps
  | dequeue now unmarshal jobTypes => exact WF_Dequeue h hop unmarshal jobTypes
  | finish id now result => exact WF_FinishJob h id hop result
  | cancel id => exact WF_CancelJob h id

theorem WF_of_Reachable {q : testJobQueue} (h : Reachable q) : WF q := by
  induction h with
  | init => exact WF_New
  | step op _ hop ih => exact WF_apply ih hop

theorem WF_run {q : testJobQueue} (h : WF q) {ops : List Op} (hops : admissibleRun q ops) :
    WF (run q ops) := by
  induction ops generalizing q with
  | nil => exact h
  | cons op ops ih => exact ih (WF_apply h hops.1) hops.2

theorem Reachable_run {q : testJobQueue} (h : Reachable q) {ops : List Op}
    (hops : admissibleRun q ops) : Reachable (run q ops) := by
  induction ops generalizing q with
  | nil => exact h
  | cons op ops ih => exact ih (Reachable.step op h hops.1) hops.2

theorem finished_iff_hasFinished {q : testJobQueue} (h : WF q) (d : UUID) :
    finished q d ↔ hasFinished q d := by
  constructor
  · rintro ⟨jd, hjd, hr⟩
    exact ⟨jd, hjd, (h.result_iff d jd hjd).1 hr⟩
  · rintro ⟨jd, hjd, hf⟩
    exact ⟨jd, hjd, (h.result_iff d jd hjd).2 hf⟩

/-! ## The claims -/

/-- C1 (evaluation of the code): on the empty queue, `Enqueue` of a job whose
dependency list names the unknown id 7 returns `ErrNotExist`, and the job
stored under the new id before the dependencies were verified is still in the
jobs map afterwards, while the ready index and the dependants map are as
before. -/
theorem C1_enqueue_unknown_dependency_leaves_job :
    (Enqueue New 1 10 "osbuild" (some []) [7]).1 = .error Error.ErrNotExist ∧
      (Enqueue New 1 10 "osbuild" (some []) [7]).2.jobs 1 =
        some (enqueuedJob 1 10 "osbuild" [] [7]) ∧
      New.jobs 1 = none ∧
      (Enqueue New 1 10 "osbuild" (some []) [7]).2.pending "osbuild" = [] ∧
      (Enqueue New 1 10 "osbuild" (some []) [7]).2.dependants 7 = none := by
  decide

/-- C2 (evaluation of the code): in an admissible run from the empty queue in
which job 2 lists job 1 twice among its dependencies, finishing job 1 puts job
2 twice in the ready list, and two successful `Dequeue` calls both return
job 2. -/
theorem C2_repeated_dependency_dequeued_twice :
    admissibleRun New repeatedDependencyRun ∧
      dequeuedIds New repeatedDependencyRun = [1, 2, 2] := by
  decide

/-- C3: dependency safety. In every reachable state, for every job `j` and
every id `d` among its dependencies, the job `d` has a non-zero `finished_at`
or `j` has a zero `started_at`. -/
theorem C3_dependency_safety {q : testJobQueue} (hq : Reachable q) (id : UUID) {j : job}
    (hj : q.jobs id = some j) {d : UUID} (hd : d ∈ j.Dependencies) :
    hasFinished q d ∨ j.StartedAt = 0 := by
  have h := WF_of_Reachable hq
  by_cases hs : j.StartedAt = 0
  · exact Or.inr hs
  · exact Or.inl ((finished_iff_hasFinished h d).1 (h.started_ok id j hj hs d hd))

theorem C3_dependency_safety_witness :
    (run New dependentRun).jobs 2 = some
        { Id := 2, JobType := "koji-finalize", Args := [], Dependencies := [1], Result := none,
          QueuedAt := 4, StartedAt := 5, FinishedAt := 0, Canceled := false } ∧
      (hasFinished (run New dependentRun) 1 ∨ (5 : Nat) = 0) :=
  ⟨by decide,
    C3_dependency_safety (Reachable_run Reachable.init (by decide : admissibleRun New dependentRun))
      2 (by decide : (run New dependentRun).jobs 2 = some
        { Id := 2, JobType := "koji-finalize", Args := [], Dependencies := [1], Result := none,
          QueuedAt := 4, StartedAt := 5, FinishedAt := 0, Canceled := false })
      (by decide)⟩

/-! ### `Dequeue`, case by case -/

theorem Dequeue_skip {q : testJobQueue} (now : Time) (unmarshal : RawMessage → Bool)
    {pre : List String} (hpre : ∀ s ∈ pre, q.pending s = []) (rest : List String) :
    Dequeue q now unmarshal (pre ++ rest) = Dequeue q now unmarshal rest := by
  induction pre with
  | nil => rfl
  | cons s ss ih =>
    rw [List.cons_append, Dequeue, hpre s (List.mem_cons_self _ _)]
    exact ih (fun x hx => hpre x (List.mem_cons_of_mem _ hx))

theorem Dequeue_noJobAvailable {q : testJobQueue} (now : Time) (unmarshal : RawMessage → Bool)
    {ts : List String} (h : ∀ s ∈ ts, q.pending s = []) :
    Dequeue q now unmarshal ts = (.error Error.noJobAvailable, q) := by
  have := Dequeue_skip now unmarshal h []
  rw [List.append_nil] at this
  rw [this]
  rfl

theorem Dequeue_head_ok {q : testJobQueue} {now : Time} {unmarshal : RawMessage → Bool}
    {t : String} {id : UUID} {rest : List UUID} {j : job} (hp : q.pending t = id :: rest)
    (hj : q.jobs id = some j) (hu : unmarshal j.Args = true) (ts : List String) :
    Dequeue q now unmarshal (t :: ts) =
      (.ok (j.Id, j.Dependencies),
        { q with pending := Function.update q.pending t rest,
                 jobs := Function.update q.jobs id (some { j with StartedAt := now }) }) := by
  rw [Dequeue, hp]
  simp only [hj, hu, if_true]

theorem Dequeue_head_unmarshalError {q : testJobQueue} {now : Time}
    {unmarshal : RawMessage → Bool} {t : String} {id : UUID} {rest : List UUID} {j : job}
    (hp : q.pending t = id :: rest) (hj : q.jobs id = some j) (hu : unmarshal j.Args = false)
    (ts : List String) :
    Dequeue q now unmarshal (t :: ts) =
      (.error Error.unmarshalError, { q with pending := Function.update q.pending t rest }) := by
  rw [Dequeue, hp]
  simp only [hj, hu]
  rfl

/-- C6 (counterexample): in the reachable state with the single ready job 1 of
type `osbuild`, a `Dequeue` for `osbuild` whose destination the stored args do
not decode into returns the decoding error, not the head of the ready list. -/
theorem C6_dequeue_decoding_error :
    admissibleRun New singleJobRun ∧ (run New singleJobRun).pending "osbuild" = [1] ∧
      (Dequeue (run New singleJobRun) 2 decodeNone ["osbuild"]).1 =
        .error Error.unmarshalError := by
  decide

/-- C6 (amended): type preference. In every reachable state, when `t` is the
first type of `acceptedTypes` with a non-empty ready list and the args of the
head of that list decode into the destination of the caller, `Dequeue` returns
that head with its dependencies, takes it off the ready list of `t` and leaves
the ready lists of all other types unchanged. -/
theorem C6_type_preference {q : testJobQueue} (hq : Reachable q) (now : Time)
    {unmarshal : RawMessage → Bool} {pre : List String} {t : String} (post : List String)
    {id : UUID} {rest : List UUID} (hpre : ∀ s ∈ pre, q.pending s = [])
    (hp : q.pending t = id :: rest) (hu : ∀ j, q.jobs id = some j → unmarshal j.Args = true) :
    (∃ j, q.jobs id = some j ∧
        (Dequeue q now unmarshal (pre ++ t :: post)).1 = .ok (id, j.Dependencies)) ∧
      (Dequeue q now unmarshal (pre ++ t :: post)).2.pending t = rest ∧
      ∀ s, s ≠ t → (Dequeue q now unmarshal (pre ++ t :: post)).2.pending s = q.pending s := by
  have h := WF_of_Reachable hq
  obtain ⟨j, hj, -, -⟩ := h.pending_ok t id (by rw [hp]; exact List.mem_cons_self _ _)
  rw [Dequeue_skip now unmarshal hpre, Dequeue_head_ok hp hj (hu j hj)]
  refine ⟨⟨j, hj, ?_⟩, by simp, ?_⟩
  · rw [h.id_eq id j hj]
  · intro s hs
    simp [Function.update_noteq hs]

theorem C6_type_preference_witness :
    (∃ j, (run New singleJobRun).jobs 1 = some j ∧
        (Dequeue (run New singleJobRun) 2 decodeAll (["koji-init"] ++ "osbuild" :: [])).1 =
          .ok (1, j.Dependencies)) ∧
      (Dequeue (run New singleJobRun) 2 decodeAll (["koji-init"] ++ "osbuild" :: [])).2.pending
          "osbuild" = [] ∧
      ∀ s, s ≠ "osbuild" →
        (Dequeue (run New singleJobRun) 2 decodeAll (["koji-init"] ++ "osbuild" :: [])).2.pending s =
          (run New singleJobRun).pending s :=
  @C6_type_preference _
    (Reachable_run Reachable.init (by decide : admissibleRun New singleJobRun))
    2 decodeAll ["koji-init"] "osbuild" [] 1 [] (by decide) (by decide) (fun _ _ => rfl)

/-! ### `FinishJob`: errors and success -/

theorem FinishJob_succeeds {q : testJobQueue} (h : WF q) {id : UUID} {j : job}
    (hj : q.jobs id = some j) (hr : ¬ (j.StartedAt = 0 ∨ j.FinishedAt ≠ 0)) (now : Time)
    (r : RawMessage) : (FinishJob q id now (some r)).1 = none := by
  rw [FinishJob_running hj hr]
  have hno : (promoteDependants (recordedFinish q id j now r) ((q.dependants id).getD [])).1 =
      none := by
    apply promoteDependants_noError
    intro x hx
    cases hd : q.dependants id with
    | none => simp [hd] at hx
    | some l =>
      rw [hd] at hx
      obtain ⟨jx, hjx, -, hdeps⟩ := h.dependants_ok id l hd x hx
      have hex : ∀ y jy, q.jobs y = some jy →
          ∃ jz, (recordedFinish q id j now r).jobs y = some jz ∧
            jz.Dependencies = jy.Dependencies := by
        intro y jy hy
        by_cases hyi : y = id
        · subst hyi
          rw [hj] at hy
          cases hy
          exact ⟨finishedJob j now r, by simp [recordedFinish], rfl⟩
        · exact ⟨jy, by simpa [recordedFinish, Function.update_noteq hyi] using hy, rfl⟩
      obtain ⟨jz, hjz, hdz⟩ := hex x jx hjx
      refine ⟨jz, hjz, ?_⟩
      rw [hdz]
      intro d hd1
      obtain ⟨jd, hjd⟩ := hdeps d hd1
      obtain ⟨jw, hjw, -⟩ := hex d jd hjd
      exact ⟨jw, hjw⟩
  generalize promoteDependants (recordedFinish q id j now r) ((q.dependants id).getD []) = res
    at hno
  rcases res with ⟨e, q2⟩
  simp only at hno
  subst hno
  rfl

/-- C7: in every reachable state, `FinishJob(id, result)` fails with
`ErrNotExist` exactly when `id` is not a job of the queue, fails with
`ErrNotRunning` exactly when `id` is a job that is not running (`started_at`
zero or `finished_at` non-zero), and succeeds for a running job whose result
can be encoded. -/
theorem C7_finish_errors {q : testJobQueue} (hq : Reachable q) (id : UUID) (now : Time)
    (result : Option RawMessage) :
    ((FinishJob q id now result).1 = some Error.ErrNotExist ↔ q.jobs id = none) ∧
      ((FinishJob q id now result).1 = some Error.ErrNotRunning ↔
        ∃ j, q.jobs id = some j ∧ (j.StartedAt = 0 ∨ j.FinishedAt ≠ 0)) ∧
      (result ≠ none → (∃ j, q.jobs id = some j ∧ j.StartedAt ≠ 0 ∧ j.FinishedAt = 0) →
        (FinishJob q id now result).1 = none) := by
  have h := WF_of_Reachable hq
  cases hj : q.jobs id with
  | none =>
    rw [FinishJob_notExist hj]
    simp
  | some j =>
    by_cases hr : j.StartedAt = 0 ∨ j.FinishedAt ≠ 0
    · rw [FinishJob_notRunning hj hr]
      refine ⟨by simp, by simpa using hr, ?_⟩
      rintro - ⟨j1, hj1, hs, hf⟩
      cases hj1
      rcases hr with hr | hr
      · exact absurd hr hs
      · exact absurd hf hr
    · cases result with
      | none =>
        rw [FinishJob_marshalError hj hr]
        refine ⟨by simp, ?_, fun hne => absurd rfl hne⟩
        simp only [Option.some.injEq, reduceCtorEq, false_iff, not_exists, not_and]
        intro j1 hj1
        cases hj1
        exact hr
      | some r =>
        rw [FinishJob_succeeds h hj hr]
        refine ⟨by simp, ?_, fun _ _ => rfl⟩
        simp only [reduceCtorEq, false_iff, not_exists, not_and]
        intro j1 hj1
        cases hj1
        exact hr

theorem C7_finish_errors_witness :
    ((FinishJob (run New startedJobRun) 1 3 (some [])).1 = some Error.ErrNotExist ↔
        (run New startedJobRun).jobs 1 = none) ∧
      ((FinishJob (run New startedJobRun) 1 3 (some [])).1 = some Error.ErrNotRunning ↔
        ∃ j, (run New startedJobRun).jobs 1 = some j ∧ (j.StartedAt = 0 ∨ j.FinishedAt ≠ 0)) ∧
      ((some [] : Option RawMessage) ≠ none →
        (∃ j, (run New startedJobRun).jobs 1 = some j ∧ j.StartedAt ≠ 0 ∧ j.FinishedAt = 0) →
        (FinishJob (run New startedJobRun) 1 3 (some [])).1 = none) :=
  C7_finish_errors (Reachable_run Reachable.init (by decide : admissibleRun New startedJobRun))
    1 3 (some [])

/-! ### A finished job stays finished -/

theorem Enqueue_jobs_of_ne (q : testJobQueue) (newId : UUID) (now : Time) (jobType : String)
    (args : Option RawMessage) (deps : List UUID) {x : UUID} (hx : x ≠ newId) :
    (Enqueue q newId now jobType args deps).2.jobs x = q.jobs x := by
  cases args with
  | none => rfl
  | some a =>
    cases hc : countFinishedJobs (storedJob q newId now jobType a deps) deps with
    | error e =>
      rw [Enqueue_error hc]
      simp [storedJob, Function.update_noteq hx]
    | ok n =>
      by_cases hn : n = deps.length
      · subst hn
        rw [Enqueue_ready hc]
        simp [storedJob, Function.update_noteq hx]
      · rw [Enqueue_waiting hc hn]
        simp [storedJob, Function.update_noteq hx]

theorem Dequeue_jobs (q : testJobQueue) (now : Time) (unmarshal : RawMessage → Bool)
    (jobTypes : List String) (x : UUID) :
    (Dequeue q now unmarshal jobTypes).2.jobs x = q.jobs x ∨
      ∃ j, q.jobs x = some j ∧
        (Dequeue q now unmarshal jobTypes).2.jobs x = some { j with StartedAt := now } := by
  induction jobTypes with
  | nil => exact Or.inl rfl
  | cons t ts ih =>
    unfold Dequeue
    cases hp : q.pending t with
    | nil => exact ih
    | cons id rest =>
      cases hj : q.jobs id with
      | none => simp only [hj]; exact Or.inl trivial
      | some j =>
        simp only [hj]
        by_cases hu : unmarshal j.Args = true
        · simp only [hu, if_true]
          by_cases hx : x = id
          · subst hx
            exact Or.inr ⟨j, hj, by simp⟩
          · exact Or.inl (by simp [Function.update_noteq hx])
        · simp only [hu]
          exact Or.inl rfl

theorem FinishJob_jobs_of_ne (q : testJobQueue) (id : UUID) (now : Time)
    (result : Option RawMessage) {x : UUID} (hx : x ≠ id) :
    (FinishJob q id now result).2.jobs x = q.jobs x := by
  cases hj : q.jobs id with
  | none => rw [FinishJob_notExist hj]
  | some j =>
    by_cases hr : j.StartedAt = 0 ∨ j.FinishedAt ≠ 0
    · rw [FinishJob_notRunning hj hr]
    · cases result with
      | none =>
        rw [FinishJob_marshalError hj hr]
        simp [Function.update_noteq hx]
      | some r =>
        rw [FinishJob_running hj hr]
        have hjobs := promoteDependants_jobs (recordedFinish q id j now r)
          ((q.dependants id).getD [])
        generalize promoteDependants (recordedFinish q id j now r) ((q.dependants id).getD []) =
          res at hjobs
        rcases res with ⟨_ | e, q2⟩
        · simp only at hjobs ⊢
          rw [hjobs]
          simp [recordedFinish, Function.update_noteq hx]
        · simp only at hjobs ⊢
          rw [hjobs]
          simp [recordedFinish, Function.update_noteq hx]

/-- What a successful `FinishJob` leaves in the jobs map under `id`. -/
theorem FinishJob_ok_job {q : testJobQueue} {id : UUID} {now : Time}
    {result : Option RawMessage} (h : (FinishJob q id now result).1 = none) :
    ∃ j r, q.jobs id = some j ∧ ¬ (j.StartedAt = 0 ∨ j.FinishedAt ≠ 0) ∧ result = some r ∧
      (FinishJob q id now result).2.jobs = (recordedFinish q id j now r).jobs ∧
      (FinishJob q id now result).2.jobs id = some (finishedJob j now r) := by
  cases hj : q.jobs id with
  | none => rw [FinishJob_notExist hj] at h; cases h
  | some j =>
    by_cases hr : j.StartedAt = 0 ∨ j.FinishedAt ≠ 0
    · rw [FinishJob_notRunning hj hr] at h; cases h
    · cases result with
      | none => rw [FinishJob_marshalError hj hr] at h; cases h
      | some r =>
        refine ⟨j, r, rfl, hr, rfl, ?_⟩
        rw [FinishJob_running hj hr]
        have hjobs := promoteDependants_jobs (recordedFinish q id j now r)
          ((q.dependants id).getD [])
        generalize promoteDependants (recordedFinish q id j now r) ((q.dependants id).getD []) =
          res at hjobs
        rcases res with ⟨_ | e, q2⟩
        · simp only at hjobs ⊢
          rw [hjobs]
          exact ⟨rfl, by simp [recordedFinish]⟩
        · simp only at hjobs ⊢
          rw [hjobs]
          exact ⟨rfl, by simp [recordedFinish]⟩

/-- A job with a non-zero `finished_at` keeps its `finished_at` and its result
through every admissible call. -/
theorem finished_stable_apply {q : testJobQueue} {id : UUID} {j : job}
    (hj : q.jobs id = some j) (hf : j.FinishedAt ≠ 0) {op : Op} (hop : op.admissible q) :
    ∃ j1, (op.apply q).jobs id = some j1 ∧ j1.FinishedAt = j.FinishedAt ∧
      j1.Result = j.Result := by
  cases op with
  | enqueue newId now jobType args deps =>
    have hne : id ≠ newId := by
      intro e
      rw [e, hop.1] at hj
      cases hj
    exact ⟨j, by rw [Op.apply, Enqueue_jobs_of_ne _ _ _ _ _ _ hne]; exact hj, rfl, rfl⟩
  | dequeue now unmarshal jobTypes =>
    rcases Dequeue_jobs q now unmarshal jobTypes id with h | ⟨j0, hj0, h⟩
    · exact ⟨j, by rw [Op.apply, h]; exact hj, rfl, rfl⟩
    · rw [hj] at hj0
      cases hj0
      exact ⟨_, h, rfl, rfl⟩
  | finish id2 now result =>
    by_cases hne : id = id2
    · subst hne
      refine ⟨j, ?_, rfl, rfl⟩
      rw [Op.apply, FinishJob_notRunning hj (Or.inr hf)]
      exact hj
    · exact ⟨j, by rw [Op.apply, FinishJob_jobs_of_ne _ _ _ _ hne]; exact hj, rfl, rfl⟩
  | cancel id2 =>
    simp only [Op.apply, CancelJob]
    cases hj2 : q.jobs id2 with
    | none => exact ⟨j, hj, rfl, rfl⟩
    | some j2 =>
      by_cases hne : id = id2
      · subst hne
        rw [hj] at hj2
        cases hj2
        exact ⟨{ j with Canceled := true }, by simp, rfl, rfl⟩
      · exact ⟨j, by simpa [Function.update_noteq hne] using hj, rfl, rfl⟩

theorem finished_stable_run {q : testJobQueue} {id : UUID} {j : job}
    (hj : q.jobs id = some j) (hf : j.FinishedAt ≠ 0) {ops : List Op}
    (hops : admissibleRun q ops) :
    ∃ j1, (run q ops).jobs id = some j1 ∧ j1.FinishedAt = j.FinishedAt ∧
      j1.Result = j.Result := by
  induction ops generalizing q j with
  | nil => exact ⟨j, hj, rfl, rfl⟩
  | cons op ops ih =>
    obtain ⟨j1, hj1, hf1, hr1⟩ := finished_stable_apply hj hf hops.1
    obtain ⟨j2, hj2, hf2, hr2⟩ := ih hj1 (by rw [hf1]; exact hf) hops.2
    exact ⟨j2, hj2, by rw [hf2, hf1], by rw [hr2, hr1]⟩

/-- C8: idempotent finish. Once `FinishJob(id, r)` has succeeded, after any
further admissible calls every `FinishJob(id, r2)` fails with `ErrNotRunning`
and returns the queue state it was called in; the job still has the result and
the `finished_at` of the first finish. -/
theorem C8_idempotent_finish (q : testJobQueue) (id : UUID) {now : Time} (hnow : now ≠ 0)
    (r : RawMessage) (hok : (FinishJob q id now (some r)).1 = none) (ops : List Op)
    (hops : admissibleRun (FinishJob q id now (some r)).2 ops) (now2 : Time)
    (r2 : Option RawMessage) :
    FinishJob (run (FinishJob q id now (some r)).2 ops) id now2 r2 =
        (some Error.ErrNotRunning, run (FinishJob q id now (some r)).2 ops) ∧
      ∃ j, (run (FinishJob q id now (some r)).2 ops).jobs id = some j ∧
        j.Result = some r ∧ j.FinishedAt = now := by
  obtain ⟨j, r0, hj, -, hr0, -, hjob⟩ := FinishJob_ok_job hok
  cases hr0
  obtain ⟨j1, hj1, hf1, hr1⟩ :=
    finished_stable_run hjob (by simpa [finishedJob] using hnow) hops
  refine ⟨FinishJob_notRunning hj1 (Or.inr ?_) now2 r2, j1, hj1, ?_, ?_⟩
  · rw [hf1]
    simpa [finishedJob] using hnow
  · rw [hr1]
    rfl
  · rw [hf1]
    rfl

theorem C8_idempotent_finish_witness :
    (3 : Nat) ≠ 0 ∧ (FinishJob (run New startedJobRun) 1 3 (some [7])).1 = none ∧
      admissibleRun (FinishJob (run New startedJobRun) 1 3 (some [7])).2 laterCalls ∧
      (FinishJob (run (FinishJob (run New startedJobRun) 1 3 (some [7])).2 laterCalls) 1 6
            (some [8]) =
          (some Error.ErrNotRunning,
            run (FinishJob (run New startedJobRun) 1 3 (some [7])).2 laterCalls) ∧
        ∃ j, (run (FinishJob (run New startedJobRun) 1 3 (some [7])).2 laterCalls).jobs 1 =
            some j ∧ j.Result = some [7] ∧ j.FinishedAt = 3) :=
  ⟨by decide, by decide, by decide,
    C8_idempotent_finish (run New startedJobRun) 1 (by decide) [7] (by decide) laterCalls
      (by decide) 6 (some [8])⟩

/-! ### Promotion in `FinishJob` -/

theorem finished_congr {q q1 : testJobQueue} (h : q1.jobs = q.jobs) (d : UUID) :
    finished q1 d ↔ finished q d := by
  unfold finished
  rw [h]

theorem hasFinished_congr {q q1 : testJobQueue} (h : q1.jobs = q.jobs) (d : UUID) :
    hasFinished q1 d ↔ hasFinished q d := by
  unfold hasFinished
  rw [h]

theorem promoteDependants_pending_mono (q : testJobQueue) (l : List UUID) {t : String}
    {x : UUID} (hx : x ∈ q.pending t) : x ∈ (promoteDependants q l).2.pending t := by
  induction l generalizing q with
  | nil => exact hx
  | cons depid rest ih =>
    unfold promoteDependants
    cases hj : q.jobs depid with
    | none => exact hx
    | some dep =>
      simp only []
      cases hc : countFinishedJobs q dep.Dependencies with
      | error e => exact hx
      | ok n =>
        simp only []
        split
        · apply ih
          simp only [Function.update_apply]
          split
          · rename_i ht
            rw [ht] at hx
            exact List.mem_append_left _ hx
          · exact hx
        · exact ih q hx

theorem promoteDependants_promotes {q : testJobQueue} {l : List UUID}
    (hok : (promoteDependants q l).1 = none) {depid : UUID} (hmem : depid ∈ l) {dep : job}
    (hdep : q.jobs depid = some dep) (hall : ∀ d ∈ dep.Dependencies, finished q d) :
    dep.Id ∈ (promoteDependants q l).2.pending dep.JobType := by
  induction l generalizing q with
  | nil => cases hmem
  | cons d0 rest ih =>
    unfold promoteDependants at hok ⊢
    cases hj : q.jobs d0 with
    | none => rw [hj] at hok; cases hok
    | some dep0 =>
      simp only [hj] at hok ⊢
      cases hc : countFinishedJobs q dep0.Dependencies with
      | error e => rw [hc] at hok; cases hok
      | ok n =>
        simp only [hc] at hok ⊢
        by_cases hn : n = dep0.Dependencies.length
        · simp only [if_pos hn] at hok ⊢
          rcases List.mem_cons.1 hmem with hm | hm
          · subst hm
            rw [hj] at hdep
            cases hdep
            apply promoteDependants_pending_mono
            simp
          · exact ih hok hm hdep hall
        · simp only [if_neg hn] at hok ⊢
          rcases List.mem_cons.1 hmem with hm | hm
          · subst hm
            rw [hj] at hdep
            cases hdep
            exact absurd ((countFinishedJobs_ok hc).2.2 hall) hn
          · exact ih hok hm hdep hall

theorem FinishJob_running_parts {q : testJobQueue} {id : UUID} {j : job}
    (h : q.jobs id = some j) (hr : ¬ (j.StartedAt = 0 ∨ j.FinishedAt ≠ 0)) (now : Time)
    (r : RawMessage) :
    (FinishJob q id now (some r)).1 =
        (promoteDependants (recordedFinish q id j now r) ((q.dependants id).getD [])).1 ∧
      (FinishJob q id now (some r)).2.pending =
        (promoteDependants (recordedFinish q id j now r) ((q.dependants id).getD [])).2.pending ∧
      (FinishJob q id now (some r)).2.jobs = (recordedFinish q id j now r).jobs ∧
      ((FinishJob q id now (some r)).1 = none →
        (FinishJob q id now (some r)).2.dependants = Function.update q.dependants id none) := by
  rw [FinishJob_running h hr]
  have hjobs := promoteDependants_jobs (recordedFinish q id j now r) ((q.dependants id).getD [])
  have hdeps := promoteDependants_dependants (recordedFinish q id j now r)
    ((q.dependants id).getD [])
  generalize promoteDependants (recordedFinish q id j now r) ((q.dependants id).getD []) = res
    at hjobs hdeps
  rcases res with ⟨_ | e, q2⟩
  · simp only at hjobs hdeps ⊢
    refine ⟨trivial, trivial, hjobs, fun _ => ?_⟩
    rw [hdeps]
    rfl
  · simp only at hjobs hdeps ⊢
    exact ⟨trivial, trivial, hjobs, fun hne => by cases hne⟩

/-- C9: promotion on finish. After a successful `FinishJob(id)` in a reachable
state, every job registered as a dependant of `id` whose dependencies have all
finished is in the ready list of its type, every dependant with a dependency
that has not finished is in no ready list, and the dependants map has no entry
for `id`. -/
theorem C9_promotion_on_finish {q : testJobQueue} (hq : Reachable q) (id : UUID) {now : Time}
    (hnow : now ≠ 0) (result : Option RawMessage)
    (hok : (FinishJob q id now result).1 = none) :
    (∀ l, q.dependants id = some l → ∀ d ∈ l,
        ∃ jd, (FinishJob q id now result).2.jobs d = some jd ∧
          ((∀ x ∈ jd.Dependencies, hasFinished (FinishJob q id now result).2 x) →
            d ∈ (FinishJob q id now result).2.pending jd.JobType) ∧
          ((∃ x ∈ jd.Dependencies, ¬ hasFinished (FinishJob q id now result).2 x) →
            ∀ t, d ∉ (FinishJob q id now result).2.pending t)) ∧
      (FinishJob q id now result).2.dependants id = none := by
  have h := WF_of_Reachable hq
  have h2 : WF (FinishJob q id now result).2 := WF_FinishJob h id hnow result
  obtain ⟨j, r, hj, hr, hres, -, -⟩ := FinishJob_ok_job hok
  subst hres
  obtain ⟨p1, p2, p3, p4⟩ := FinishJob_running_parts hj hr now r
  have h1 : WF (recordedFinish q id j now r) := WF_recordedFinish h hj hr hnow r
  refine ⟨?_, by rw [p4 hok, Function.update_same]⟩
  intro l hl d hd
  have hl1 : (recordedFinish q id j now r).dependants id = some l := hl
  obtain ⟨jd, hjd, -, -⟩ := h1.dependants_ok id l hl1 d hd
  refine ⟨jd, by rw [p3]; exact hjd, ?_, ?_⟩
  · intro hall
    rw [p2]
    have hprom := promoteDependants_promotes (l := (q.dependants id).getD [])
      (by rw [← p1]; exact hok) (by rw [hl]; exact hd) hjd
      (fun x hx => (finished_congr p3 x).1 ((finished_iff_hasFinished h2 x).2 (hall x hx)))
    rw [h1.id_eq d jd hjd] at hprom
    exact hprom
  · rintro ⟨x, hx, hnot⟩ t hmem
    obtain ⟨jd2, hjd2, -, hfin⟩ := h2.pending_ok t d hmem
    rw [p3, hjd] at hjd2
    cases hjd2
    exact hnot ((finished_iff_hasFinished h2 x).1 (hfin x hx))

theorem C9_promotion_on_finish_witness :
    (4 : Nat) ≠ 0 ∧ (FinishJob (run New waitingDependantRun) 1 4 (some [])).1 = none ∧
      ((∀ l, (run New waitingDependantRun).dependants 1 = some l → ∀ d ∈ l,
        ∃ jd, (FinishJob (run New waitingDependantRun) 1 4 (some [])).2.jobs d = some jd ∧
          ((∀ x ∈ jd.Dependencies,
              hasFinished (FinishJob (run New waitingDependantRun) 1 4 (some [])).2 x) →
            d ∈ (FinishJob (run New waitingDependantRun) 1 4 (some [])).2.pending jd.JobType) ∧
          ((∃ x ∈ jd.Dependencies,
              ¬ hasFinished (FinishJob (run New waitingDependantRun) 1 4 (some [])).2 x) →
            ∀ t, d ∉ (FinishJob (run New waitingDependantRun) 1 4 (some [])).2.pending t)) ∧
      (FinishJob (run New waitingDependantRun) 1 4 (some [])).2.dependants 1 = none) :=
  ⟨by decide, by decide,
    C9_promotion_on_finish
      (Reachable_run Reachable.init (by decide : admissibleRun New waitingDependantRun))
      1 (by decide) (some []) (by decide)⟩

/-! ### Placement of a new job -/

theorem storedJob_finished_iff {q : testJobQueue} {newId : UUID} (now : Time)
    (jobType : String) (a : RawMessage) (deps : List UUID) {d : UUID} (hd : d ≠ newId) :
    finished (storedJob q newId now jobType a deps) d ↔ finished q d := by
  unfold finished
  simp [storedJob, Function.update_noteq hd]

/-- C10 (counterexample): job 1 has finished and job 2 has not. `Enqueue` of a
job that depends on both registers the new job in the dependants map under the
finished job 1 as well. And when the only dependency is a job that was
canceled but has not finished, the new job is not put in the ready list of its
type: it is registered under the canceled job. -/
theorem C10_registered_under_finished_dependency :
    (admissibleRun New oneFinishedOneQueuedRun ∧
      ((run New oneFinishedOneQueuedRun).jobs 1).map (fun j => j.FinishedAt) = some 3 ∧
      ((run New oneFinishedOneQueuedRun).jobs 2).map (fun j => j.FinishedAt) = some 0 ∧
      (run New oneFinishedOneQueuedRun).jobs 3 = none ∧
      (Enqueue (run New oneFinishedOneQueuedRun) 3 5 "koji-finalize" (some []) [1, 2]).1 =
        .ok 3 ∧
      (Enqueue (run New oneFinishedOneQueuedRun) 3 5 "koji-finalize" (some []) [1, 2]).2.dependants
        1 = some [3]) ∧
    (admissibleRun New canceledJobRun ∧
      ((run New canceledJobRun).jobs 1).map (fun j => (j.Canceled, j.FinishedAt)) =
        some (true, 0) ∧
      (Enqueue (run New canceledJobRun) 2 3 "koji-finalize" (some []) [1]).1 = .ok 2 ∧
      (Enqueue (run New canceledJobRun) 2 3 "koji-finalize" (some []) [1]).2.pending
        "koji-finalize" = [] ∧
      (Enqueue (run New canceledJobRun) 2 3 "koji-finalize" (some []) [1]).2.dependants 1 =
        some [2]) := by
  decide

/-- C10 (amended): placement of a new job. In every reachable state, an
`Enqueue` whose dependencies all exist succeeds. If every dependency has
finished (or there are none) the new job is appended to the ready list of its
type, the other ready lists and the dependants map are unchanged and no
dependants entry holds the new job. Otherwise the ready lists are unchanged,
the new job is in none of them, and the new job is appended to the dependants
entry of every one of its dependency ids, finished or not, once for each
occurrence of the id in the list, and to no other entry. -/
theorem C10_enqueue_placement {q : testJobQueue} (hq : Reachable q) {newId : UUID}
    (hfresh : q.jobs newId = none) (now : Time) (jobType : String) (a : RawMessage)
    {deps : List UUID} (hjobs : ∀ d ∈ deps, q.jobs d ≠ none) :
    (Enqueue q newId now jobType (some a) deps).1 = .ok newId ∧
      ((∀ d ∈ deps, hasFinished q d) →
        (Enqueue q newId now jobType (some a) deps).2.pending jobType =
            q.pending jobType ++ [newId] ∧
          (∀ s, s ≠ jobType →
            (Enqueue q newId now jobType (some a) deps).2.pending s = q.pending s) ∧
          (Enqueue q newId now jobType (some a) deps).2.dependants = q.dependants ∧
          ∀ k l, (Enqueue q newId now jobType (some a) deps).2.dependants k = some l →
            newId ∉ l) ∧
      (¬ (∀ d ∈ deps, hasFinished q d) →
        (∀ s, (Enqueue q newId now jobType (some a) deps).2.pending s = q.pending s ∧
            newId ∉ (Enqueue q newId now jobType (some a) deps).2.pending s) ∧
          (∀ k, (Enqueue q newId now jobType (some a) deps).2.dependants k =
            if k ∈ deps then
              some ((q.dependants k).getD [] ++ List.replicate (deps.count k) newId)
            else q.dependants k) ∧
          ∀ k, (∃ l, (Enqueue q newId now jobType (some a) deps).2.dependants k = some l ∧
            newId ∈ l) ↔ k ∈ deps) := by
  have h := WF_of_Reachable hq
  have hdeps : ∀ d ∈ deps, ∃ jd, q.jobs d = some jd :=
    fun d hd => Option.ne_none_iff_exists'.1 (hjobs d hd)
  have hne : ∀ d ∈ deps, d ≠ newId := by
    intro d hd e
    obtain ⟨jd, hjd⟩ := hdeps d hd
    rw [e, hfresh] at hjd
    cases hjd
  have hnotp : ∀ s, newId ∉ q.pending s := by
    intro s hs
    obtain ⟨j, hj, -⟩ := h.pending_ok s newId hs
    rw [hfresh] at hj
    cases hj
  have hnotd : ∀ k l, q.dependants k = some l → newId ∉ l := by
    intro k l hkl hs
    obtain ⟨j, hj, -⟩ := h.dependants_ok k l hkl newId hs
    rw [hfresh] at hj
    cases hj
  have hex1 : ∀ d ∈ deps, ∃ jd, (storedJob q newId now jobType a deps).jobs d = some jd := by
    intro d hd
    obtain ⟨jd, hjd⟩ := hdeps d hd
    exact ⟨jd, by simpa [storedJob, Function.update_noteq (hne d hd)] using hjd⟩
  obtain ⟨n, hc⟩ := countFinishedJobs_total hex1
  have hiff : n = deps.length ↔ ∀ d ∈ deps, hasFinished q d := by
    rw [(countFinishedJobs_ok hc).2]
    constructor
    · intro hall d hd
      exact (finished_iff_hasFinished h d).1
        ((storedJob_finished_iff now jobType a deps (hne d hd)).1 (hall d hd))
    · intro hall d hd
      exact (storedJob_finished_iff now jobType a deps (hne d hd)).2
        ((finished_iff_hasFinished h d).2 (hall d hd))
  by_cases hn : n = deps.length
  · have hc1 := hc
    rw [hn] at hc1
    rw [Enqueue_ready hc1]
    refine ⟨rfl, fun _ => ⟨by simp [storedJob], ?_, rfl, ?_⟩, fun hnot => absurd (hiff.1 hn) hnot⟩
    · intro s hs
      simp [storedJob, Function.update_noteq hs]
    · intro k l hkl
      exact hnotd k l hkl
  · rw [Enqueue_waiting hc hn]
    refine ⟨rfl, fun hall => absurd (hiff.2 hall) hn, fun _ => ⟨?_, ?_, ?_⟩⟩
    · intro s
      exact ⟨rfl, hnotp s⟩
    · intro k
      exact addDependant_apply newId q.dependants deps k
    · intro k
      simp only [storedJob]
      rw [addDependant_apply]
      by_cases hk : k ∈ deps
      · simp only [if_pos hk, hk, iff_true]
        refine ⟨_, rfl, List.mem_append_right _ (List.mem_replicate.2 ⟨?_, rfl⟩)⟩
        exact (List.count_pos_iff.2 hk).ne'
      · simp only [if_neg hk, hk, iff_false, not_exists, not_and]
        intro l hkl
        exact hnotd k l hkl

theorem C10_enqueue_placement_witness :
    (Enqueue (run New oneFinishedOneQueuedRun) 3 5 "koji-finalize" (some []) [1, 2]).2.dependants
        2 = some [3] :=
  (((@C10_enqueue_placement _
      (Reachable_run Reachable.init (by decide : admissibleRun New oneFinishedOneQueuedRun))
      3 (by decide) 5 "koji-finalize" [] [1, 2]
      (by decide)).2.2
      (by
        intro hall
        obtain ⟨jd, hjd, hf⟩ := hall 2 (by decide)
        have h2 : (run New oneFinishedOneQueuedRun).jobs 2 = some
            { Id := 2, JobType := "osbuild", Args := [], Dependencies := [], Result := none,
              QueuedAt := 4, StartedAt := 0, FinishedAt := 0, Canceled := false } := by decide
        rw [h2] at hjd
        cases hjd
        exact hf rfl)).2.1 2).trans (by decide)

/-! ### What one call does to a job -/

theorem jobStep_refl (now : Option Time) (o : Option job) : jobStep now o o := by
  cases o with
  | none => trivial
  | some j => exact ⟨rfl, rfl, rfl, rfl, rfl, Or.inl rfl, Or.inl rfl⟩

theorem Enqueue_jobs_self (q : testJobQueue) (newId : UUID) (now : Time) (jobType : String)
    (a : RawMessage) (deps : List UUID) :
    (Enqueue q newId now jobType (some a) deps).2.jobs newId =
      some (enqueuedJob newId now jobType a deps) := by
  cases hc : countFinishedJobs (storedJob q newId now jobType a deps) deps with
  | error e =>
    rw [Enqueue_error hc]
    simp [storedJob]
  | ok n =>
    by_cases hn : n = deps.length
    · subst hn
      rw [Enqueue_ready hc]
      simp [storedJob]
    · rw [Enqueue_waiting hc hn]
      simp [storedJob]

theorem FinishJob_jobs_self {q : testJobQueue} {id : UUID} {j : job} (hj : q.jobs id = some j)
    (now : Time) (result : Option RawMessage) :
    (FinishJob q id now result).2.jobs id = some j ∨
      (j.FinishedAt = 0 ∧ (FinishJob q id now result).2.jobs id = some { j with Result := none }) ∨
      (j.FinishedAt = 0 ∧ ∃ r, (FinishJob q id now result).2.jobs id = some (finishedJob j now r)) := by
  by_cases hr : j.StartedAt = 0 ∨ j.FinishedAt ≠ 0
  · rw [FinishJob_notRunning hj hr]
    exact Or.inl hj
  · have hf : j.FinishedAt = 0 := by
      by_contra hne
      exact hr (Or.inr hne)
    cases result with
    | none =>
      rw [FinishJob_marshalError hj hr]
      exact Or.inr (Or.inl ⟨hf, by simp⟩)
    | some r =>
      refine Or.inr (Or.inr ⟨hf, r, ?_⟩)
      rw [(FinishJob_running_parts hj hr now r).2.2.1]
      simp [recordedFinish]

theorem apply_jobStep {q : testJobQueue} {op : Op} (hop : op.admissible q) (x : UUID) :
    jobStep op.now (q.jobs x) ((op.apply q).jobs x) := by
  cases op with
  | enqueue newId now jobType args deps =>
    by_cases hx : x = newId
    · subst hx
      cases args with
      | none => exact jobStep_refl _ _
      | some a =>
        rw [Op.apply, Enqueue_jobs_self, hop.1]
        exact ⟨rfl, rfl, rfl, rfl⟩
    · rw [Op.apply, Enqueue_jobs_of_ne _ _ _ _ _ _ hx]
      exact jobStep_refl _ _
  | dequeue now unmarshal jobTypes =>
    rcases Dequeue_jobs q now unmarshal jobTypes x with h | ⟨j, hj, h⟩
    · rw [Op.apply, h]
      exact jobStep_refl _ _
    · rw [Op.apply, h, hj]
      exact ⟨rfl, rfl, rfl, rfl, rfl, Or.inr rfl, Or.inl rfl⟩
  | finish id now result =>
    by_cases hx : x = id
    · subst hx
      cases hj : q.jobs x with
      | none =>
        rw [Op.apply, FinishJob_notExist hj, hj]
        trivial
      | some j =>
        rcases FinishJob_jobs_self hj now result with h | ⟨hf, h⟩ | ⟨hf, r, h⟩
        · rw [Op.apply, h]
          exact jobStep_refl _ _
        · rw [Op.apply, h]
          exact ⟨rfl, rfl, rfl, rfl, rfl, Or.inl rfl, Or.inl rfl⟩
        · rw [Op.apply, h]
          exact ⟨rfl, rfl, rfl, rfl, rfl, Or.inl rfl, Or.inr ⟨hf, rfl⟩⟩
    · rw [Op.apply, FinishJob_jobs_of_ne _ _ _ _ hx]
      exact jobStep_refl _ _
  | cancel id =>
    simp only [Op.apply, CancelJob]
    cases hj : q.jobs id with
    | none => exact jobStep_refl _ _
    | some j =>
      by_cases hx : x = id
      · subst hx
        simp only [Function.update_same, hj]
        exact ⟨rfl, rfl, rfl, rfl, rfl, Or.inl rfl, Or.inl rfl⟩
      · simp only [Function.update_noteq hx]
        exact jobStep_refl _ _

/-! ### The order of the ready lists -/

theorem Op.after_le {clk : Time} {op : Op} (h : op.after clk) : clk ≤ op.now.getD clk := by
  unfold Op.after at h
  cases hn : op.now with
  | none => simp
  | some n =>
    rw [hn] at h
    simp only [Option.getD_some]
    exact Nat.le_of_lt h

theorem Op.after_lt {clk : Time} {op : Op} (h : op.after clk) {n : Time}
    (hn : op.now = some n) : clk < n ∧ op.now.getD clk = n := by
  unfold Op.after at h
  rw [hn] at h
  exact ⟨h, by simp [hn]⟩

theorem queued_le_apply {clk : Time} {q : testJobQueue} (ho : Ordered clk q) {op : Op}
    (hop : op.admissible q) (haft : op.after clk) (x : UUID) (j1 : job)
    (hx : (op.apply q).jobs x = some j1) : j1.QueuedAt ≤ op.now.getD clk := by
  have hs := apply_jobStep hop x
  rw [hx] at hs
  cases hj : q.jobs x with
  | none =>
    rw [hj] at hs
    obtain ⟨-, -, -, hn⟩ := hs
    rw [(Op.after_lt haft hn).2]
  | some j =>
    rw [hj] at hs
    obtain ⟨-, -, -, -, hq, -, -⟩ := hs
    rw [hq]
    exact Nat.le_trans (ho.queued_le x j hj) (Op.after_le haft)

/-- A job that was not ready as it was queued does not become so later. -/
theorem queuedReady_of_apply {clk : Time} {q : testJobQueue} (ho : Ordered clk q) {op : Op}
    (hop : op.admissible q) (haft : op.after clk) {x : UUID} {j j1 : job}
    (hj : q.jobs x = some j) (hj1 : (op.apply q).jobs x = some j1)
    (hr : queuedReady (op.apply q) j1) : queuedReady q j := by
  have hs := apply_jobStep hop x
  rw [hj, hj1] at hs
  obtain ⟨-, -, -, hdeps, hqa, -, -⟩ := hs
  intro d hd
  obtain ⟨jd1, hjd1, hne, hlt⟩ := hr d (by rw [hdeps]; exact hd)
  have hsd := apply_jobStep hop d
  rw [hjd1] at hsd
  cases hjd : q.jobs d with
  | none =>
    rw [hjd] at hsd
    exact absurd hsd.2.1 hne
  | some jd =>
    rw [hjd] at hsd
    obtain ⟨-, -, -, -, -, -, hf⟩ := hsd
    rcases hf with hf | ⟨-, hn⟩
    · exact ⟨jd, rfl, by rw [← hf]; exact hne, by rw [← hf, ← hqa]; exact hlt⟩
    · have h1 := (Op.after_lt haft hn).1
      have h2 := ho.queued_le x j hj
      rw [hqa] at hlt
      exact absurd (Nat.lt_trans (Nat.lt_of_lt_of_le hlt h2) h1) (Nat.lt_irrefl _)

theorem queuedOrder_apply {clk : Time} {q : testJobQueue} (ho : Ordered clk q) {op : Op}
    (hop : op.admissible q) (haft : op.after clk) {a b : UUID} {ja jb : job}
    (ha : q.jobs a = some ja) (hb : q.jobs b = some jb) (hab : queuedOrder q a b) :
    queuedOrder (op.apply q) a b := by
  intro ja1 jb1 hja1 hjb1 hra hrb
  have hsa := apply_jobStep hop a
  have hsb := apply_jobStep hop b
  rw [ha, hja1] at hsa
  rw [hb, hjb1] at hsb
  rw [hsa.2.2.2.2.1, hsb.2.2.2.2.1]
  exact hab ja jb ha hb (queuedReady_of_apply ho hop haft ha hja1 hra)
    (queuedReady_of_apply ho hop haft hb hjb1 hrb)

theorem pairwise_queuedOrder_apply {clk : Time} {q : testJobQueue} (ho : Ordered clk q)
    {op : Op} (hop : op.admissible q) (haft : op.after clk) {l : List UUID}
    (hl : ∀ x ∈ l, ∃ j, q.jobs x = some j) (hp : l.Pairwise (queuedOrder q)) :
    l.Pairwise (queuedOrder (op.apply q)) := by
  refine hp.imp_of_mem ?_
  intro a b ha hb hab
  obtain ⟨ja, hja⟩ := hl a ha
  obtain ⟨jb, hjb⟩ := hl b hb
  exact queuedOrder_apply ho hop haft hja hjb hab

/-- A call that only takes ids off the ready lists keeps them in order. -/
theorem Ordered_apply_of_sublist {clk : Time} {q : testJobQueue} (h : WF q)
    (ho : Ordered clk q) {op : Op} (hop : op.admissible q) (haft : op.after clk)
    (hsub : ∀ t, ((op.apply q).pending t).Sublist (q.pending t)) :
    Ordered (op.now.getD clk) (op.apply q) := by
  refine ⟨queued_le_apply ho hop haft, fun t => ?_⟩
  refine pairwise_queuedOrder_apply ho hop haft ?_ ((ho.pending_sorted t).sublist (hsub t))
  intro x hx
  obtain ⟨j, hj, -⟩ := h.pending_ok t x ((hsub t).subset hx)
  exact ⟨j, hj⟩

theorem Dequeue_pending_sublist (q : testJobQueue) (now : Time) (unmarshal : RawMessage → Bool)
    (jobTypes : List String) (s : String) :
    ((Dequeue q now unmarshal jobTypes).2.pending s).Sublist (q.pending s) := by
  induction jobTypes with
  | nil => exact List.Sublist.refl _
  | cons t ts ih =>
    unfold Dequeue
    cases hp : q.pending t with
    | nil => exact ih
    | cons id rest =>
      have hsub : (Function.update q.pending t rest s).Sublist (q.pending s) := by
        by_cases hs : s = t
        · subst hs
          rw [Function.update_same, hp]
          exact List.sublist_cons_self _ _
        · rw [Function.update_noteq hs]
      cases hj : q.jobs id with
      | none => simp only [hj]; exact hsub
      | some j =>
        simp only [hj]
        by_cases hu : unmarshal j.Args = true
        · simp only [hu, if_true]
          exact hsub
        · simp only [hu]
          exact hsub

theorem promoteDependants_pending (q : testJobQueue) (l : List UUID) (s : String) :
    ∃ extra, (promoteDependants q l).2.pending s = q.pending s ++ extra ∧
      ∀ x ∈ extra, ∃ depid ∈ l, ∃ dep, q.jobs depid = some dep ∧ dep.Id = x := by
  induction l generalizing q with
  | nil => exact ⟨[], by simp [promoteDependants], by simp⟩
  | cons d0 rest ih =>
    unfold promoteDependants
    cases hj : q.jobs d0 with
    | none => exact ⟨[], by simp, by simp⟩
    | some dep0 =>
      simp only []
      cases hc : countFinishedJobs q dep0.Dependencies with
      | error e => exact ⟨[], by simp, by simp⟩
      | ok n =>
        simp only []
        by_cases hn : n = dep0.Dependencies.length
        · simp only [if_pos hn]
          obtain ⟨extra, he, hx⟩ := ih
            { q with pending :=
                (Function.update q.pending dep0.JobType (q.pending dep0.JobType ++ [dep0.Id])) }
          by_cases hs : s = dep0.JobType
          · refine ⟨dep0.Id :: extra, ?_, ?_⟩
            · rw [he, hs]
              simp
            · intro x hxm
              rcases List.mem_cons.1 hxm with rfl | hxm
              · exact ⟨d0, List.mem_cons_self _ _, dep0, hj, rfl⟩
              · obtain ⟨depid, hm, dep, hdep, hid⟩ := hx x hxm
                exact ⟨depid, List.mem_cons_of_mem _ hm, dep, hdep, hid⟩
          · refine ⟨extra, ?_, ?_⟩
            · rw [he]
              simp [Function.update_noteq hs]
            · intro x hxm
              obtain ⟨depid, hm, dep, hdep, hid⟩ := hx x hxm
              exact ⟨depid, List.mem_cons_of_mem _ hm, dep, hdep, hid⟩
        · simp only [if_neg hn]
          obtain ⟨extra, he, hx⟩ := ih q
          refine ⟨extra, he, ?_⟩
          intro x hxm
          obtain ⟨depid, hm, dep, hdep, hid⟩ := hx x hxm
          exact ⟨depid, List.mem_cons_of_mem _ hm, dep, hdep, hid⟩

theorem Enqueue_pending (q : testJobQueue) (newId : UUID) (now : Time) (jobType : String)
    (args : Option RawMessage) (deps : List UUID) (t : String) :
    (Enqueue q newId now jobType args deps).2.pending t = q.pending t ∨
      (t = jobType ∧ args ≠ none ∧
        (Enqueue q newId now jobType args deps).2.pending t = q.pending t ++ [newId]) := by
  cases args with
  | none => exact Or.inl rfl
  | some a =>
    cases hc : countFinishedJobs (storedJob q newId now jobType a deps) deps with
    | error e =>
      rw [Enqueue_error hc]
      exact Or.inl rfl
    | ok n =>
      by_cases hn : n = deps.length
      · subst hn
        rw [Enqueue_ready hc]
        by_cases ht : t = jobType
        · subst ht
          exact Or.inr ⟨rfl, by simp, by simp⟩
        · exact Or.inl (by simp [storedJob, Function.update_noteq ht])
      · rw [Enqueue_waiting hc hn]
        exact Or.inl rfl

theorem FinishJob_pending {q : testJobQueue} (h : WF q) (id : UUID) {now : Time}
    (hnow : now ≠ 0) (result : Option RawMessage) (t : String) :
    ∃ extra, (FinishJob q id now result).2.pending t = q.pending t ++ extra ∧
      ∀ x ∈ extra, ∃ l, q.dependants id = some l ∧ x ∈ l ∧
        ∃ jf, (FinishJob q id now result).2.jobs id = some jf ∧ jf.FinishedAt = now := by
  cases hj : q.jobs id with
  | none =>
    rw [FinishJob_notExist hj]
    exact ⟨[], by simp, by simp⟩
  | some j =>
    by_cases hr : j.StartedAt = 0 ∨ j.FinishedAt ≠ 0
    · rw [FinishJob_notRunning hj hr]
      exact ⟨[], by simp, by simp⟩
    · cases result with
      | none =>
        rw [FinishJob_marshalError hj hr]
        exact ⟨[], by simp, by simp⟩
      | some r =>
        obtain ⟨-, p2, p3, -⟩ := FinishJob_running_parts hj hr now r
        obtain ⟨extra, he, hx⟩ := promoteDependants_pending (recordedFinish q id j now r)
          ((q.dependants id).getD []) t
        refine ⟨extra, by rw [p2, he]; rfl, ?_⟩
        intro x hxm
        obtain ⟨depid, hm, dep, hdep, hid⟩ := hx x hxm
        have h1 := WF_recordedFinish h hj hr hnow r
        rw [h1.id_eq depid dep hdep] at hid
        subst hid
        cases hd : q.dependants id with
        | none => simp [hd] at hm
        | some l =>
          rw [hd] at hm
          refine ⟨l, rfl, hm, finishedJob j now r, ?_, rfl⟩
          rw [p3]
          simp [recordedFinish]

theorem Ordered_apply {clk : Time} {q : testJobQueue} (h : WF q) (ho : Ordered clk q)
    {op : Op} (hop : op.admissible q) (haft : op.after clk) :
    Ordered (op.now.getD clk) (op.apply q) := by
  have hold : ∀ t x, x ∈ q.pending t → ∃ j, q.jobs x = some j := by
    intro t x hx
    obtain ⟨j, hj, -⟩ := h.pending_ok t x hx
    exact ⟨j, hj⟩
  cases op with
  | enqueue newId now jobType args deps =>
    refine ⟨queued_le_apply ho hop haft, fun t => ?_⟩
    have hkeep := pairwise_queuedOrder_apply ho hop haft (hold t) (ho.pending_sorted t)
    rcases Enqueue_pending q newId now jobType args deps t with hp | ⟨-, hargs, hp⟩
    · rw [Op.apply, hp]
      exact hkeep
    · rw [Op.apply, hp, List.pairwise_append]
      refine ⟨hkeep, List.pairwise_singleton _ _, ?_⟩
      intro a ha b hb
      rw [List.mem_singleton.1 hb]
      intro ja jb hja hjb _ _
      obtain ⟨a0, rfl⟩ := Option.ne_none_iff_exists'.1 hargs
      have hnew := Enqueue_jobs_self q newId now jobType a0 deps
      have hjb1 : (Enqueue q newId now jobType (some a0) deps).2.jobs newId = some jb := hjb
      rw [hnew] at hjb1
      cases hjb1
      exact queued_le_apply ho hop haft a ja hja
  | dequeue now unmarshal jobTypes =>
    exact Ordered_apply_of_sublist h ho hop haft
      (fun t => Dequeue_pending_sublist q now unmarshal jobTypes t)
  | finish id now result =>
    refine ⟨queued_le_apply ho hop haft, fun t => ?_⟩
    have hkeep := pairwise_queuedOrder_apply ho hop haft (hold t) (ho.pending_sorted t)
    obtain ⟨extra, he, hx⟩ := FinishJob_pending h id hop result t
    have hnot : ∀ x ∈ extra, ∀ jx, (FinishJob q id now result).2.jobs x = some jx →
        ¬ queuedReady (FinishJob q id now result).2 jx := by
      intro x hxm jx hjx hready
      obtain ⟨l, hl, hxl, jf, hjf, hfa⟩ := hx x hxm
      obtain ⟨j0, hj0, hmem, -⟩ := h.dependants_ok id l hl x hxl
      have hs := apply_jobStep hop x
      have hjx1 : ((Op.finish id now result).apply q).jobs x = some jx := hjx
      rw [hj0, hjx1] at hs
      obtain ⟨-, -, -, hdeps, hqa, -, -⟩ := hs
      obtain ⟨jd, hjd, -, hlt⟩ := hready id (by rw [hdeps]; exact hmem)
      rw [hjf] at hjd
      cases hjd
      rw [hfa, hqa] at hlt
      have h1 : clk < now := (Op.after_lt haft rfl).1
      have h2 := ho.queued_le x j0 hj0
      exact absurd (Nat.lt_trans (Nat.lt_of_lt_of_le hlt h2) h1) (Nat.lt_irrefl _)
    rw [Op.apply, he, List.pairwise_append]
    refine ⟨hkeep, List.pairwise_of_forall_mem_list ?_, ?_⟩
    · intro a ha b _ ja jb hja _ hra _
      exact absurd hra (hnot a ha ja hja)
    · intro a _ b hb ja jb _ hjb _ hrb
      exact absurd hrb (hnot b hb jb hjb)
  | cancel id =>
    refine Ordered_apply_of_sublist h ho hop haft (fun t => ?_)
    simp only [Op.apply, CancelJob]
    cases q.jobs id with
    | none => exact List.Sublist.refl _
    | some j => exact List.Sublist.refl _

theorem Ordered_New : Ordered 0 New := by
  refine ⟨?_, fun _ => List.Pairwise.nil⟩
  intro id j hj
  cases hj

theorem Ordered_run {clk : Time} {q : testJobQueue} (h : WF q) (ho : Ordered clk q)
    {ops : List Op} (hops : clockedRun clk q ops) : ∃ clk1, Ordered clk1 (run q ops) := by
  induction ops generalizing clk q with
  | nil => exact ⟨clk, ho⟩
  | cons op ops ih =>
    obtain ⟨hop, haft, hrest⟩ := hops
    exact ih (WF_apply h hop) (Ordered_apply h ho hop haft) hrest

/-- C5 (counterexample): under a strictly increasing clock, job 2 of type `t`
is queued at instant 2 and waits for job 1, job 3 of type `t` is queued at
instant 3 and is ready at once; finishing job 1 appends job 2 behind job 3.
In the ready list of `t` job 3 precedes job 2 although it was queued later. -/
theorem C5_promoted_job_behind_later_job :
    clockedRun 0 New promotedLateRun ∧ (run New promotedLateRun).pending "t" = [3, 2] ∧
      ((run New promotedLateRun).jobs 3).map (fun j => j.QueuedAt) = some 3 ∧
      ((run New promotedLateRun).jobs 2).map (fun j => j.QueuedAt) = some 2 := by
  decide

/-- C5 (amended): in every state reached from the empty queue under a strictly
increasing clock and for every type `t`, if job A precedes job B in the ready
list of `t` and both were put there by `Enqueue` (every dependency of each had
finished before the job was queued), then `queued_at(A) ≤ queued_at(B)`. -/
theorem C5_ready_list_order {ops : List Op} (hops : clockedRun 0 New ops) (t : String) :
    ((run New ops).pending t).Pairwise
      (fun a b => ∀ ja jb, (run New ops).jobs a = some ja → (run New ops).jobs b = some jb →
        queuedReady (run New ops) ja → queuedReady (run New ops) jb →
        ja.QueuedAt ≤ jb.QueuedAt) := by
  obtain ⟨clk1, ho⟩ := Ordered_run WF_New Ordered_New hops
  exact ho.pending_sorted t

theorem C5_ready_list_order_witness :
    (run New queuedInOrderRun).pending "t" = [2, 3] ∧
      ((run New queuedInOrderRun).pending "t").Pairwise
        (fun a b => ∀ ja jb, (run New queuedInOrderRun).jobs a = some ja →
          (run New queuedInOrderRun).jobs b = some jb →
          queuedReady (run New queuedInOrderRun) ja → queuedReady (run New queuedInOrderRun) jb →
          ja.QueuedAt ≤ jb.QueuedAt) :=
  ⟨by decide, C5_ready_list_order (by decide : clockedRun 0 New queuedInOrderRun) "t"⟩

/-! ### First in, first out -/

theorem run_append (q : testJobQueue) (xs ys : List Op) :
    run q (xs ++ ys) = run (run q xs) ys := by
  induction xs generalizing q with
  | nil => rfl
  | cons x xs ih => exact ih (x.apply q)

theorem admissibleRun_append {q : testJobQueue} {xs ys : List Op}
    (h : admissibleRun q (xs ++ ys)) : admissibleRun q xs ∧ admissibleRun (run q xs) ys := by
  induction xs generalizing q with
  | nil => exact ⟨trivial, h⟩
  | cons x xs ih =>
    obtain ⟨h1, h2⟩ := ih h.2
    exact ⟨⟨h.1, h1⟩, h2⟩

theorem jobs_ne_none_apply {q : testJobQueue} {op : Op} (hop : op.admissible q) {x : UUID}
    (hx : q.jobs x ≠ none) : (op.apply q).jobs x ≠ none := by
  have hs := apply_jobStep hop x
  obtain ⟨j, hj⟩ := Option.ne_none_iff_exists'.1 hx
  rw [hj] at hs
  intro hnone
  rw [hnone] at hs
  exact hs

theorem jobs_ne_none_run {q : testJobQueue} {ops : List Op} (hops : admissibleRun q ops)
    {x : UUID} (hx : q.jobs x ≠ none) : (run q ops).jobs x ≠ none := by
  induction ops generalizing q with
  | nil => exact hx
  | cons op ops ih => exact ih hops.2 (jobs_ne_none_apply hops.1 hx)

/-- While no job has been started, a call other than `Dequeue` starts none,
and it leaves each ready list as it is or appends the id of a new job. -/
theorem noneStarted_apply {q : testJobQueue} (hs : noneStarted q) {op : Op}
    (hop : op.admissible q) (hnd : op.isDequeue = false) :
    noneStarted (op.apply q) ∧
      ∀ t, (op.apply q).pending t = q.pending t ∨
        ∃ newId, q.jobs newId = none ∧ (op.apply q).pending t = q.pending t ++ [newId] := by
  cases op with
  | enqueue newId now jobType args deps =>
    constructor
    · intro x j hj
      by_cases hx : x = newId
      · subst hx
        cases args with
        | none => exact hs x j hj
        | some a =>
          rw [Op.apply, Enqueue_jobs_self] at hj
          cases hj
          rfl
      · rw [Op.apply, Enqueue_jobs_of_ne _ _ _ _ _ _ hx] at hj
        exact hs x j hj
    · intro t
      rcases Enqueue_pending q newId now jobType args deps t with hp | ⟨-, -, hp⟩
      · exact Or.inl hp
      · exact Or.inr ⟨newId, hop.1, hp⟩
  | dequeue now unmarshal jobTypes => cases hnd
  | finish id now result =>
    have hsame : (Op.finish id now result).apply q = q := by
      cases hj : q.jobs id with
      | none => rw [Op.apply, FinishJob_notExist hj]
      | some j => rw [Op.apply, FinishJob_notRunning hj (Or.inl (hs id j hj))]
    rw [hsame]
    exact ⟨hs, fun _ => Or.inl rfl⟩
  | cancel id =>
    simp only [Op.apply, CancelJob]
    cases hj : q.jobs id with
    | none => exact ⟨hs, fun _ => Or.inl rfl⟩
    | some j =>
      refine ⟨?_, fun _ => Or.inl rfl⟩
      intro x jx hjx
      by_cases hx : x = id
      · subst hx
        simp only [Function.update_same, Option.some.injEq] at hjx
        subst hjx
        exact hs x j hj
      · simp only [Function.update_noteq hx] at hjx
        exact hs x jx hjx

theorem noneStarted_run {q : testJobQueue} (hs : noneStarted q) {ops : List Op}
    (hops : admissibleRun q ops) (hnd : ∀ op ∈ ops, op.isDequeue = false) :
    noneStarted (run q ops) := by
  induction ops generalizing q with
  | nil => exact hs
  | cons op ops ih =>
    exact ih (noneStarted_apply hs hops.1 (hnd op (List.mem_cons_self _ _))).1 hops.2
      (fun o ho => hnd o (List.mem_cons_of_mem _ ho))

/-- Once `a` is a job and no `b` stands before an `a` in the ready list of `t`,
this stays so through calls other than `Dequeue`. -/
theorem noneBefore_run {q : testJobQueue} (hs : noneStarted q) {a b : UUID} {t : String}
    (ha : q.jobs a ≠ none) (hp : (q.pending t).Pairwise (fun x y => ¬ (x = b ∧ y = a)))
    {ops : List Op} (hops : admissibleRun q ops) (hnd : ∀ op ∈ ops, op.isDequeue = false) :
    ((run q ops).pending t).Pairwise (fun x y => ¬ (x = b ∧ y = a)) := by
  induction ops generalizing q with
  | nil => exact hp
  | cons op ops ih =>
    have hop := hops.1
    obtain ⟨hs1, hpend⟩ := noneStarted_apply hs hop (hnd op (List.mem_cons_self _ _))
    refine ih hs1 (jobs_ne_none_apply hop ha) ?_ hops.2
      (fun o ho => hnd o (List.mem_cons_of_mem _ ho))
    rcases hpend t with h1 | ⟨newId, hfresh, h1⟩
    · rw [h1]
      exact hp
    · rw [h1, List.pairwise_append]
      refine ⟨hp, List.pairwise_singleton _ _, ?_⟩
      intro x _ y hy hxy
      rw [List.mem_singleton.1 hy] at hxy
      rw [← hxy.2] at ha
      exact ha hfresh

theorem Dequeue_keeps_id (q : testJobQueue) (now : Time) (unmarshal : RawMessage → Bool)
    (jobTypes : List String) {x : UUID} {jx : job} (hx : q.jobs x = some jx) :
    ∃ j1, (Dequeue q now unmarshal jobTypes).2.jobs x = some j1 ∧ j1.Id = jx.Id := by
  rcases Dequeue_jobs q now unmarshal jobTypes x with h | ⟨j, hj, h⟩
  · exact ⟨jx, by rw [h]; exact hx, rfl⟩
  · rw [hx] at hj
    cases hj
    exact ⟨_, h, rfl⟩

theorem Dequeue_one_pending {q : testJobQueue} (now : Time) (unmarshal : RawMessage → Bool)
    {t : String} {id : UUID} {rest : List UUID} {j : job} (hp : q.pending t = id :: rest)
    (hj : q.jobs id = some j) : (Dequeue q now unmarshal [t]).2.pending t = rest := by
  cases hu : unmarshal j.Args with
  | true =>
    rw [Dequeue_head_ok hp hj hu]
    simp
  | false =>
    rw [Dequeue_head_unmarshalError hp hj hu]
    simp

/-- The call number `i` of successive `Dequeue` calls for `t` can only return
the id at position `i` of the ready list of `t`. -/
theorem dequeueEach_get {q : testJobQueue} {t : String}
    (hq : ∀ x ∈ q.pending t, ∃ j, q.jobs x = some j ∧ j.Id = x)
    (calls : List (Time × (RawMessage → Bool))) {i : Nat} {x : UUID} {ds : List UUID}
    (h : (dequeueEach q t calls)[i]? = some (.ok (x, ds))) : (q.pending t)[i]? = some x := by
  induction calls generalizing q i with
  | nil => simp [dequeueEach] at h
  | cons c cs ih =>
    rw [dequeueEach] at h
    cases hp : q.pending t with
    | nil =>
      rw [@Dequeue_noJobAvailable q c.1 c.2 [t] (by simpa using hp)] at h
      cases i with
      | zero => simp at h
      | succ n =>
        simp only [List.getElem?_cons_succ] at h
        have := ih hq h
        rw [hp] at this
        simp at this
    | cons id rest =>
      obtain ⟨j, hj, hid⟩ := hq id (by rw [hp]; exact List.mem_cons_self _ _)
      cases i with
      | zero =>
        simp only [List.getElem?_cons_zero, Option.some.injEq] at h ⊢
        cases hu : c.2 j.Args with
        | true =>
          rw [Dequeue_head_ok hp hj hu] at h
          simp only [Except.ok.injEq, Prod.mk.injEq] at h
          rw [← h.1, hid]
        | false =>
          rw [Dequeue_head_unmarshalError hp hj hu] at h
          cases h
      | succ n =>
        simp only [List.getElem?_cons_succ] at h ⊢
        have hq1 : ∀ y ∈ (Dequeue q c.1 c.2 [t]).2.pending t,
            ∃ jy, (Dequeue q c.1 c.2 [t]).2.jobs y = some jy ∧ jy.Id = y := by
          intro y hy
          rw [Dequeue_one_pending c.1 c.2 hp hj] at hy
          obtain ⟨jy, hjy, hyid⟩ := hq y (by rw [hp]; exact List.mem_cons_of_mem _ hy)
          obtain ⟨j1, hj1, h1⟩ := Dequeue_keeps_id q c.1 c.2 [t] hjy
          exact ⟨j1, hj1, by rw [h1, hyid]⟩
        have := ih hq1 h
        rw [Dequeue_one_pending c.1 c.2 hp hj] at this
        exact this

/-- When every destination decodes every stored argument, the call number `i`
of successive `Dequeue` calls for `t` returns the id at position `i` of the
ready list of `t`. -/
theorem dequeueEach_ok {q : testJobQueue} {t : String}
    (hq : ∀ x ∈ q.pending t, ∃ j, q.jobs x = some j ∧ j.Id = x)
    {calls : List (Time × (RawMessage → Bool))} (hdec : ∀ c ∈ calls, ∀ m, c.2 m = true)
    {i : Nat} (hi : i < calls.length) {x : UUID} (hx : (q.pending t)[i]? = some x) :
    ∃ ds, (dequeueEach q t calls)[i]? = some (.ok (x, ds)) := by
  induction calls generalizing q i with
  | nil => simp at hi
  | cons c cs ih =>
    rw [dequeueEach]
    cases hp : q.pending t with
    | nil =>
      rw [hp] at hx
      simp at hx
    | cons id rest =>
      obtain ⟨j, hj, hid⟩ := hq id (by rw [hp]; exact List.mem_cons_self _ _)
      have hu : c.2 j.Args = true := hdec c (List.mem_cons_self _ _) _
      rw [hp] at hx
      cases i with
      | zero =>
        simp only [List.getElem?_cons_zero, Option.some.injEq] at hx ⊢
        rw [Dequeue_head_ok hp hj hu]
        exact ⟨j.Dependencies, by rw [hid, hx]⟩
      | succ n =>
        simp only [List.getElem?_cons_succ] at hx ⊢
        have hq1 : ∀ y ∈ (Dequeue q c.1 c.2 [t]).2.pending t,
            ∃ jy, (Dequeue q c.1 c.2 [t]).2.jobs y = some jy ∧ jy.Id = y := by
          intro y hy
          rw [Dequeue_one_pending c.1 c.2 hp hj] at hy
          obtain ⟨jy, hjy, hyid⟩ := hq y (by rw [hp]; exact List.mem_cons_of_mem _ hy)
          obtain ⟨j1, hj1, h1⟩ := Dequeue_keeps_id q c.1 c.2 [t] hjy
          exact ⟨j1, hj1, by rw [h1, hyid]⟩
        refine ih hq1 (fun c1 hc1 => hdec c1 (List.mem_cons_of_mem _ hc1))
          (by simpa using hi) ?_
        rw [Dequeue_one_pending c.1 c.2 hp hj]
        exact hx

theorem index_lt_of_noneBefore {l : List UUID} {a b : UUID} (hab : a ≠ b)
    (hp : l.Pairwise (fun x y => ¬ (x = b ∧ y = a))) {i k : Nat} (hi : l[i]? = some a)
    (hk : l[k]? = some b) : i < k := by
  obtain ⟨hi1, hia⟩ := List.getElem?_eq_some.1 hi
  obtain ⟨hk1, hkb⟩ := List.getElem?_eq_some.1 hk
  rcases Nat.lt_trichotomy i k with h | h | h
  · exact h
  · subst h
    rw [hia] at hkb
    exact absurd hkb hab
  · exact absurd ⟨hkb, hia⟩ (List.pairwise_iff_getElem.1 hp k i hk1 hi1 h)

theorem noneStarted_New : noneStarted New := by
  intro id j hj
  cases hj

/-- C4: first in, first out within a type. In a run from the empty queue
without `Dequeue` calls, let the `Enqueue` that creates job A of type `t` come
before the `Enqueue` that creates job B of type `t`, and let both be in the
ready list of `t` at the end of the run. Then in any successive `Dequeue`
calls for `t`, a call that returns A comes before a call that returns B; and
when the destinations decode the stored arguments and there are at least as
many calls as ready jobs, A and B are both returned, A first. -/
theorem C4_fifo_within_type {ops pre mid post : List Op} {a b : UUID} {nowA nowB : Time}
    {t : String} {argsA argsB : RawMessage} {depsA depsB : List UUID}
    (hsplit : ops = pre ++ Op.enqueue a nowA t (some argsA) depsA ::
      (mid ++ Op.enqueue b nowB t (some argsB) depsB :: post))
    (hops : admissibleRun New ops) (hnd : ∀ op ∈ ops, op.isDequeue = false)
    (ha : a ∈ (run New ops).pending t) (hb : b ∈ (run New ops).pending t)
    (calls : List (Time × (RawMessage → Bool))) :
    (∀ (i k : Nat) (da db : List UUID), (dequeueEach (run New ops) t calls)[i]? = some (Except.ok (a, da)) →
        (dequeueEach (run New ops) t calls)[k]? = some (Except.ok (b, db)) → i < k) ∧
      ((∀ c ∈ calls, ∀ m, c.2 m = true) → ((run New ops).pending t).length ≤ calls.length →
        ∃ (i k : Nat) (da db : List UUID), i < k ∧
          (dequeueEach (run New ops) t calls)[i]? = some (Except.ok (a, da)) ∧
          (dequeueEach (run New ops) t calls)[k]? = some (Except.ok (b, db))) := by
  have hwf : WF (run New ops) := WF_run WF_New hops
  have hknown : ∀ x ∈ (run New ops).pending t,
      ∃ j, (run New ops).jobs x = some j ∧ j.Id = x := by
    intro x hx
    obtain ⟨j, hj, -⟩ := hwf.pending_ok t x hx
    exact ⟨j, hj, hwf.id_eq x j hj⟩
  subst hsplit
  obtain ⟨hpre, hrest⟩ := admissibleRun_append hops
  obtain ⟨hmid, hB⟩ := admissibleRun_append hrest.2
  have hfreshA : (run New pre).jobs a = none := hrest.1.1
  have hfreshB := hB.1.1
  have hndpre : ∀ op ∈ pre, op.isDequeue = false :=
    fun op hop => hnd op (List.mem_append_left _ hop)
  have hndrest : ∀ op ∈ mid ++ Op.enqueue b nowB t (some argsB) depsB :: post,
      op.isDequeue = false :=
    fun op hop => hnd op (List.mem_append_right _ (List.mem_cons_of_mem _ hop))
  have hwf1 : WF (run New pre) := WF_run WF_New hpre
  have hs1 : noneStarted (run New pre) := noneStarted_run noneStarted_New hpre hndpre
  obtain ⟨hs2, hpend2⟩ := noneStarted_apply hs1 hrest.1 rfl
  have hjobA : ((Op.enqueue a nowA t (some argsA) depsA).apply (run New pre)).jobs a ≠ none := by
    rw [Op.apply, Enqueue_jobs_self]
    simp
  have hab : a ≠ b := by
    intro e
    have h := hfreshB
    rw [← e] at h
    exact jobs_ne_none_run hmid hjobA h
  have hnotB1 : (run New pre).jobs b = none := by
    by_contra hne
    exact jobs_ne_none_run hmid (jobs_ne_none_apply hrest.1 hne) hfreshB
  have hnotin : ∀ x, (run New pre).jobs x = none → x ∉ (run New pre).pending t := by
    intro x hx hmem
    obtain ⟨j, hj, -⟩ := hwf1.pending_ok t x hmem
    rw [hx] at hj
    cases hj
  have hold : ((run New pre).pending t).Pairwise (fun x y => ¬ (x = b ∧ y = a)) := by
    apply List.pairwise_of_forall_mem_list
    intro x _ y hy hxy
    rw [hxy.2] at hy
    exact hnotin a hfreshA hy
  have hp2 : (((Op.enqueue a nowA t (some argsA) depsA).apply (run New pre)).pending t).Pairwise
      (fun x y => ¬ (x = b ∧ y = a)) := by
    rcases hpend2 t with h1 | ⟨newId, -, h1⟩
    · rw [h1]
      exact hold
    · rw [h1, List.pairwise_append]
      refine ⟨hold, List.pairwise_singleton _ _, ?_⟩
      intro x hx y _ hxy
      rw [hxy.1] at hx
      exact hnotin b hnotB1 hx
  have hfinal := noneBefore_run hs2 hjobA hp2 hrest.2 hndrest
  have hrun : run New (pre ++ Op.enqueue a nowA t (some argsA) depsA ::
      (mid ++ Op.enqueue b nowB t (some argsB) depsB :: post)) =
      run ((Op.enqueue a nowA t (some argsA) depsA).apply (run New pre))
        (mid ++ Op.enqueue b nowB t (some argsB) depsB :: post) := by
    rw [run_append]
    rfl
  rw [← hrun] at hfinal
  have horder : ∀ (i k : Nat) (da db : List UUID),
      (dequeueEach (run New (pre ++ Op.enqueue a nowA t (some argsA) depsA ::
        (mid ++ Op.enqueue b nowB t (some argsB) depsB :: post))) t calls)[i]? =
          some (Except.ok (a, da)) →
      (dequeueEach (run New (pre ++ Op.enqueue a nowA t (some argsA) depsA ::
        (mid ++ Op.enqueue b nowB t (some argsB) depsB :: post))) t calls)[k]? =
          some (Except.ok (b, db)) → i < k := by
    intro i k da db hi hk
    exact index_lt_of_noneBefore hab hfinal (dequeueEach_get hknown calls hi)
      (dequeueEach_get hknown calls hk)
  refine ⟨horder, ?_⟩
  intro hdec hlen
  obtain ⟨i, hi⟩ := List.getElem?_of_mem ha
  obtain ⟨k, hk⟩ := List.getElem?_of_mem hb
  have hi1 : i < calls.length :=
    Nat.lt_of_lt_of_le (List.getElem?_eq_some.1 hi).1 hlen
  have hk1 : k < calls.length :=
    Nat.lt_of_lt_of_le (List.getElem?_eq_some.1 hk).1 hlen
  obtain ⟨da, hda⟩ := dequeueEach_ok hknown hdec hi1 hi
  obtain ⟨db, hdb⟩ := dequeueEach_ok hknown hdec hk1 hk
  exact ⟨i, k, da, db, horder i k da db hda hdb, hda, hdb⟩

theorem C4_fifo_within_type_witness :
    (1 ∈ (run New twoQueuedRun).pending "osbuild" ∧
        2 ∈ (run New twoQueuedRun).pending "osbuild") ∧
      dequeueEach (run New twoQueuedRun) "osbuild" [(5, decodeAll), (6, decodeAll)] =
        [Except.ok (1, []), Except.ok (2, [])] ∧
      ((∀ (i k : Nat) (da db : List UUID),
          (dequeueEach (run New twoQueuedRun) "osbuild" [(5, decodeAll), (6, decodeAll)])[i]? =
            some (Except.ok (1, da)) →
          (dequeueEach (run New twoQueuedRun) "osbuild" [(5, decodeAll), (6, decodeAll)])[k]? =
            some (Except.ok (2, db)) → i < k) ∧
        ((∀ c ∈ [(5, decodeAll), (6, decodeAll)], ∀ m, c.2 m = true) →
          ((run New twoQueuedRun).pending "osbuild").length ≤
            [(5, decodeAll), (6, decodeAll)].length →
          ∃ (i k : Nat) (da db : List UUID), i < k ∧
            (dequeueEach (run New twoQueuedRun) "osbuild" [(5, decodeAll), (6, decodeAll)])[i]? =
              some (Except.ok (1, da)) ∧
            (dequeueEach (run New twoQueuedRun) "osbuild" [(5, decodeAll), (6, decodeAll)])[k]? =
              some (Except.ok (2, db)))) :=
  ⟨by decide, by decide,
    @C4_fifo_within_type twoQueuedRun [] [Op.cancel 1, Op.finish 1 2 (some [])]
      [Op.enqueue 3 4 "koji-init" (some []) []] 1 2 1 3 "osbuild" [10] [20] [] []
      rfl (by decide) (by decide) (by decide) (by decide) [(5, decodeAll), (6, decodeAll)]⟩

/-- C12 (evaluation of the code): in the reachable state with the single ready
job 1, a `Dequeue` whose destination the stored args do not decode into returns
the decoding error after it has taken job 1 off the ready list: the ready list
is empty afterwards and job 1 still has a zero `started_at`. -/
theorem C12_failed_dequeue_drops_job :
    admissibleRun New singleJobRun ∧ (run New singleJobRun).pending "osbuild" = [1] ∧
      (Dequeue (run New singleJobRun) 2 decodeNone ["osbuild"]).1 =
        .error Error.unmarshalError ∧
      (Dequeue (run New singleJobRun) 2 decodeNone ["osbuild"]).2.pending "osbuild" = [] ∧
      ((Dequeue (run New singleJobRun) 2 decodeNone ["osbuild"]).2.jobs 1).map
        (fun j => j.StartedAt) = some 0 := by
  decide

/-- C13 (evaluation of the code): job 2 lists job 1 twice among its
dependencies. After job 2 was started at instant 5 and finished at instant 6
it is still in the ready list; the next `Dequeue` returns it again and sets
the `started_at` of the finished job to 7. -/
theorem C13_finished_job_started_again :
    admissibleRun New finishedStillReadyRun ∧
      ((run New finishedStillReadyRun).jobs 2).map (fun j => (j.StartedAt, j.FinishedAt)) =
        some (5, 6) ∧
      (Dequeue (run New finishedStillReadyRun) 7 decodeAll ["b"]).1 = .ok (2, [1, 1]) ∧
      ((Dequeue (run New finishedStillReadyRun) 7 decodeAll ["b"]).2.jobs 2).map
        (fun j => (j.StartedAt, j.FinishedAt)) = some (7, 6) := by
  decide

/-- C14 (evaluation of the code): under a strictly increasing clock that is
never zero, job 2, which lists job 1 twice among its dependencies, is started
at 5, finished at 6 and handed out again at 7: in the state reached its
`started_at` 7 is later than its `finished_at` 6. -/
theorem C14_started_after_finished :
    clockedRun 0 New (finishedStillReadyRun ++ [Op.dequeue 7 decodeAll ["b"]]) ∧
      ((run New (finishedStillReadyRun ++ [Op.dequeue 7 decodeAll ["b"]])).jobs 2).map
        (fun j => (j.QueuedAt, j.StartedAt, j.FinishedAt)) = some (2, 7, 6) := by
  decide

/-- C16: `CancelJob` only sets a flag. For an unknown id it returns
`ErrNotExist` and the queue is as before. For an existing id it returns no
error, the job is the old one with `canceled = true` (timestamps, args, result
and dependencies as before), and every other job, the ready index and the
dependants map are unchanged. -/
theorem C16_cancel_only_sets_flag (q : testJobQueue) (id : UUID) :
    (q.jobs id = none → CancelJob q id = (some Error.ErrNotExist, q)) ∧
      ∀ j, q.jobs id = some j →
        (CancelJob q id).1 = none ∧
          (CancelJob q id).2.jobs id = some { j with Canceled := true } ∧
          (∀ x, x ≠ id → (CancelJob q id).2.jobs x = q.jobs x) ∧
          (CancelJob q id).2.pending = q.pending ∧
          (CancelJob q id).2.dependants = q.dependants := by
  constructor
  · intro h
    simp only [CancelJob, h]
  · intro j hj
    simp only [CancelJob, hj]
    refine ⟨trivial, by simp, ?_, trivial, trivial⟩
    intro x hx
    simp [Function.update_noteq hx]

/-- C18: the queue never waits. In every queue state in which no type of
`jobTypes` has a ready job (an empty `jobTypes` included), `Dequeue` returns
the `no job available` error, with which the code returns the nil id, and the
queue state is as before. -/
theorem C18_dequeue_never_waits (q : testJobQueue) (now : Time) (unmarshal : RawMessage → Bool)
    (jobTypes : List String) (h : ∀ s ∈ jobTypes, q.pending s = []) :
    Dequeue q now unmarshal jobTypes = (.error Error.noJobAvailable, q) :=
  Dequeue_noJobAvailable now unmarshal h

theorem C18_dequeue_never_waits_witness :
    (∀ s ∈ ["koji-init", "koji-finalize"], (run New singleJobRun).pending s = []) ∧
      Dequeue (run New singleJobRun) 2 decodeAll ["koji-init", "koji-finalize"] =
        (.error Error.noJobAvailable, run New singleJobRun) :=
  ⟨by decide,
    C18_dequeue_never_waits (run New singleJobRun) 2 decodeAll ["koji-init", "koji-finalize"]
      (by decide)⟩

/-! ### Cancellation -/

/-- A canceled job stays canceled through every admissible call. -/
theorem canceled_stable_apply {q : testJobQueue} {id : UUID} {j : job}
    (hj : q.jobs id = some j) (hc : j.Canceled = true) {op : Op} (hop : op.admissible q) :
    ∃ j1, (op.apply q).jobs id = some j1 ∧ j1.Canceled = true := by
  cases op with
  | enqueue newId now jobType args deps =>
    have hne : id ≠ newId := by
      intro e
      rw [e, hop.1] at hj
      cases hj
    exact ⟨j, by rw [Op.apply, Enqueue_jobs_of_ne _ _ _ _ _ _ hne]; exact hj, hc⟩
  | dequeue now unmarshal jobTypes =>
    rcases Dequeue_jobs q now unmarshal jobTypes id with h | ⟨j0, hj0, h⟩
    · exact ⟨j, by rw [Op.apply, h]; exact hj, hc⟩
    · rw [hj] at hj0
      cases hj0
      exact ⟨_, h, hc⟩
  | finish id2 now result =>
    by_cases hne : id = id2
    · subst hne
      rcases FinishJob_jobs_self hj now result with h | ⟨-, h⟩ | ⟨-, r, h⟩
      · exact ⟨j, h, hc⟩
      · exact ⟨_, h, hc⟩
      · exact ⟨_, h, hc⟩
    · exact ⟨j, by rw [Op.apply, FinishJob_jobs_of_ne _ _ _ _ hne]; exact hj, hc⟩
  | cancel id2 =>
    simp only [Op.apply, CancelJob]
    cases hj2 : q.jobs id2 with
    | none => exact ⟨j, hj, hc⟩
    | some j2 =>
      by_cases hne : id = id2
      · subst hne
        exact ⟨{ j2 with Canceled := true }, by simp, rfl⟩
      · exact ⟨j, by simpa [Function.update_noteq hne] using hj, hc⟩

theorem canceled_stable_calls {q : testJobQueue} {id : UUID} {j : job}
    (hj : q.jobs id = some j) (hc : j.Canceled = true) {calls : List Call}
    (hcalls : admissibleCalls q calls) :
    ∃ j1, (runCalls q calls).jobs id = some j1 ∧ j1.Canceled = true := by
  induction calls generalizing q j with
  | nil => exact ⟨j, hj, hc⟩
  | cons c cs ih =>
    cases c with
    | op o =>
      obtain ⟨j1, hj1, hc1⟩ := canceled_stable_apply hj hc hcalls.1
      exact ih hj1 hc1 hcalls.2
    | status id2 unmarshal => exact ih hj hc hcalls.2

/-- C15 (counterexample): job 1 has finished with a result and is then
canceled without error. A `JobStatus` call whose destination the stored result
does not decode into returns the decoding error and `canceled = false`. -/
theorem C15_status_decoding_error :
    admissibleRun New finishedJobRun ∧ (CancelJob (run New finishedJobRun) 1).1 = none ∧
      JobStatus (CancelJob (run New finishedJobRun) 1).2 1 decodeNone =
        ((0, 0, 0, false), some Error.unmarshalError) := by
  decide

/-- C15 (amended): cancellation observability. Once `CancelJob(id)` has
returned without error, after every sequence of admissible `Enqueue`,
`Dequeue`, `FinishJob`, `CancelJob` and `JobStatus` calls the job is canceled,
and `JobStatus(id)` reports `canceled = true` whenever it returns without
error; it returns an error only when the job has finished and its result does
not decode into the destination of the caller. -/
theorem C15_cancellation_observable (q : testJobQueue) (id : UUID)
    (hok : (CancelJob q id).1 = none) (calls : List Call)
    (hcalls : admissibleCalls (CancelJob q id).2 calls) (unmarshal : RawMessage → Bool) :
    (∃ j, (runCalls (CancelJob q id).2 calls).jobs id = some j ∧ j.Canceled = true ∧
        ((JobStatus (runCalls (CancelJob q id).2 calls) id unmarshal).2 ≠ none →
          j.FinishedAt ≠ 0 ∧ unmarshal (j.Result.getD []) = false)) ∧
      ((JobStatus (runCalls (CancelJob q id).2 calls) id unmarshal).2 = none →
        (JobStatus (runCalls (CancelJob q id).2 calls) id unmarshal).1.2.2.2 = true) := by
  have hjob : ∃ j, (CancelJob q id).2.jobs id = some j ∧ j.Canceled = true := by
    unfold CancelJob at hok ⊢
    cases hj : q.jobs id with
    | none => rw [hj] at hok; cases hok
    | some j => exact ⟨{ j with Canceled := true }, by simp, rfl⟩
  obtain ⟨j0, hj0, hc0⟩ := hjob
  obtain ⟨j, hj, hc⟩ := canceled_stable_calls hj0 hc0 hcalls
  refine ⟨⟨j, hj, hc, ?_⟩, ?_⟩
  · intro herr
    simp only [JobStatus, hj] at herr
    by_cases hf : j.FinishedAt ≠ 0
    · refine ⟨hf, ?_⟩
      rw [if_pos hf] at herr
      by_contra hu
      simp only [Bool.not_eq_false] at hu
      rw [if_pos hu] at herr
      exact herr rfl
    · rw [if_neg hf] at herr
      exact absurd rfl herr
  · intro hnone
    simp only [JobStatus, hj] at hnone ⊢
    by_cases hf : j.FinishedAt ≠ 0
    · rw [if_pos hf] at hnone ⊢
      by_cases hu : unmarshal (j.Result.getD []) = true
      · rw [if_pos hu]
        exact hc
      · rw [if_neg hu] at hnone
        cases hnone
    · rw [if_neg hf]
      exact hc

theorem C15_cancellation_observable_witness :
    (CancelJob (run New startedJobRun) 1).1 = none ∧
      admissibleCalls (CancelJob (run New startedJobRun) 1).2
        [Call.status 1 decodeAll, Call.op (Op.finish 1 3 (some [])),
          Call.op (Op.enqueue 2 4 "osbuild" (some []) [])] ∧
      JobStatus (runCalls (CancelJob (run New startedJobRun) 1).2
        [Call.status 1 decodeAll, Call.op (Op.finish 1 3 (some [])),
          Call.op (Op.enqueue 2 4 "osbuild" (some []) [])]) 1 decodeAll =
        ((1, 2, 3, true), none) ∧
      ((JobStatus (runCalls (CancelJob (run New startedJobRun) 1).2
          [Call.status 1 decodeAll, Call.op (Op.finish 1 3 (some [])),
            Call.op (Op.enqueue 2 4 "osbuild" (some []) [])]) 1 decodeAll).2 = none →
        (JobStatus (runCalls (CancelJob (run New startedJobRun) 1).2
          [Call.status 1 decodeAll, Call.op (Op.finish 1 3 (some [])),
            Call.op (Op.enqueue 2 4 "osbuild" (some []) [])]) 1 decodeAll).1.2.2.2 = true) :=
  ⟨by decide, by decide, by decide,
    (C15_cancellation_observable (run New startedJobRun) 1 (by decide)
      [Call.status 1 decodeAll, Call.op (Op.finish 1 3 (some [])),
        Call.op (Op.enqueue 2 4 "osbuild" (some []) [])] (by decide) decodeAll).2⟩

/-! ### The dependent registration scenario -/

/-- C17: the dependent registration scenario, for every pair of types `tB` and
`tR` (equal or not). On an empty queue, after `Enqueue(B: tB, no deps)` and
`Enqueue(R: tR, deps [B])`, `Dequeue([tB, tR])` returns B; a second
`Dequeue([tB, tR])` finds no job and returns the `no job available` error;
`FinishJob(B)` succeeds, and then `Dequeue([tB, tR])` returns R with the
dependency list `[B]`. The ids drawn for B and R differ, the clock is not zero
when B is started, and the stored args decode into the destination. -/
theorem C17_dependent_registration (tB tR : String) {b r : UUID} (hbr : b ≠ r)
    (n1 n2 : Time) {n3 : Time} (hn3 : n3 ≠ 0) (n4 n5 n6 : Time) (aB aR res : RawMessage)
    {unmarshal : RawMessage → Bool} (hdec : ∀ m, unmarshal m = true) :
    dependentRegistration tB tR b r n1 n2 n3 n4 n5 n6 aB aR res unmarshal =
      (.ok b, .ok r, .ok (b, []), .error Error.noJobAvailable, none, .ok (r, [b])) := by
  have hrb : r ≠ b := fun e => hbr e.symm
  by_cases ht : tB = tR
  · subst ht
    simp [dependentRegistration, Enqueue, Dequeue, FinishJob, promoteDependants,
      countFinishedJobs, countFinishedJobsFrom, addDependant, New, Function.update_apply,
      hbr, hrb, hn3, hdec]
  · have ht2 : tR ≠ tB := fun e => ht e.symm
    simp [dependentRegistration, Enqueue, Dequeue, FinishJob, promoteDependants,
      countFinishedJobs, countFinishedJobsFrom, addDependant, New, Function.update_apply,
      hbr, hrb, hn3, hdec, ht, ht2]

theorem C17_dependent_registration_witness :
    dependentRegistration "osbuild" "koji-finalize" 1 2 1 2 3 4 5 6 [10] [20] [30] decodeAll =
      (.ok 1, .ok 2, .ok (1, []), .error Error.noJobAvailable, none, .ok (2, [1])) :=
  C17_dependent_registration "osbuild" "koji-finalize" (by decide) 1 2 (by decide) 4 5 6
    [10] [20] [30] (fun _ => rfl)

/-! ### What `Dequeue` hands out -/

/-- `Dequeue` is `DequeueInto` without the value delivered. -/
theorem DequeueInto_eq_Dequeue {α : Type} (q : testJobQueue) (now : Time)
    (decode : RawMessage → Option α) (jobTypes : List String) :
    (DequeueInto q now decode jobTypes).2 =
        (Dequeue q now (fun m => (decode m).isSome) jobTypes).2 ∧
      (DequeueInto q now decode jobTypes).1.map (fun r => (r.1, r.2.1)) =
        (Dequeue q now (fun m => (decode m).isSome) jobTypes).1 := by
  induction jobTypes with
  | nil => exact ⟨rfl, rfl⟩
  | cons t ts ih =>
    unfold DequeueInto Dequeue
    cases hp : q.pending t with
    | nil => exact ih
    | cons id rest =>
      cases hj : q.jobs id with
      | none => simp only [hj]; exact ⟨trivial, rfl⟩
      | some j =>
        simp only [hj]
        cases hd : decode j.Args with
        | none => simp [Except.map]
        | some v => simp [Except.map]

theorem DequeueInto_ok {α : Type} {q : testJobQueue} {now : Time}
    {decode : RawMessage → Option α} {jobTypes : List String} {x : UUID} {ds : List UUID}
    {v : α} (h : (DequeueInto q now decode jobTypes).1 = .ok (x, ds, v)) :
    ∃ t id j, t ∈ jobTypes ∧ id ∈ q.pending t ∧ q.jobs id = some j ∧ x = j.Id ∧
      ds = j.Dependencies ∧ decode j.Args = some v := by
  induction jobTypes with
  | nil => simp [DequeueInto] at h
  | cons t ts ih =>
    unfold DequeueInto at h
    cases hp : q.pending t with
    | nil =>
      rw [hp] at h
      obtain ⟨t1, id, j, ht1, hrest⟩ := ih h
      exact ⟨t1, id, j, List.mem_cons_of_mem _ ht1, hrest⟩
    | cons id rest =>
      rw [hp] at h
      cases hj : q.jobs id with
      | none => simp [hj] at h
      | some j =>
        simp only [hj] at h
        cases hd : decode j.Args with
        | none => simp [hd] at h
        | some v1 =>
          simp only [hd, Except.ok.injEq, Prod.mk.injEq] at h
          refine ⟨t, id, j, List.mem_cons_self _ _, by rw [hp]; exact List.mem_cons_self _ _,
            hj, h.1.symm, h.2.1.symm, ?_⟩
          rw [← h.2.2]
          exact hd

/-- No call changes the id, the type, the args, the dependencies or the
queueing time of a job. -/
theorem job_kept_run {q : testJobQueue} {x : UUID} {j : job} (hj : q.jobs x = some j)
    {ops : List Op} (hops : admissibleRun q ops) :
    ∃ j1, (run q ops).jobs x = some j1 ∧ j1.Id = j.Id ∧ j1.JobType = j.JobType ∧
      j1.Args = j.Args ∧ j1.Dependencies = j.Dependencies ∧ j1.QueuedAt = j.QueuedAt := by
  induction ops generalizing q j with
  | nil => exact ⟨j, hj, rfl, rfl, rfl, rfl, rfl⟩
  | cons op ops ih =>
    have hs := apply_jobStep hops.1 x
    rw [hj] at hs
    cases hj1 : (op.apply q).jobs x with
    | none =>
      rw [hj1] at hs
      exact absurd hs id
    | some j1 =>
      rw [hj1] at hs
      obtain ⟨h1, h2, h3, h4, h5, -, -⟩ := hs
      obtain ⟨j2, hj2, g1, g2, g3, g4, g5⟩ := ih hj1 hops.2
      exact ⟨j2, hj2, by rw [g1, h1], by rw [g2, h2], by rw [g3, h3], by rw [g4, h4],
        by rw [g5, h5]⟩

/-- C19: round trip from `Enqueue` to `Dequeue`. Let a run from the empty queue
contain the `Enqueue` call that created job `a`, with the encoded args `bytes`
and the dependency list `deps`. When a `Dequeue` made after the run succeeds
and returns `a`, the dependency list it returns is `deps` (same ids, same
order) and the value it delivers is the decoding of `bytes`. -/
theorem C19_enqueue_dequeue_round_trip {α : Type} {ops pre post : List Op} {a : UUID}
    {now : Time} {jobType : String} {bytes : RawMessage} {deps : List UUID}
    (hsplit : ops = pre ++ Op.enqueue a now jobType (some bytes) deps :: post)
    (hops : admissibleRun New ops) (now2 : Time) (decode : RawMessage → Option α)
    (jobTypes : List String) {ds : List UUID} {v : α}
    (hret : (DequeueInto (run New ops) now2 decode jobTypes).1 = .ok (a, ds, v)) :
    ds = deps ∧ decode bytes = some v := by
  have hwf : WF (run New ops) := WF_run WF_New hops
  subst hsplit
  obtain ⟨-, hrest⟩ := admissibleRun_append hops
  have hnew : ((Op.enqueue a now jobType (some bytes) deps).apply (run New pre)).jobs a =
      some (enqueuedJob a now jobType bytes deps) := by
    rw [Op.apply, Enqueue_jobs_self]
  obtain ⟨j1, hj1, -, -, hargs, hdeps, -⟩ := job_kept_run hnew hrest.2
  have hrun : run New (pre ++ Op.enqueue a now jobType (some bytes) deps :: post) =
      run ((Op.enqueue a now jobType (some bytes) deps).apply (run New pre)) post := by
    rw [run_append]
    rfl
  rw [← hrun] at hj1
  obtain ⟨t, id, j, -, -, hj, hid, hds, hdec⟩ := DequeueInto_ok hret
  have hida : id = a := by
    rw [hid]
    exact (hwf.id_eq id j hj).symm
  rw [hida, hj1] at hj
  cases hj
  exact ⟨by rw [hds, hdeps]; rfl, by rw [← hdec, hargs]; rfl⟩

theorem C19_enqueue_dequeue_round_trip_witness :
    (DequeueInto (run New queuedWithArgsRun) 3 decodeBytes ["osbuild"]).1 =
        .ok (1, [], [10, 20]) ∧
      (([] : List UUID) = [] ∧ decodeBytes [10, 20] = some [10, 20]) :=
  ⟨by decide,
    @C19_enqueue_dequeue_round_trip RawMessage queuedWithArgsRun []
      [Op.enqueue 2 2 "osbuild" (some [30]) [1], Op.cancel 2] 1 1 "osbuild" [10, 20] [] rfl
      (by decide) 3 decodeBytes ["osbuild"] [] [10, 20] (by decide)⟩

/-! ### Jobs are handed out once when no dependency is listed twice -/

theorem Dequeue_cases (q : testJobQueue) (now : Time) (unmarshal : RawMessage → Bool)
    (jobTypes : List String) :
    Dequeue q now unmarshal jobTypes = (.error Error.noJobAvailable, q) ∨
      ∃ t id rest, t ∈ jobTypes ∧ q.pending t = id :: rest ∧
        ((q.jobs id = none ∧ Dequeue q now unmarshal jobTypes =
            (.error Error.nilDereference,
              { q with pending := Function.update q.pending t rest })) ∨
          (∃ j, q.jobs id = some j ∧ unmarshal j.Args = false ∧
            Dequeue q now unmarshal jobTypes =
              (.error Error.unmarshalError,
                { q with pending := Function.update q.pending t rest })) ∨
          (∃ j, q.jobs id = some j ∧ unmarshal j.Args = true ∧
            Dequeue q now unmarshal jobTypes =
              (.ok (j.Id, j.Dependencies),
                { q with pending := Function.update q.pending t rest,
                         jobs := Function.update q.jobs id
                           (some { j with StartedAt := now }) }))) := by
  induction jobTypes with
  | nil => exact Or.inl rfl
  | cons t ts ih =>
    cases hp : q.pending t with
    | nil =>
      have hskip : Dequeue q now unmarshal (t :: ts) = Dequeue q now unmarshal ts := by
        rw [Dequeue, hp]
      rw [hskip]
      rcases ih with h | ⟨t1, id, rest, ht1, hrest⟩
      · exact Or.inl h
      · exact Or.inr ⟨t1, id, rest, List.mem_cons_of_mem _ ht1, hrest⟩
    | cons id rest =>
      refine Or.inr ⟨t, id, rest, List.mem_cons_self _ _, hp, ?_⟩
      cases hj : q.jobs id with
      | none =>
        refine Or.inl ⟨rfl, ?_⟩
        rw [Dequeue, hp]
        simp only [hj]
      | some j =>
        cases hu : unmarshal j.Args with
        | false => exact Or.inr (Or.inl ⟨j, rfl, hu, Dequeue_head_unmarshalError hp hj hu ts⟩)
        | true => exact Or.inr (Or.inr ⟨j, rfl, hu, Dequeue_head_ok hp hj hu ts⟩)

theorem Once_New : Once New := by
  refine ⟨fun _ => List.nodup_nil, ?_, ?_⟩
  · intro t id hid
    cases hid
  · intro k l hkl
    cases hkl

/-- Writing through the pointer of a job that is in no ready list, or without
touching `started_at`. -/
theorem Once.write_job {q : testJobQueue} (ho : Once q) {id : UUID} {j : job} (j1 : job)
    (hj : q.jobs id = some j)
    (hs : j1.StartedAt = j.StartedAt ∨ ∀ t, id ∉ q.pending t) :
    Once { q with jobs := Function.update q.jobs id (some j1) } := by
  refine ⟨ho.pending_nodup, ?_, ho.dependants_nodup⟩
  intro t x hx jx hjx
  by_cases hxi : x = id
  · subst hxi
    simp only [Function.update_same, Option.some.injEq] at hjx
    subst hjx
    rcases hs with hs | hs
    · rw [hs]
      exact ho.pending_fresh t x hx j hj
    · exact absurd hx (hs t)
  · simp only [Function.update_noteq hxi] at hjx
    exact ho.pending_fresh t x hx jx hjx

theorem Once_Enqueue {q : testJobQueue} (h : WF q) (ho : Once q) {newId : UUID}
    (hfresh : q.jobs newId = none) (now : Time) (jobType : String)
    (args : Option RawMessage) {deps : List UUID} (hdeps : deps.Nodup) :
    Once (Enqueue q newId now jobType args deps).2 := by
  have hnotp : ∀ s, newId ∉ q.pending s := by
    intro s hs
    obtain ⟨j, hj, -⟩ := h.pending_ok s newId hs
    rw [hfresh] at hj
    cases hj
  have hnotd : ∀ k l, q.dependants k = some l → newId ∉ l := by
    intro k l hkl hs
    obtain ⟨j, hj, -⟩ := h.dependants_ok k l hkl newId hs
    rw [hfresh] at hj
    cases hj
  cases args with
  | none => exact ho
  | some a =>
    have ho1 : Once (storedJob q newId now jobType a deps) := by
      refine ⟨ho.pending_nodup, ?_, ho.dependants_nodup⟩
      intro t x hx jx hjx
      have hxn : x ≠ newId := fun e => hnotp t (e ▸ hx)
      simp only [storedJob, Function.update_noteq hxn] at hjx
      exact ho.pending_fresh t x hx jx hjx
    cases hc : countFinishedJobs (storedJob q newId now jobType a deps) deps with
    | error e =>
      rw [Enqueue_error hc]
      exact ho1
    | ok n =>
      by_cases hn : n = deps.length
      · subst hn
        rw [Enqueue_ready hc]
        refine ⟨?_, ?_, ho1.dependants_nodup⟩
        · intro t
          simp only [Function.update_apply]
          split
          · exact List.Nodup.append (ho.pending_nodup jobType) (List.nodup_singleton _)
              (by
                intro x hx hx2
                rw [List.mem_singleton.1 hx2] at hx
                exact hnotp jobType hx)
          · exact ho.pending_nodup t
        · intro t x hx jx hjx
          simp only [Function.update_apply] at hx
          by_cases hxn : x = newId
          · subst hxn
            simp only [storedJob, Function.update_same, Option.some.injEq] at hjx
            subst hjx
            rfl
          · have hx1 : x ∈ q.pending t := by
              split at hx
              · rename_i ht
                rcases List.mem_append.1 hx with hx | hx
                · rw [ht]
                  exact hx
                · exact absurd (List.mem_singleton.1 hx) hxn
              · exact hx
            exact ho1.pending_fresh t x hx1 jx hjx
      · rw [Enqueue_waiting hc hn]
        refine ⟨ho1.pending_nodup, ho1.pending_fresh, ?_⟩
        intro k l hkl
        have hkl1 : addDependant newId q.dependants deps k = some l := hkl
        rw [addDependant_apply] at hkl1
        by_cases hk : k ∈ deps
        · rw [if_pos hk, List.count_eq_one_of_mem hdeps hk] at hkl1
          simp only [List.replicate_one, Option.some.injEq] at hkl1
          subst hkl1
          cases hd : q.dependants k with
          | none => simp
          | some l0 =>
            simp only [Option.getD_some]
            exact List.Nodup.append (ho.dependants_nodup k l0 hd) (List.nodup_singleton _)
              (by
                intro x hx hx2
                rw [List.mem_singleton.1 hx2] at hx
                exact hnotd k l0 hd hx)
        · rw [if_neg hk] at hkl1
          exact ho.dependants_nodup k l hkl1

theorem Once_Dequeue {q : testJobQueue} (h : WF q) (ho : Once q) (now : Time)
    (unmarshal : RawMessage → Bool) (jobTypes : List String) :
    Once (Dequeue q now unmarshal jobTypes).2 := by
  rcases Dequeue_cases q now unmarshal jobTypes with
    hd | ⟨t, id, rest, -, hp, hcase⟩
  · rw [hd]
    exact ho
  · have hnd : (id :: rest).Nodup := by
      rw [← hp]
      exact ho.pending_nodup t
    have hsub : ∀ s x, x ∈ Function.update q.pending t rest s → x ∈ q.pending s := by
      intro s x hx
      by_cases hs : s = t
      · subst hs
        rw [Function.update_same] at hx
        rw [hp]
        exact List.mem_cons_of_mem _ hx
      · rw [Function.update_noteq hs] at hx
        exact hx
    have ho1 : Once { q with pending := Function.update q.pending t rest } := by
      refine ⟨?_, fun s x hx => ho.pending_fresh s x (hsub s x hx), ho.dependants_nodup⟩
      intro s
      by_cases hs : s = t
      · subst hs
        simp only [Function.update_same]
        exact (List.nodup_cons.1 hnd).2
      · simp only [Function.update_noteq hs]
        exact ho.pending_nodup s
    rcases hcase with ⟨-, hd⟩ | ⟨j, -, -, hd⟩ | ⟨j, hj, -, hd⟩
    · rw [hd]
      exact ho1
    · rw [hd]
      exact ho1
    · rw [hd]
      refine ho1.write_job { j with StartedAt := now } hj (Or.inr ?_)
      intro s hs
      have hmem := hsub s id hs
      obtain ⟨j1, hj1, hty1, -⟩ := h.pending_ok s id hmem
      obtain ⟨j2, hj2, hty2, -⟩ := h.pending_ok t id (by rw [hp]; exact List.mem_cons_self _ _)
      rw [hj1] at hj2
      cases hj2
      have hst : s = t := by rw [← hty1, hty2]
      subst hst
      simp only [Function.update_same] at hs
      exact (List.nodup_cons.1 hnd).1 hs

theorem Once_promoteDependants {q : testJobQueue} (h : WF q) (ho : Once q) {l : List UUID}
    (hl : l.Nodup) (hnotin : ∀ x ∈ l, ∀ t, x ∉ q.pending t)
    (hzero : ∀ x ∈ l, ∀ j, q.jobs x = some j → j.StartedAt = 0) :
    Once (promoteDependants q l).2 := by
  induction l generalizing q with
  | nil => exact ho
  | cons depid rest ih =>
    unfold promoteDependants
    have hrestnd := (List.nodup_cons.1 hl).2
    have hhead := (List.nodup_cons.1 hl).1
    cases hj : q.jobs depid with
    | none => exact ho
    | some dep =>
      simp only []
      cases hc : countFinishedJobs q dep.Dependencies with
      | error e => exact ho
      | ok n =>
        simp only []
        split
        · rename_i hn
          have hid : dep.Id = depid := h.id_eq depid dep hj
          have hwf1 : WF { q with pending :=
              (Function.update q.pending dep.JobType (q.pending dep.JobType ++ [dep.Id])) } := by
            refine h.set_pending dep.JobType _ ?_
            intro x hx
            rcases List.mem_append.1 hx with hx | hx
            · exact h.pending_ok _ x hx
            · rw [List.mem_singleton.1 hx, hid]
              exact ⟨dep, hj, rfl, (countFinishedJobs_ok hc).2.1 hn⟩
          have hmem : ∀ s x, x ∈ Function.update q.pending dep.JobType
              (q.pending dep.JobType ++ [dep.Id]) s → x ∈ q.pending s ∨ x = depid := by
            intro s x hx
            simp only [Function.update_apply] at hx
            split at hx
            · rename_i hs
              rcases List.mem_append.1 hx with hx | hx
              · rw [hs]
                exact Or.inl hx
              · rw [List.mem_singleton.1 hx, hid]
                exact Or.inr rfl
            · exact Or.inl hx
          apply ih hwf1
          · refine ⟨?_, ?_, ho.dependants_nodup⟩
            · intro s
              simp only [Function.update_apply]
              split
              · refine List.Nodup.append (ho.pending_nodup _) (List.nodup_singleton _) ?_
                intro x hx hx2
                rw [List.mem_singleton.1 hx2, hid] at hx
                exact hnotin depid (List.mem_cons_self _ _) _ hx
              · exact ho.pending_nodup s
            · intro s x hx jx hjx
              rcases hmem s x hx with hx1 | hx1
              · exact ho.pending_fresh s x hx1 jx hjx
              · rw [hx1] at hjx
                exact hzero depid (List.mem_cons_self _ _) jx hjx
          · exact hrestnd
          · intro x hx s hxs
            rcases hmem s x hxs with hx1 | hx1
            · exact hnotin x (List.mem_cons_of_mem _ hx) s hx1
            · rw [hx1] at hx
              exact hhead hx
          · intro x hx jx hjx
            exact hzero x (List.mem_cons_of_mem _ hx) jx hjx
        · exact ih h ho hrestnd (fun x hx => hnotin x (List.mem_cons_of_mem _ hx))
            (fun x hx => hzero x (List.mem_cons_of_mem _ hx))

theorem Once_FinishJob {q : testJobQueue} (h : WF q) (ho : Once q) (id : UUID) {now : Time}
    (hnow : now ≠ 0) (result : Option RawMessage) : Once (FinishJob q id now result).2 := by
  cases hj : q.jobs id with
  | none => rw [FinishJob_notExist hj]; exact ho
  | some j =>
    by_cases hr : j.StartedAt = 0 ∨ j.FinishedAt ≠ 0
    · rw [FinishJob_notRunning hj hr]; exact ho
    · have hs : j.StartedAt ≠ 0 := fun e => hr (Or.inl e)
      have hf : j.FinishedAt = 0 := by
        by_contra hne
        exact hr (Or.inr hne)
      have hunfinished : ¬ finished q id := by
        rintro ⟨jd, hjd, hres⟩
        rw [hj] at hjd
        cases hjd
        exact (h.result_iff id j hj).1 hres hf
      cases result with
      | none =>
        rw [FinishJob_marshalError hj hr]
        exact ho.write_job { j with Result := none } hj (Or.inl rfl)
      | some r =>
        rw [FinishJob_running hj hr]
        have h1 := WF_recordedFinish h hj hr hnow r
        have ho1 : Once (recordedFinish q id j now r) :=
          ho.write_job (finishedJob j now r) hj (Or.inl rfl)
        have hlist : ∀ x ∈ (q.dependants id).getD [], ∃ jx, q.jobs x = some jx ∧
            id ∈ jx.Dependencies := by
          intro x hx
          cases hd : q.dependants id with
          | none => simp [hd] at hx
          | some l =>
            rw [hd] at hx
            obtain ⟨jx, hjx, hmem, -⟩ := h.dependants_ok id l hd x hx
            exact ⟨jx, hjx, hmem⟩
        have hnd : ((q.dependants id).getD []).Nodup := by
          cases hd : q.dependants id with
          | none => simp
          | some l => exact ho.dependants_nodup id l hd
        have ho2 : Once (promoteDependants (recordedFinish q id j now r)
            ((q.dependants id).getD [])).2 := by
          apply Once_promoteDependants h1 ho1 hnd
          · intro x hx t hxt
            obtain ⟨jx, hjx, hmem⟩ := hlist x hx
            obtain ⟨jx1, hjx1, -, hall⟩ := h.pending_ok t x hxt
            rw [hjx] at hjx1
            cases hjx1
            exact hunfinished (hall id hmem)
          · intro x hx jx1 hjx1
            obtain ⟨jx, hjx, hmem⟩ := hlist x hx
            have hxs : jx.StartedAt = 0 := by
              by_contra hne
              exact hunfinished (h.started_ok x jx hjx hne id hmem)
            have hxid : x ≠ id := by
              intro e
              rw [e, hj] at hjx
              cases hjx
              exact hs hxs
            have : (recordedFinish q id j now r).jobs x = q.jobs x := by
              simp [recordedFinish, Function.update_noteq hxid]
            rw [this, hjx] at hjx1
            cases hjx1
            exact hxs
        generalize promoteDependants (recordedFinish q id j now r)
          ((q.dependants id).getD []) = res at ho2
        rcases res with ⟨_ | e, q2⟩
        · refine ⟨ho2.pending_nodup, ho2.pending_fresh, ?_⟩
          intro k l hkl
          by_cases hk : k = id
          · rw [hk] at hkl
            simp only [Function.update_same] at hkl
            cases hkl
          · simp only [Function.update_noteq hk] at hkl
            exact ho2.dependants_nodup k l hkl
        · exact ho2

theorem Once_CancelJob {q : testJobQueue} (ho : Once q) (id : UUID) :
    Once (CancelJob q id).2 := by
  unfold CancelJob
  cases hj : q.jobs id with
  | none => exact ho
  | some j => exact ho.write_job { j with Canceled := true } hj (Or.inl rfl)

theorem Once_apply {q : testJobQueue} (h : WF q) (ho : Once q) {op : Op}
    (hop : op.admissible q) (hd : op.distinctDeps) : Once (op.apply q) := by
  cases op with
  | enqueue newId now jobType args deps => exact Once_Enqueue h ho hop.1 now jobType args hd
  | dequeue now unmarshal jobTypes => exact Once_Dequeue h ho now unmarshal jobTypes
  | finish id now result => exact Once_FinishJob h ho id hop result
  | cancel id => exact Once_CancelJob ho id

theorem Once_run {q : testJobQueue} (h : WF q) (ho : Once q) {ops : List Op}
    (hops : admissibleRun q ops) (hd : ∀ op ∈ ops, op.distinctDeps) : Once (run q ops) := by
  induction ops generalizing q with
  | nil => exact ho
  | cons op ops ih =>
    have hd1 := hd op (List.mem_cons_self _ _)
    exact ih (WF_apply h hops.1) (Once_apply h ho hops.1 hd1) hops.2
      (fun o ho1 => hd o (List.mem_cons_of_mem _ ho1))

/-- C11 (counterexample): job 1 is queued and `CancelJob(1)` succeeds before
any `Dequeue`. The next `Dequeue` returns job 1, which has `canceled = true`. -/
theorem C11_canceled_job_dequeued :
    admissibleRun New canceledJobRun ∧
      ((run New canceledJobRun).jobs 1).map (fun j => j.Canceled) = some true ∧
      (Dequeue (run New canceledJobRun) 3 decodeAll ["osbuild"]).1 = .ok (1, []) := by
  decide

/-- C11 (amended): in every state reached from the empty queue, a job returned
by a successful `Dequeue` is a job of the ready list of one of the types asked
for, every one of its dependencies has finished, and it had a zero
`started_at` before the call when no dependency list passed to `Enqueue`
repeated an id. `Dequeue` does not read `canceled`. -/
theorem C11_dequeue_returns_ready {ops : List Op} (hops : admissibleRun New ops) (now : Time)
    (unmarshal : RawMessage → Bool) (jobTypes : List String) {id : UUID} {ds : List UUID}
    (hret : (Dequeue (run New ops) now unmarshal jobTypes).1 = .ok (id, ds)) :
    ∃ j t, (run New ops).jobs id = some j ∧ t ∈ jobTypes ∧ id ∈ (run New ops).pending t ∧
      ds = j.Dependencies ∧ (∀ d ∈ j.Dependencies, hasFinished (run New ops) d) ∧
      ((∀ op ∈ ops, op.distinctDeps) → j.StartedAt = 0) := by
  have h := WF_run WF_New hops
  rcases Dequeue_cases (run New ops) now unmarshal jobTypes with
    hd | ⟨t, x, rest, ht, hp, hcase⟩
  · rw [hd] at hret
    cases hret
  · have hmem : x ∈ (run New ops).pending t := by
      rw [hp]
      exact List.mem_cons_self _ _
    rcases hcase with ⟨-, hd⟩ | ⟨j, -, -, hd⟩ | ⟨j, hj, -, hd⟩
    · rw [hd] at hret
      cases hret
    · rw [hd] at hret
      cases hret
    · rw [hd] at hret
      simp only [Except.ok.injEq, Prod.mk.injEq] at hret
      have hx : x = id := by
        rw [← hret.1]
        exact (h.id_eq x j hj).symm
      subst hx
      obtain ⟨j1, hj1, -, hall⟩ := h.pending_ok t x hmem
      rw [hj] at hj1
      cases hj1
      refine ⟨j, t, hj, ht, hmem, hret.2.symm, ?_, ?_⟩
      · intro d hd1
        exact (finished_iff_hasFinished h d).1 (hall d hd1)
      · intro hdist
        exact (Once_run WF_New Once_New hops hdist).pending_fresh t x hmem j hj

theorem C11_dequeue_returns_ready_witness :
    (Dequeue (run New queuedInOrderRun) 6 decodeAll ["t"]).1 = .ok (2, [1]) ∧
      (∀ op ∈ queuedInOrderRun, op.distinctDeps) ∧
      ∃ j t, (run New queuedInOrderRun).jobs 2 = some j ∧ t ∈ ["t"] ∧
        2 ∈ (run New queuedInOrderRun).pending t ∧ [1] = j.Dependencies ∧
        (∀ d ∈ j.Dependencies, hasFinished (run New queuedInOrderRun) d) ∧
        ((∀ op ∈ queuedInOrderRun, op.distinctDeps) → j.StartedAt = 0) :=
  ⟨by decide, by decide,
    C11_dequeue_returns_ready (by decide : admissibleRun New queuedInOrderRun) 6 decodeAll ["t"]
      (by decide)⟩

/-! ### The indices name jobs of the queue -/

/-- C34: queue index well-formedness. In every state reachable from the empty
queue, every id in a ready list names a job of the queue; every id in a
dependants list names a job of the queue all of whose dependencies are jobs of
the queue; so `Dequeue` never dereferences a missing job, and `FinishJob`
never does either and returns `ErrNotExist` only from its guard, when the id
it is given is not a job of the queue: never from the count of the finished
dependencies of a dependant. -/
theorem C34_index_well_formed {q : testJobQueue} (hq : Reachable q) :
    (∀ t id, id ∈ q.pending t → q.jobs id ≠ none) ∧
      (∀ k l, q.dependants k = some l → ∀ id ∈ l,
        ∃ j, q.jobs id = some j ∧ ∀ d ∈ j.Dependencies, q.jobs d ≠ none) ∧
      (∀ now unmarshal jobTypes,
        (Dequeue q now unmarshal jobTypes).1 ≠ .error Error.nilDereference) ∧
      (∀ id now result,
        (FinishJob q id now result).1 ≠ some Error.nilDereference ∧
          ((FinishJob q id now result).1 = some Error.ErrNotExist → q.jobs id = none)) := by
  have h := WF_of_Reachable hq
  refine ⟨?_, ?_, ?_, ?_⟩
  · intro t id hid
    obtain ⟨j, hj, -⟩ := h.pending_ok t id hid
    rw [hj]
    exact Option.some_ne_none j
  · intro k l hkl id hid
    obtain ⟨j, hj, -, hdeps⟩ := h.dependants_ok k l hkl id hid
    refine ⟨j, hj, ?_⟩
    intro d hd
    obtain ⟨jd, hjd⟩ := hdeps d hd
    rw [hjd]
    exact Option.some_ne_none jd
  · intro now unmarshal jobTypes
    rcases Dequeue_cases q now unmarshal jobTypes with hc | ⟨t, id, rest, -, hp, hc⟩
    · rw [hc]
      intro e
      cases e
    · rcases hc with ⟨hnone, -⟩ | ⟨j, -, -, hc⟩ | ⟨j, -, -, hc⟩
      · obtain ⟨j, hj, -⟩ := h.pending_ok t id (by rw [hp]; exact List.mem_cons_self _ _)
        rw [hj] at hnone
        cases hnone
      · rw [hc]
        intro e
        cases e
      · rw [hc]
        intro e
        cases e
  · intro id now result
    cases hj : q.jobs id with
    | none =>
      rw [FinishJob_notExist hj]
      exact ⟨(by intro e; cases e), fun _ => rfl⟩
    | some j =>
      by_cases hr : j.StartedAt = 0 ∨ j.FinishedAt ≠ 0
      · rw [FinishJob_notRunning hj hr]
        exact ⟨(by intro e; cases e), (by intro e; cases e)⟩
      · cases result with
        | none =>
          rw [FinishJob_marshalError hj hr]
          exact ⟨(by intro e; cases e), (by intro e; cases e)⟩
        | some r =>
          rw [FinishJob_succeeds h hj hr now r]
          exact ⟨(by intro e; cases e), (by intro e; cases e)⟩

theorem C34_index_well_formed_witness :
    (∀ t id, id ∈ (run New waitingDependantRun).pending t →
        (run New waitingDependantRun).jobs id ≠ none) ∧
      (∀ k l, (run New waitingDependantRun).dependants k = some l → ∀ id ∈ l,
        ∃ j, (run New waitingDependantRun).jobs id = some j ∧
          ∀ d ∈ j.Dependencies, (run New waitingDependantRun).jobs d ≠ none) ∧
      (∀ now unmarshal jobTypes,
        (Dequeue (run New waitingDependantRun) now unmarshal jobTypes).1 ≠
          .error Error.nilDereference) ∧
      (∀ id now result,
        (FinishJob (run New waitingDependantRun) id now result).1 ≠
            some Error.nilDereference ∧
          ((FinishJob (run New waitingDependantRun) id now result).1 =
              some Error.ErrNotExist →
            (run New waitingDependantRun).jobs id = none)) :=
  C34_index_well_formed
    (Reachable_run Reachable.init (by decide : admissibleRun New waitingDependantRun))

/-- C35: typed dispatch. In every reachable state, every id in the ready list
kept for the type t names a job of the queue whose type is t; so the job a
successful `Dequeue(jobTypes)` returns is a job of the queue whose type is a
member of `jobTypes`, before the call and after it. -/
theorem C35_typed_dispatch {q : testJobQueue} (hq : Reachable q) :
    (∀ t id, id ∈ q.pending t → ∃ j, q.jobs id = some j ∧ j.JobType = t) ∧
      ∀ now unmarshal jobTypes id deps,
        (Dequeue q now unmarshal jobTypes).1 = .ok (id, deps) →
        (∃ j, q.jobs id = some j ∧ j.JobType ∈ jobTypes) ∧
          ∃ j, (Dequeue q now unmarshal jobTypes).2.jobs id = some j ∧
            j.JobType ∈ jobTypes := by
  have h := WF_of_Reachable hq
  refine ⟨?_, ?_⟩
  · intro t id hid
    obtain ⟨j, hj, ht, -⟩ := h.pending_ok t id hid
    exact ⟨j, hj, ht⟩
  · intro now unmarshal jobTypes id deps hok
    rcases Dequeue_cases q now unmarshal jobTypes with hc | ⟨t, id1, rest, ht, hp, hc⟩
    · rw [hc] at hok
      cases hok
    · rcases hc with ⟨-, hc⟩ | ⟨j, -, -, hc⟩ | ⟨j, hj, -, hc⟩
      · rw [hc] at hok
        cases hok
      · rw [hc] at hok
        cases hok
      · rw [hc] at hok ⊢
        simp only [Except.ok.injEq, Prod.mk.injEq] at hok
        obtain ⟨j1, hj1, hty, -⟩ :=
          h.pending_ok t id1 (by rw [hp]; exact List.mem_cons_self _ _)
        rw [hj] at hj1
        cases hj1
        have hid : id1 = id := by
          rw [← hok.1]
          exact (h.id_eq id1 j hj).symm
        subst hid
        refine ⟨⟨j, hj, by rw [hty]; exact ht⟩, { j with StartedAt := now }, ?_, ?_⟩
        · simp
        · show j.JobType ∈ jobTypes
          rw [hty]
          exact ht

theorem C35_typed_dispatch_witness :
    (∀ t id, id ∈ (run New singleJobRun).pending t →
        ∃ j, (run New singleJobRun).jobs id = some j ∧ j.JobType = t) ∧
      ∀ now unmarshal jobTypes id deps,
        (Dequeue (run New singleJobRun) now unmarshal jobTypes).1 = .ok (id, deps) →
        (∃ j, (run New singleJobRun).jobs id = some j ∧ j.JobType ∈ jobTypes) ∧
          ∃ j, (Dequeue (run New singleJobRun) now unmarshal jobTypes).2.jobs id = some j ∧
            j.JobType ∈ jobTypes :=
  C35_typed_dispatch (Reachable_run Reachable.init (by decide : admissibleRun New singleJobRun))

end testjobqueue

namespace store

/-! ## Reading the association lists -/

theorem lookup_map_values {κ ν μ : Type} [DecidableEq κ] (f : ν → μ) (m : List (κ × ν))
    (k : κ) : lookup (m.map (fun kv => (kv.1, f kv.2))) k = (lookup m k).map f := by
  induction m with
  | nil => rfl
  | cons kv rest ih =>
    unfold lookup at ih ⊢
    simp only [List.map_cons, List.find?_cons]
    by_cases hk : kv.1 = k
    · simp [hk]
    · simp only [hk, decide_False]
      exact ih

theorem lookup_map_replace {κ ν : Type} [DecidableEq κ] (m : List (κ × ν)) {k k1 : κ} (v : ν)
    (hne : k1 ≠ k) :
    lookup (m.map (fun kv => if kv.1 = k then (k, v) else kv)) k1 = lookup m k1 := by
  induction m with
  | nil => rfl
  | cons kv rest ih =>
    unfold lookup at ih ⊢
    simp only [List.map_cons, List.find?_cons]
    by_cases hkv : kv.1 = k
    · have h1 : ¬ k = k1 := fun e => hne e.symm
      have h2 : ¬ kv.1 = k1 := fun e => hne (by rw [← e, hkv])
      simp only [hkv, if_true, h1, h2, decide_False]
      exact ih
    · simp only [hkv, if_false]
      by_cases hk1 : kv.1 = k1
      · simp [hk1]
      · simp only [hk1, decide_False]
        exact ih

theorem lookup_setKey_ne {κ ν : Type} [DecidableEq κ] (m : List (κ × ν)) {k k1 : κ} (v : ν)
    (hne : k1 ≠ k) : lookup (setKey m k v) k1 = lookup m k1 := by
  unfold setKey
  split
  · exact lookup_map_replace m v hne
  · unfold lookup
    rw [List.find?_append]
    cases hf : List.find? (fun kv => decide (kv.1 = k1)) m with
    | some kv => simp
    | none =>
      have h1 : ¬ k = k1 := fun e => hne e.symm
      simp [h1]

theorem lookup_mem {κ ν : Type} [DecidableEq κ] {m : List (κ × ν)} {k : κ} {v : ν}
    (h : lookup m k = some v) : (k, v) ∈ m := by
  unfold lookup at h
  cases hf : m.find? (fun kv => decide (kv.1 = k)) with
  | none => rw [hf] at h; cases h
  | some kv =>
    rw [hf] at h
    simp only [Option.map_some', Option.some.injEq] at h
    have hmem := List.mem_of_find?_eq_some hf
    have hk := List.find?_some hf
    simp only [decide_eq_true_eq] at hk
    rw [← hk, ← h]
    exact hmem

/-! ## The compatibility table -/

theorem compat_find_of_mem :
    ∀ kv ∈ imageTypeCompatMapping,
      imageTypeCompatMapping.find? (fun x => decide (x.2 = kv.2)) = some kv ∧ kv.2 ≠ "" := by
  decide

/-- An image type whose name is in the table is found again from its
compatibility string, under the same name. -/
theorem imageTypeFromCompatString_toCompatString {t : ImageType}
    (ht : lookup imageTypeCompatMapping t.Name ≠ none) (arch : Arch) :
    imageTypeToCompatString t ≠ "" ∧
      imageTypeFromCompatString (imageTypeToCompatString t) arch = arch.GetImageType t.Name := by
  obtain ⟨v, hv⟩ := Option.ne_none_iff_exists'.1 ht
  have hmem := lookup_mem hv
  obtain ⟨hfind, hne⟩ := compat_find_of_mem (t.Name, v) hmem
  have hstr : imageTypeToCompatString t = v := by
    unfold imageTypeToCompatString
    rw [hv]
    rfl
  rw [hstr]
  refine ⟨hne, ?_⟩
  unfold imageTypeFromCompatString
  have hfind1 : imageTypeCompatMapping.find? (fun kv => decide (kv.2 = v)) =
      some (t.Name, v) := hfind
  rw [hfind1]

/-! ## Serialising and loading -/

/-- A compose whose image type is in the table and is the image type of the
architecture under its name is serialised without panic and loaded as it
was. -/
theorem newComposeFromV0_newComposeV0 {c : Compose} {t : ImageType} {arch : Arch}
    (hc : c.ImageBuild.ImageType = some t)
    (ht : lookup imageTypeCompatMapping t.Name ≠ none)
    (harch : arch.GetImageType t.Name = some t) :
    ∃ cv, newComposeV0 c = some cv ∧ newComposeFromV0 cv arch = .ok c := by
  obtain ⟨hne, hfrom⟩ := imageTypeFromCompatString_toCompatString ht arch
  cases hcv : newComposeV0 c with
  | none => simp [newComposeV0, hc, hne] at hcv
  | some cv =>
    refine ⟨cv, rfl, ?_⟩
    simp only [newComposeV0, hc, if_neg hne, Option.some.injEq] at hcv
    subst hcv
    simp only [newComposeFromV0, hfrom, harch]
    rw [← hc]

theorem newComposesFromV0_newComposesV0 {l : List (UUID × Compose)} {arch : Arch}
    (hl : ∀ kv ∈ l, ∃ t, kv.2.ImageBuild.ImageType = some t ∧
      lookup imageTypeCompatMapping t.Name ≠ none ∧ arch.GetImageType t.Name = some t) :
    ∃ vs, newComposesV0 l = some vs ∧ newComposesFromV0 vs arch = l := by
  induction l with
  | nil => exact ⟨[], rfl, rfl⟩
  | cons kv rest ih =>
    obtain ⟨t, hc, ht, harch⟩ := hl kv (List.mem_cons_self _ _)
    obtain ⟨cv, hcv, hback⟩ := newComposeFromV0_newComposeV0 hc ht harch
    obtain ⟨vs, hvs, hrest⟩ := ih (fun x hx => hl x (List.mem_cons_of_mem _ hx))
    refine ⟨(kv.1, cv) :: vs, by simp only [newComposesV0, hcv, hvs, Option.map_some'], ?_⟩
    unfold newComposesFromV0 at hrest ⊢
    simp only [List.filterMap_cons, hback, hrest]

theorem newSourceConfigsFromV0_newSourcesV0 (l : List (String × SourceConfig)) :
    newSourceConfigsFromV0 (newSourcesV0 l) = l := by
  induction l with
  | nil => rfl
  | cons kv rest ih =>
    unfold newSourceConfigsFromV0 newSourcesV0 at ih ⊢
    simp only [List.map_cons, ih]

theorem newChangesFromV0_newChangesV0 (l : List (String × List (String × Change))) :
    newChangesFromV0 (newChangesV0 l) =
      l.map (fun kv => (kv.1, kv.2.map (fun cc => (cc.1, cc.2.stored)))) := by
  unfold newChangesFromV0 newChangesV0
  rw [List.map_map]
  apply List.map_congr_left
  intro kv _
  simp only [Function.comp, List.map_map]
  rfl

theorem map_id_pairs {κ ν : Type} (l : List (κ × ν)) : l.map (fun kv => (kv.1, kv.2)) = l := by
  induction l with
  | nil => rfl
  | cons kv rest ih => simp only [List.map_cons, ih]

/-- The second loop of `newStoreFromV0` leaves the commit list of a blueprint
alone when the blueprint has as many commits as changes. -/
theorem populateCommits_foldl_lookup (sv : Semver)
    (sortSlice : (Change → Change → Bool) → List Change → List Change)
    (changes : List (String × List (String × Change))) (name : String)
    (names : List (String × List (String × Change))) (commits : List (String × List String))
    (hlen : ((lookup changes name).getD []).length = ((lookup commits name).getD []).length) :
    lookup (names.foldl
      (fun acc kv => populateCommits sv sortSlice changes acc kv.1) commits) name =
      lookup commits name := by
  induction names generalizing commits with
  | nil => rfl
  | cons kv rest ih =>
    simp only [List.foldl_cons]
    have hstep : lookup (populateCommits sv sortSlice changes commits kv.1) name =
        lookup commits name := by
      unfold populateCommits
      split
      · rename_i hne
        by_cases hk : name = kv.1
        · rw [← hk] at hne
          exact absurd hlen hne
        · exact lookup_setKey_ne commits _ hk
      · rfl
    rw [ih _ (by rw [hstep]; exact hlen), hstep]

theorem newBlueprintsFromV0_id (l : List (String × Blueprint)) : newBlueprintsFromV0 l = l :=
  map_id_pairs l

theorem newWorkspaceFromV0_id (l : List (String × Blueprint)) : newWorkspaceFromV0 l = l :=
  map_id_pairs l

theorem newCommitsFromV0_newCommitsV0 (l : List (String × List String)) :
    newCommitsFromV0 (newCommitsV0 l) = l := by
  unfold newCommitsFromV0 newCommitsV0
  rw [map_id_pairs, map_id_pairs]

theorem lookup_stored_length (l : List (String × List (String × Change))) (name : String) :
    ((lookup (l.map (fun kv => (kv.1, kv.2.map (fun cc => (cc.1, cc.2.stored))))) name).getD
      []).length = ((lookup l name).getD []).length := by
  rw [lookup_map_values (fun inner : List (String × Change) =>
    inner.map (fun cc => (cc.1, cc.2.stored))) l name]
  cases lookup l name with
  | none => rfl
  | some inner => simp

/-- C20 (counterexample): every compose of the sample store has an image type
that is the image type of the architecture under its name, and the store is
serialised without panic; but the change of the blueprint `base` is loaded
with an empty blueprint, so the changes of the loaded store are not those of
the store. And the store whose compose has the image type `edge`, which the
architecture supports and the compatibility table does not list, is not
serialised at all: `toStoreV0` panics. -/
theorem C20_changes_lose_blueprint :
    ((∀ kv ∈ sampleStore.composes,
        kv.2.ImageBuild.ImageType.isSome = true ∧
          kv.2.ImageBuild.ImageType.bind (fun t => testArch.GetImageType t.Name) =
            kv.2.ImageBuild.ImageType) ∧
      (toStoreV0 sampleStore).isSome = true ∧
      (toStoreV0 sampleStore).map
          (fun v => (newStoreFromV0 natSemver insertionSort v testArch).blueprintsChanges) ≠
        some sampleStore.blueprintsChanges) ∧
    ((∀ kv ∈ edgeStore.composes,
        kv.2.ImageBuild.ImageType.isSome = true ∧
          kv.2.ImageBuild.ImageType.bind (fun t => testArch.GetImageType t.Name) =
            kv.2.ImageBuild.ImageType) ∧
      toStoreV0 edgeStore = none) := by
  decide

/-- C20 (amended): persistence round trip. Let every compose of the store S
have an image type whose name is in the compatibility table and which is the
image type of the architecture under that name. Then `toStoreV0` does not
panic, and `newStoreFromV0(S.toStoreV0(), arch)` has the blueprints, the
workspace and the sources of S; the composes of S with the image builds that
were queued or running failed; the changes of S, each with its blueprint
emptied; and, for every blueprint name that has as many commits as changes in
S, the commit list of S. -/
theorem C20_store_round_trip (sv : Semver)
    (sortSlice : (Change → Change → Bool) → List Change → List Change) (S : Store)
    (arch : Arch)
    (hcomp : ∀ kv ∈ S.composes, ∃ t, kv.2.ImageBuild.ImageType = some t ∧
      lookup imageTypeCompatMapping t.Name ≠ none ∧ arch.GetImageType t.Name = some t) :
    ∃ v0, toStoreV0 S = some v0 ∧
      (newStoreFromV0 sv sortSlice v0 arch).blueprints = S.blueprints ∧
      (newStoreFromV0 sv sortSlice v0 arch).workspace = S.workspace ∧
      (newStoreFromV0 sv sortSlice v0 arch).sources = S.sources ∧
      (newStoreFromV0 sv sortSlice v0 arch).composes =
        S.composes.map (fun kv => (kv.1, failUnfinished kv.2)) ∧
      (newStoreFromV0 sv sortSlice v0 arch).blueprintsChanges =
        S.blueprintsChanges.map (fun kv => (kv.1, kv.2.map (fun cc => (cc.1, cc.2.stored)))) ∧
      ∀ name, ((lookup S.blueprintsChanges name).getD []).length =
          ((lookup S.blueprintsCommits name).getD []).length →
        lookup (newStoreFromV0 sv sortSlice v0 arch).blueprintsCommits name =
          lookup S.blueprintsCommits name := by
  obtain ⟨vs, hvs, hback⟩ := newComposesFromV0_newComposesV0 hcomp
  have hto : toStoreV0 S = some
      { Blueprints := S.blueprints, Workspace := S.workspace, Composes := vs,
        Sources := newSourcesV0 S.sources, Changes := newChangesV0 S.blueprintsChanges,
        Commits := newCommitsV0 S.blueprintsCommits } := by
    simp only [toStoreV0, hvs, Option.map_some']
  refine ⟨_, hto, ?_, ?_, ?_, ?_, ?_, ?_⟩
  · exact newBlueprintsFromV0_id _
  · exact newWorkspaceFromV0_id _
  · exact newSourceConfigsFromV0_newSourcesV0 _
  · simp only [newStoreFromV0, hback]
  · exact newChangesFromV0_newChangesV0 _
  · intro name hlen
    simp only [newStoreFromV0, newChangesFromV0_newChangesV0, newCommitsFromV0_newCommitsV0]
    apply populateCommits_foldl_lookup
    rw [lookup_stored_length]
    exact hlen

theorem C20_store_round_trip_witness :
    ∃ v0, toStoreV0 sampleStore = some v0 ∧
      (newStoreFromV0 natSemver insertionSort v0 testArch).blueprints = sampleStore.blueprints ∧
      (newStoreFromV0 natSemver insertionSort v0 testArch).workspace = sampleStore.workspace ∧
      (newStoreFromV0 natSemver insertionSort v0 testArch).sources = sampleStore.sources ∧
      (newStoreFromV0 natSemver insertionSort v0 testArch).composes =
        sampleStore.composes.map (fun kv => (kv.1, failUnfinished kv.2)) ∧
      (newStoreFromV0 natSemver insertionSort v0 testArch).blueprintsChanges =
        sampleStore.blueprintsChanges.map
          (fun kv => (kv.1, kv.2.map (fun cc => (cc.1, cc.2.stored)))) ∧
      ∀ name, ((lookup sampleStore.blueprintsChanges name).getD []).length =
          ((lookup sampleStore.blueprintsCommits name).getD []).length →
        lookup (newStoreFromV0 natSemver insertionSort v0 testArch).blueprintsCommits name =
          lookup sampleStore.blueprintsCommits name :=
  C20_store_round_trip natSemver insertionSort sampleStore testArch
    (by
      intro kv hkv
      simp only [sampleStore, List.mem_cons, List.mem_singleton, List.not_mem_nil,
        or_false] at hkv
      rcases hkv with rfl | rfl
      · exact ⟨{ Name := "qcow2", Details := [1] }, rfl, by decide, by decide⟩
      · exact ⟨{ Name := "qcow2", Details := [1] }, rfl, by decide, by decide⟩)

/-! ## Loading the composes -/

theorem lookup_setKey_self {κ ν : Type} [DecidableEq κ] (m : List (κ × ν)) (k : κ) (v : ν) :
    lookup (setKey m k v) k = some v := by
  unfold setKey
  split
  · rename_i hany
    induction m with
    | nil => simp at hany
    | cons kv rest ih =>
      unfold lookup at ih ⊢
      simp only [List.map_cons, List.find?_cons]
      by_cases hk : kv.1 = k
      · simp [hk]
      · simp only [List.any_cons, hk, decide_False, Bool.false_or] at hany
        simp only [hk, if_false, decide_False]
        exact ih hany
  · rename_i hany
    unfold lookup
    rw [List.find?_append]
    have hnone : List.find? (fun kv => decide (kv.1 = k)) m = none := by
      rw [List.find?_eq_none]
      intro x hx hxk
      exact hany (List.any_eq_true.2 ⟨x, hx, hxk⟩)
    rw [hnone]
    simp

theorem lookup_eq_none_of_not_mem {κ ν : Type} [DecidableEq κ] {m : List (κ × ν)} {k : κ}
    (h : k ∉ m.map Prod.fst) : lookup m k = none := by
  unfold lookup
  rw [Option.map_eq_none', List.find?_eq_none]
  intro x hx hxk
  simp only [decide_eq_true_eq] at hxk
  exact h (List.mem_map.2 ⟨x, hx, hxk⟩)

theorem lookup_of_mem_nodup {κ ν : Type} [DecidableEq κ] {m : List (κ × ν)} {k : κ} {v : ν}
    (hnd : (m.map Prod.fst).Nodup) (hmem : (k, v) ∈ m) : lookup m k = some v := by
  induction m with
  | nil => cases hmem
  | cons kv rest ih =>
    rw [List.map_cons, List.nodup_cons] at hnd
    unfold lookup at ih ⊢
    rw [List.find?_cons]
    rcases List.mem_cons.1 hmem with heq | hrest
    · rw [← heq]
      simp
    · have hne : ¬ kv.1 = k := by
        intro e
        apply hnd.1
        rw [e]
        exact List.mem_map.2 ⟨(k, v), hrest, rfl⟩
      simp only [hne, decide_False]
      exact ih hnd.2 hrest

theorem mem_newComposesFromV0 {l : List (UUID × composeV0)} {arch : Arch} {id : UUID}
    {c : Compose} :
    (id, c) ∈ newComposesFromV0 l arch ↔
      ∃ cs, (id, cs) ∈ l ∧ newComposeFromV0 cs arch = .ok c := by
  unfold newComposesFromV0
  rw [List.mem_filterMap]
  constructor
  · rintro ⟨kv, hkv, hf⟩
    cases hc : newComposeFromV0 kv.2 arch with
    | error e => rw [hc] at hf; cases hf
    | ok c1 =>
      rw [hc] at hf
      simp only [Option.some.injEq, Prod.mk.injEq] at hf
      refine ⟨kv.2, ?_, ?_⟩
      · rw [← hf.1]
        exact hkv
      · rw [hc, hf.2]
  · rintro ⟨cs, hmem, hc⟩
    exact ⟨(id, cs), hmem, by simp only [hc]⟩

theorem keys_newComposesFromV0 (l : List (UUID × composeV0)) (arch : Arch) :
    ((newComposesFromV0 l arch).map Prod.fst).Sublist (l.map Prod.fst) := by
  induction l with
  | nil => exact List.Sublist.slnil
  | cons kv rest ih =>
    unfold newComposesFromV0 at ih ⊢
    rw [List.filterMap_cons]
    cases hc : newComposeFromV0 kv.2 arch with
    | error e => exact List.Sublist.cons _ ih
    | ok c => exact List.Sublist.cons₂ _ ih

theorem newComposeFromV0_ok {cs : composeV0} {arch : Arch} {c : Compose}
    (h : newComposeFromV0 cs arch = .ok c) :
    ∃ ib rest t, cs.ImageBuilds = ib :: rest ∧
      imageTypeFromCompatString ib.ImageType arch = some t ∧
      c = { Blueprint := cs.Blueprint,
            ImageBuild :=
              { ID := ib.ID, ImageType := some t, Manifest := ib.Manifest,
                Targets := ib.Targets, JobCreated := ib.JobCreated,
                JobStarted := ib.JobStarted, JobFinished := ib.JobFinished,
                Size := ib.Size, JobID := ib.JobID, QueueStatus := ib.QueueStatus } } := by
  unfold newComposeFromV0 at h
  cases hl : cs.ImageBuilds with
  | nil => rw [hl] at h; cases h
  | cons ib rest =>
    rw [hl] at h
    cases ht : imageTypeFromCompatString ib.ImageType arch with
    | none => simp only [ht] at h; cases h
    | some t =>
      simp only [ht, Except.ok.injEq] at h
      exact ⟨ib, rest, t, rfl, ht, h.symm⟩

theorem failUnfinished_eq (c : Compose) :
    failUnfinished c =
      { c with ImageBuild :=
          { c.ImageBuild with QueueStatus :=
              if c.ImageBuild.QueueStatus = ImageBuildState.IBWaiting ∨
                  c.ImageBuild.QueueStatus = ImageBuildState.IBRunning then
                ImageBuildState.IBFailed
              else c.ImageBuild.QueueStatus } } := by
  obtain ⟨bp, ib⟩ := c
  obtain ⟨i, t, m, ts, jc, js, jf, sz, jid, st⟩ := ib
  cases st <;> rfl

theorem mem_loaded_composes {sv : Semver}
    {sortSlice : (Change → Change → Bool) → List Change → List Change} {storeStruct : storeV0}
    {arch : Arch} {kv : UUID × Compose}
    (h : kv ∈ (newStoreFromV0 sv sortSlice storeStruct arch).composes) :
    ∃ cs c, (kv.1, cs) ∈ storeStruct.Composes ∧ newComposeFromV0 cs arch = .ok c ∧
      kv.2 = failUnfinished c := by
  simp only [newStoreFromV0, List.mem_map] at h
  obtain ⟨kv0, hkv0, rfl⟩ := h
  obtain ⟨cs, hmem, hc⟩ := mem_newComposesFromV0.1 (show (kv0.1, kv0.2) ∈ _ from hkv0)
  exact ⟨cs, kv0.2, hmem, hc, rfl⟩

theorem lookup_loaded_composes (sv : Semver)
    (sortSlice : (Change → Change → Bool) → List Change → List Change) (storeStruct : storeV0)
    (arch : Arch) (id : UUID) :
    lookup (newStoreFromV0 sv sortSlice storeStruct arch).composes id =
      (lookup (newComposesFromV0 storeStruct.Composes arch) id).map failUnfinished := by
  simp only [newStoreFromV0]
  exact lookup_map_values failUnfinished _ id

theorem lookup_newComposesFromV0 {l : List (UUID × composeV0)} (arch : Arch) {id : UUID}
    {cs : composeV0} (hnd : (l.map Prod.fst).Nodup) (hmem : (id, cs) ∈ l) :
    lookup (newComposesFromV0 l arch) id =
      match newComposeFromV0 cs arch with
      | .ok c => some c
      | .error _ => none := by
  cases hc : newComposeFromV0 cs arch with
  | ok c =>
    exact lookup_of_mem_nodup ((keys_newComposesFromV0 l arch).nodup hnd)
      (mem_newComposesFromV0.2 ⟨cs, hmem, hc⟩)
  | error e =>
    cases hl : lookup (newComposesFromV0 l arch) id with
    | none => rfl
    | some c =>
      exfalso
      obtain ⟨cs1, hmem1, hc1⟩ := mem_newComposesFromV0.1 (lookup_mem hl)
      have h1 := lookup_of_mem_nodup hnd hmem
      have h2 := lookup_of_mem_nodup hnd hmem1
      rw [h1, Option.some.injEq] at h2
      rw [← h2, hc] at hc1
      cases hc1

/-- The compatibility strings of the table are pairwise distinct, and so are
its names. -/
theorem compat_nodup :
    (imageTypeCompatMapping.map Prod.snd).Nodup ∧ (imageTypeCompatMapping.map Prod.fst).Nodup := by
  decide

/-- In whatever order the table is visited, the entry found for the
compatibility string of an entry is that entry. -/
theorem find_order_of_mem {order : List (String × String)}
    (horder : order.Perm imageTypeCompatMapping) {kv : String × String}
    (hkv : kv ∈ imageTypeCompatMapping) :
    order.find? (fun x => decide (x.2 = kv.2)) = some kv := by
  have hnd : (order.map Prod.snd).Nodup := ((horder.map Prod.snd).nodup_iff).2 compat_nodup.1
  have hmem : kv ∈ order := horder.mem_iff.2 hkv
  cases hf : order.find? (fun x => decide (x.2 = kv.2)) with
  | none =>
    rw [List.find?_eq_none] at hf
    exact absurd (by simp) (hf kv hmem)
  | some x =>
    have hx := List.mem_of_find?_eq_some hf
    have hx2 := List.find?_some hf
    simp only [decide_eq_true_eq] at hx2
    rw [List.inj_on_of_nodup_map hnd hx hmem hx2]

theorem imageTypeFromCompatStringOrder_toCompatString {order : List (String × String)}
    (horder : order.Perm imageTypeCompatMapping) {t : ImageType}
    (ht : lookup imageTypeCompatMapping t.Name ≠ none) (arch : Arch) :
    imageTypeFromCompatStringOrder order (imageTypeToCompatString t) arch =
      arch.GetImageType t.Name := by
  obtain ⟨v, hv⟩ := Option.ne_none_iff_exists'.1 ht
  have hmem := lookup_mem hv
  have hstr : imageTypeToCompatString t = v := by
    unfold imageTypeToCompatString
    rw [hv]
    rfl
  have hfind : order.find? (fun x => decide (x.2 = v)) = some (t.Name, v) :=
    find_order_of_mem horder hmem
  unfold imageTypeFromCompatStringOrder
  rw [hstr, hfind]

/-- Every image type of every architecture of `New` has a name of the table
and is stored under its name. -/
theorem rhel8_imageTypes_in_table :
    ∀ a ∈ rhel8.New.arches, ∀ nt ∈ a.2.imageTypes,
      lookup imageTypeCompatMapping nt.2.name ≠ none ∧
        a.2.GetImageType nt.2.name = some nt.2 := by
  decide

/-! ## The claims on loading -/

/-- C21: recovery pass on load. Every compose of the store returned by
`newStoreFromV0` has an image build that is neither waiting nor running. It is
loaded from a stored compose of the same id, from the first image build of
that compose: a stored status WAITING or RUNNING is loaded as FAILED and every
other stored status unchanged, the image type is the one the stored
compatibility string stands for, and every other field is the field of the
stored image build. -/
theorem C21_recovery_pass (sv : Semver)
    (sortSlice : (Change → Change → Bool) → List Change → List Change) (storeStruct : storeV0)
    (arch : Arch) (kv : UUID × Compose)
    (hkv : kv ∈ (newStoreFromV0 sv sortSlice storeStruct arch).composes) :
    kv.2.ImageBuild.QueueStatus ≠ ImageBuildState.IBWaiting ∧
      kv.2.ImageBuild.QueueStatus ≠ ImageBuildState.IBRunning ∧
      ∃ cs ib rest t, (kv.1, cs) ∈ storeStruct.Composes ∧ cs.ImageBuilds = ib :: rest ∧
        imageTypeFromCompatString ib.ImageType arch = some t ∧
        kv.2 =
          { Blueprint := cs.Blueprint,
            ImageBuild :=
              { ID := ib.ID, ImageType := some t, Manifest := ib.Manifest,
                Targets := ib.Targets, JobCreated := ib.JobCreated,
                JobStarted := ib.JobStarted, JobFinished := ib.JobFinished,
                Size := ib.Size, JobID := ib.JobID,
                QueueStatus :=
                  if ib.QueueStatus = ImageBuildState.IBWaiting ∨
                      ib.QueueStatus = ImageBuildState.IBRunning then
                    ImageBuildState.IBFailed
                  else ib.QueueStatus } } := by
  obtain ⟨cs, c, hmem, hc, hfail⟩ := mem_loaded_composes hkv
  obtain ⟨ib, rest, t, hib, ht, rfl⟩ := newComposeFromV0_ok hc
  rw [failUnfinished_eq] at hfail
  rw [hfail]
  refine ⟨?_, ?_, cs, ib, rest, t, hmem, hib, ht, rfl⟩
  · cases hs : ib.QueueStatus <;> simp
  · cases hs : ib.QueueStatus <;> simp

theorem C21_recovery_pass_witness :
    ((1, failedCompose) ∈
        (newStoreFromV0 natSemver insertionSort sampleDocument testArch).composes) ∧
      failedCompose.ImageBuild.QueueStatus ≠ ImageBuildState.IBWaiting ∧
      failedCompose.ImageBuild.QueueStatus ≠ ImageBuildState.IBRunning ∧
      ∃ cs ib rest t, (1, cs) ∈ sampleDocument.Composes ∧ cs.ImageBuilds = ib :: rest ∧
        imageTypeFromCompatString ib.ImageType testArch = some t ∧
        failedCompose =
          { Blueprint := cs.Blueprint,
            ImageBuild :=
              { ID := ib.ID, ImageType := some t, Manifest := ib.Manifest,
                Targets := ib.Targets, JobCreated := ib.JobCreated,
                JobStarted := ib.JobStarted, JobFinished := ib.JobFinished,
                Size := ib.Size, JobID := ib.JobID,
                QueueStatus :=
                  if ib.QueueStatus = ImageBuildState.IBWaiting ∨
                      ib.QueueStatus = ImageBuildState.IBRunning then
                    ImageBuildState.IBFailed
                  else ib.QueueStatus } } :=
  ⟨by decide,
    C21_recovery_pass natSemver insertionSort sampleDocument testArch (1, failedCompose)
      (by decide)⟩

/-- C23: silent drop of unknown image types. `newStoreFromV0` has no error
return and no panic: it gives a store for every stored document. A stored
compose whose first image build carries a string that is not a compatibility
string of the table has no entry in the loaded store; a stored compose whose
first image build carries the compatibility string of a name under which the
architecture has an image type is loaded under the same id, with that image
type. (The ids of a stored document are the keys of a map, so pairwise
distinct.) -/
theorem C23_unknown_image_types_dropped (sv : Semver)
    (sortSlice : (Change → Change → Bool) → List Change → List Change) (storeStruct : storeV0)
    (arch : Arch) (hkeys : (storeStruct.Composes.map Prod.fst).Nodup) (id : UUID)
    (cs : composeV0) (ib : imageBuildV0) (rest : List imageBuildV0)
    (hmem : (id, cs) ∈ storeStruct.Composes) (hib : cs.ImageBuilds = ib :: rest) :
    ((∀ kv ∈ imageTypeCompatMapping, kv.2 ≠ ib.ImageType) →
        lookup (newStoreFromV0 sv sortSlice storeStruct arch).composes id = none) ∧
      (∀ kv ∈ imageTypeCompatMapping, ∀ t, kv.2 = ib.ImageType →
        arch.GetImageType kv.1 = some t →
        ∃ c, lookup (newStoreFromV0 sv sortSlice storeStruct arch).composes id = some c ∧
          c.ImageBuild.ImageType = some t) := by
  rw [lookup_loaded_composes, lookup_newComposesFromV0 arch hkeys hmem]
  constructor
  · intro hno
    have hfind : imageTypeCompatMapping.find? (fun x => decide (x.2 = ib.ImageType)) = none := by
      rw [List.find?_eq_none]
      intro x hx hx2
      simp only [decide_eq_true_eq] at hx2
      exact hno x hx hx2
    simp only [newComposeFromV0, hib, imageTypeFromCompatString, hfind, Option.map_none']
  · intro kv hkv t hkv2 harch
    have hfind := (compat_find_of_mem kv hkv).1
    rw [hkv2] at hfind
    simp only [newComposeFromV0, hib, imageTypeFromCompatString, hfind, harch,
      Option.map_some']
    exact ⟨_, rfl, by rw [failUnfinished_eq]⟩

theorem C23_unknown_image_types_dropped_witness :
    ((sampleDocument.Composes.map Prod.fst).Nodup ∧
        (4, edgeCommitCompose) ∈ sampleDocument.Composes ∧
        ∀ kv ∈ imageTypeCompatMapping, kv.2 ≠ "edge-commit") ∧
      lookup (newStoreFromV0 natSemver insertionSort sampleDocument testArch).composes 4 =
        none :=
  ⟨⟨by decide, by decide, by decide⟩,
    (C23_unknown_image_types_dropped natSemver insertionSort sampleDocument testArch
      (by decide) 4 edgeCommitCompose
      { qcow2Build ImageBuildState.IBFinished with ImageType := "edge-commit" }
      [] (by decide) rfl).1 (by decide)⟩

/-- C24: the compatibility mapping is the fixed table. `imageTypeToCompatString`
maps qcow2 to qcow2, vhd to Azure, ami to AWS, openstack to OpenStack, vmdk to
VMWare, tar to Tar, liveiso to LiveISO, ext4-filesystem to Raw-filesystem,
partitioned-disk to Partitioned-disk and test_type to test_type, and every
other name to the empty string. -/
theorem C24_compat_table (t : ImageType) :
    imageTypeToCompatString t =
      if t.Name = "qcow2" then "qcow2"
      else if t.Name = "vhd" then "Azure"
      else if t.Name = "ami" then "AWS"
      else if t.Name = "openstack" then "OpenStack"
      else if t.Name = "vmdk" then "VMWare"
      else if t.Name = "tar" then "Tar"
      else if t.Name = "liveiso" then "LiveISO"
      else if t.Name = "ext4-filesystem" then "Raw-filesystem"
      else if t.Name = "partitioned-disk" then "Partitioned-disk"
      else if t.Name = "test_type" then "test_type"
      else "" := by
  unfold imageTypeToCompatString lookup imageTypeCompatMapping
  generalize t.Name = n
  split_ifs with h1 h2 h3 h4 h5 h6 h7 h8 h9 h10
  all_goals first
    | (subst_vars; rfl)
    | simp [Ne.symm h1, Ne.symm h2, Ne.symm h3, Ne.symm h4, Ne.symm h5, Ne.symm h6, Ne.symm h7,
        Ne.symm h8, Ne.symm h9, Ne.symm h10]

/-- C25: the compatibility mapping is a bijection that round-trips. The names
of the table are pairwise distinct and so are its compatibility strings. So,
in whatever order the table is visited, for every architecture and every image
type t of that architecture whose name is in the table,
`imageTypeFromCompatString(imageTypeToCompatString(t), arch)` is t, the image
type of the architecture under the name of t; and this is so for every image
type of every architecture of the RHEL 8 distribution. -/
theorem C25_compat_bijection (order : List (String × String))
    (horder : order.Perm imageTypeCompatMapping) (arch : Arch) (t : ImageType)
    (ht : lookup imageTypeCompatMapping t.Name ≠ none)
    (harch : arch.GetImageType t.Name = some t) :
    ((imageTypeCompatMapping.map Prod.snd).Nodup ∧
        (imageTypeCompatMapping.map Prod.fst).Nodup) ∧
      imageTypeFromCompatString (imageTypeToCompatString t) arch = some t ∧
      imageTypeFromCompatStringOrder order (imageTypeToCompatString t) arch = some t ∧
      ∀ a ∈ rhel8.New.arches, ∀ nt ∈ a.2.imageTypes,
        imageTypeFromCompatStringOrder order (imageTypeToCompatString nt.2.toImageType)
          a.2.toArch = some nt.2.toImageType := by
  refine ⟨compat_nodup, ?_, ?_, ?_⟩
  · rw [(imageTypeFromCompatString_toCompatString ht arch).2, harch]
  · rw [imageTypeFromCompatStringOrder_toCompatString horder ht arch, harch]
  · intro a ha nt hnt
    obtain ⟨hin, hget⟩ := rhel8_imageTypes_in_table a ha nt hnt
    have hin1 : lookup imageTypeCompatMapping nt.2.toImageType.Name ≠ none := hin
    rw [imageTypeFromCompatStringOrder_toCompatString horder hin1 a.2.toArch]
    show (a.2.GetImageType nt.2.name).map rhel8.imageType.toImageType = _
    rw [hget]
    rfl

theorem C25_compat_bijection_witness :
    (imageTypeCompatMapping.reverse.Perm imageTypeCompatMapping ∧
        lookup imageTypeCompatMapping "qcow2" ≠ none ∧
        testArch.GetImageType "qcow2" = some { Name := "qcow2", Details := [1] }) ∧
      imageTypeFromCompatStringOrder imageTypeCompatMapping.reverse
          (imageTypeToCompatString { Name := "qcow2", Details := [1] }) testArch =
        some { Name := "qcow2", Details := [1] } :=
  ⟨⟨List.reverse_perm _, by decide, by decide⟩,
    (C25_compat_bijection imageTypeCompatMapping.reverse (List.reverse_perm _) testArch
      { Name := "qcow2", Details := [1] } (by decide) (by decide)).2.2.1⟩

/-! ## Rebuilding the commit lists -/

/-- The second loop of `newStoreFromV0` rebuilds the commit list of a blueprint
that has changes and no commits, from the changes as `sort.Slice` leaves
them. -/
theorem populateCommits_foldl_rebuilt (sv : Semver)
    (sortSlice : (Change → Change → Bool) → List Change → List Change)
    (changes : List (String × List (String × Change))) (name : String)
    (chs : List (String × Change)) (hchs : lookup changes name = some chs) (hne : chs ≠ [])
    (hlen : (sortSlice (changeLess sv) (chs.map (fun cc => cc.2))).length = chs.length)
    (names : List (String × List (String × Change))) (commits : List (String × List String))
    (h : lookup commits name =
          some ((sortSlice (changeLess sv) (chs.map (fun cc => cc.2))).map (fun c => c.Commit)) ∨
        ((lookup commits name).getD [] = [] ∧ name ∈ names.map Prod.fst)) :
    lookup (names.foldl
      (fun acc kv => populateCommits sv sortSlice changes acc kv.1) commits) name =
      some ((sortSlice (changeLess sv) (chs.map (fun cc => cc.2))).map (fun c => c.Commit)) := by
  induction names generalizing commits with
  | nil =>
    rcases h with h | ⟨_, hmem⟩
    · exact h
    · cases hmem
  | cons kv rest ih =>
    simp only [List.foldl_cons]
    apply ih
    by_cases hk : kv.1 = name
    · left
      rw [hk]
      unfold populateCommits
      rw [hchs]
      simp only [Option.getD_some]
      rcases h with h | ⟨h, _⟩
      · rw [h]
        simp only [Option.getD_some, List.length_map, hlen, ne_eq, not_true_eq_false, if_false]
        exact h
      · rw [h]
        have hpos : chs.length ≠ ([] : List String).length := by
          simp only [List.length_nil, ne_eq, List.length_eq_zero]
          exact hne
        rw [if_pos hpos]
        exact lookup_setKey_self _ _ _
    · have hstep : lookup (populateCommits sv sortSlice changes commits kv.1) name =
          lookup commits name := by
        unfold populateCommits
        split
        · exact lookup_setKey_ne commits _ (fun e => hk e.symm)
        · rfl
      rw [hstep]
      rcases h with h | ⟨h, hmem⟩
      · exact Or.inl h
      · refine Or.inr ⟨h, ?_⟩
        rw [List.map_cons, List.mem_cons] at hmem
        rcases hmem with e | hmem
        · exact absurd e.symm hk
        · exact hmem

/-- The commit list rebuilt on load. Let a blueprint name have changes
in the loaded store and no commits in the stored document, and let `sort.Slice`
keep its contract on the slice of these changes: it permutes the slice, and
leaves no element before one that is less. Then the loaded commit list of the
name is the list of the commit ids of the changes as sorted: it holds the
commit id of each change once (so no id twice, when the changes have distinct
ids), and a change stands before another only if its timestamp is smaller, or
the timestamps are equal and the version of the blueprint of the other change
is not smaller. The blueprint of a loaded change is the empty blueprint. -/
theorem commits_rebuilt_in_comparator_order (sv : Semver)
    (sortSlice : (Change → Change → Bool) → List Change → List Change) (storeStruct : storeV0)
    (arch : Arch) (name : String) (chs : List (String × Change))
    (hchanges :
      lookup (newStoreFromV0 sv sortSlice storeStruct arch).blueprintsChanges name = some chs)
    (hne : chs ≠ []) (hcommits : (lookup storeStruct.Commits name).getD [] = [])
    (hperm : (sortSlice (changeLess sv) (chs.map (fun cc => cc.2))).Perm
      (chs.map (fun cc => cc.2)))
    (hsorted : (sortSlice (changeLess sv) (chs.map (fun cc => cc.2))).Pairwise
      (fun a b => changeLess sv b a = false)) :
    ∃ sorted : List Change,
      lookup (newStoreFromV0 sv sortSlice storeStruct arch).blueprintsCommits name =
        some (sorted.map (fun c => c.Commit)) ∧
      (sorted.map (fun c => c.Commit)).Perm (chs.map (fun cc => cc.2.Commit)) ∧
      ((chs.map (fun cc => cc.2.Commit)).Nodup → (sorted.map (fun c => c.Commit)).Nodup) ∧
      sorted.Pairwise (fun a b =>
        a.Timestamp < b.Timestamp ∨
          (a.Timestamp = b.Timestamp ∧
            sv.LessThan ((sv.NewVersion b.Blueprint.Version).getD sv.zero)
              ((sv.NewVersion a.Blueprint.Version).getD sv.zero) = false)) ∧
      ∀ c ∈ sorted, c.Blueprint = Blueprint.zero := by
  have hcperm : ((sortSlice (changeLess sv) (chs.map (fun cc => cc.2))).map
      (fun c => c.Commit)).Perm (chs.map (fun cc => cc.2.Commit)) := by
    have h1 := hperm.map (fun c : Change => c.Commit)
    rw [List.map_map] at h1
    exact h1
  refine ⟨sortSlice (changeLess sv) (chs.map (fun cc => cc.2)), ?_, hcperm, ?_, ?_, ?_⟩
  · have hch : lookup (newChangesFromV0 storeStruct.Changes) name = some chs := hchanges
    have hlen : (sortSlice (changeLess sv) (chs.map (fun cc => cc.2))).length = chs.length := by
      rw [hperm.length_eq, List.length_map]
    simp only [newStoreFromV0]
    apply populateCommits_foldl_rebuilt sv sortSlice _ name chs hch hne hlen
    right
    constructor
    · unfold newCommitsFromV0
      rw [map_id_pairs]
      exact hcommits
    · exact List.mem_map.2 ⟨(name, chs), lookup_mem hch, rfl⟩
  · intro hnd
    exact (hcperm.nodup_iff).2 hnd
  · refine hsorted.imp ?_
    intro a b hab
    unfold changeLess at hab
    by_cases hts : b.Timestamp = a.Timestamp
    · rw [if_pos hts] at hab
      exact Or.inr ⟨hts.symm, hab⟩
    · rw [if_neg hts] at hab
      simp only [decide_eq_false_iff_not] at hab
      exact Or.inl (lt_of_le_of_ne (not_lt.1 hab) (fun e => hts e.symm))
  · intro c hc
    have hc1 := hperm.mem_iff.1 hc
    obtain ⟨cc, hcc, rfl⟩ := List.mem_map.1 hc1
    have hch : lookup (newChangesFromV0 storeStruct.Changes) name = some chs := hchanges
    unfold newChangesFromV0 at hch
    rw [lookup_map_values (fun inner : List (String × changeV0) => inner.map (fun cc =>
      ((cc.1, { Commit := cc.2.Commit, Message := cc.2.Message, Revision := cc.2.Revision,
                Timestamp := cc.2.Timestamp, Blueprint := Blueprint.zero }) :
        String × Change))) storeStruct.Changes name] at hch
    cases hl : lookup storeStruct.Changes name with
    | none => rw [hl] at hch; cases hch
    | some inner =>
      rw [hl] at hch
      simp only [Option.map_some', Option.some.injEq] at hch
      rw [← hch] at hcc
      obtain ⟨x, _, rfl⟩ := List.mem_map.1 hcc
      rfl

/-- C22 (failing input): the blueprint `base` of the store `tieStore` has the
changes `c2` and `c1`, of the same timestamp, with the blueprint versions 2 and
1, and no commit list. Sorted by timestamp and version of the blueprint, the
changes stand in the order `c1`, `c2`. The store is serialised without panic;
in the loaded store both changes carry the empty blueprint, and the commit list
rebuilt for `base` is `c2`, `c1`: the change of the version 2 before the change
of the version 1. The store with the two versions exchanged is serialised to the
same document, so it is loaded with the same commit list, whatever `sort.Slice`
and the version comparison do. -/
theorem C22_version_key_is_dead :
    (lookup tieStore.blueprintsChanges "base").map
        (fun chs => (insertionSort (changeLess digitsSemver) (chs.map (fun cc => cc.2))).map
          (fun c => c.Commit)) = some ["c1", "c2"] ∧
      (toStoreV0 tieStore).isSome = true ∧
      (toStoreV0 tieStore).map
        (fun v => lookup (newStoreFromV0 digitsSemver insertionSort v testArch).blueprintsCommits
          "base") = some (some ["c2", "c1"]) ∧
      (toStoreV0 tieStore).map
        (fun v => (lookup (newStoreFromV0 digitsSemver insertionSort v testArch).blueprintsChanges
          "base").map (fun chs => chs.map (fun cc => cc.2.Blueprint))) =
        some (some [Blueprint.zero, Blueprint.zero]) ∧
      toStoreV0 tieStoreExchanged = toStoreV0 tieStore ∧
      (lookup tieStoreExchanged.blueprintsChanges "base").map
        (fun chs => (insertionSort (changeLess digitsSemver) (chs.map (fun cc => cc.2))).map
          (fun c => c.Commit)) = some ["c2", "c1"] := by
  decide

/-! ## Commit lists and changes after loading -/

/-- The second loop of `newStoreFromV0` replaces the commit list of a blueprint
that has not as many commits as changes by the list rebuilt from the changes as
`sort.Slice` leaves them, when `sort.Slice` keeps the length of the slice. -/
theorem populateCommits_foldl_replaced (sv : Semver)
    (sortSlice : (Change → Change → Bool) → List Change → List Change)
    (changes : List (String × List (String × Change))) (name : String)
    (chs : List (String × Change)) (hchs : lookup changes name = some chs)
    (hlen : (sortSlice (changeLess sv) (chs.map (fun cc => cc.2))).length = chs.length)
    (names : List (String × List (String × Change))) (commits : List (String × List String))
    (h : lookup commits name =
          some ((sortSlice (changeLess sv) (chs.map (fun cc => cc.2))).map (fun c => c.Commit)) ∨
        (((lookup commits name).getD []).length ≠ chs.length ∧ name ∈ names.map Prod.fst)) :
    lookup (names.foldl
      (fun acc kv => populateCommits sv sortSlice changes acc kv.1) commits) name =
      some ((sortSlice (changeLess sv) (chs.map (fun cc => cc.2))).map (fun c => c.Commit)) := by
  induction names generalizing commits with
  | nil =>
    rcases h with h | ⟨_, hmem⟩
    · exact h
    · cases hmem
  | cons kv rest ih =>
    simp only [List.foldl_cons]
    apply ih
    by_cases hk : kv.1 = name
    · left
      rw [hk]
      unfold populateCommits
      rw [hchs]
      simp only [Option.getD_some]
      rcases h with h | ⟨h, _⟩
      · rw [h]
        simp only [Option.getD_some, List.length_map, hlen, ne_eq, not_true_eq_false, if_false]
        exact h
      · rw [if_pos (fun e => h e.symm)]
        exact lookup_setKey_self _ _ _
    · have hstep : lookup (populateCommits sv sortSlice changes commits kv.1) name =
          lookup commits name := by
        unfold populateCommits
        split
        · exact lookup_setKey_ne commits _ (fun e => hk e.symm)
        · rfl
      rw [hstep]
      rcases h with h | ⟨h, hmem⟩
      · exact Or.inl h
      · refine Or.inr ⟨h, ?_⟩
        rw [List.map_cons, List.mem_cons] at hmem
        rcases hmem with e | hmem
        · exact absurd e.symm hk
        · exact hmem

/-- C36: after load, commit lists and changes agree in length. Let a blueprint
name have an entry in the changes of the loaded store, and let `sort.Slice`
keep the length of the slice of these changes. Then the loaded commit list of
the name has as many entries as the blueprint has changes; when the stored
commit list has that many entries already, it is kept as it is; and when it
has not, whether it is empty or not, it is replaced by the list of the commit
ids of the sorted changes. -/
theorem C36_commits_agree_in_length (sv : Semver)
    (sortSlice : (Change → Change → Bool) → List Change → List Change) (storeStruct : storeV0)
    (arch : Arch) (name : String) (chs : List (String × Change))
    (hchanges :
      lookup (newStoreFromV0 sv sortSlice storeStruct arch).blueprintsChanges name = some chs)
    (hlen : (sortSlice (changeLess sv) (chs.map (fun cc => cc.2))).length = chs.length) :
    ((lookup (newStoreFromV0 sv sortSlice storeStruct arch).blueprintsCommits name).getD
        []).length = chs.length ∧
      (((lookup storeStruct.Commits name).getD []).length = chs.length →
        lookup (newStoreFromV0 sv sortSlice storeStruct arch).blueprintsCommits name =
          lookup storeStruct.Commits name) ∧
      (((lookup storeStruct.Commits name).getD []).length ≠ chs.length →
        lookup (newStoreFromV0 sv sortSlice storeStruct arch).blueprintsCommits name =
          some ((sortSlice (changeLess sv) (chs.map (fun cc => cc.2))).map
            (fun c => c.Commit))) := by
  have hch : lookup (newChangesFromV0 storeStruct.Changes) name = some chs := hchanges
  have hcom : newCommitsFromV0 storeStruct.Commits = storeStruct.Commits := by
    unfold newCommitsFromV0
    exact map_id_pairs _
  have hsame : ((lookup storeStruct.Commits name).getD []).length = chs.length →
      lookup (newStoreFromV0 sv sortSlice storeStruct arch).blueprintsCommits name =
        lookup storeStruct.Commits name := by
    intro heq
    simp only [newStoreFromV0, hcom]
    apply populateCommits_foldl_lookup
    rw [hch, Option.getD_some]
    exact heq.symm
  have hdiff : ((lookup storeStruct.Commits name).getD []).length ≠ chs.length →
      lookup (newStoreFromV0 sv sortSlice storeStruct arch).blueprintsCommits name =
        some ((sortSlice (changeLess sv) (chs.map (fun cc => cc.2))).map
          (fun c => c.Commit)) := by
    intro hne
    simp only [newStoreFromV0, hcom]
    apply populateCommits_foldl_replaced sv sortSlice _ name chs hch hlen
    exact Or.inr ⟨hne, List.mem_map.2 ⟨(name, chs), lookup_mem hch, rfl⟩⟩
  refine ⟨?_, hsame, hdiff⟩
  by_cases heq : ((lookup storeStruct.Commits name).getD []).length = chs.length
  · rw [hsame heq]
    exact heq
  · rw [hdiff heq, Option.getD_some, List.length_map]
    exact hlen

theorem C36_commits_agree_in_length_witness :
    lookup (newStoreFromV0 natSemver insertionSort sampleDocument testArch).blueprintsChanges
        "base" = some loadedBaseChanges ∧
      ((lookup (newStoreFromV0 natSemver insertionSort sampleDocument
          testArch).blueprintsCommits "base").getD []).length = loadedBaseChanges.length ∧
      (((lookup sampleDocument.Commits "base").getD []).length = loadedBaseChanges.length →
        lookup (newStoreFromV0 natSemver insertionSort sampleDocument
            testArch).blueprintsCommits "base" =
          lookup sampleDocument.Commits "base") ∧
      (((lookup sampleDocument.Commits "base").getD []).length ≠ loadedBaseChanges.length →
        lookup (newStoreFromV0 natSemver insertionSort sampleDocument
            testArch).blueprintsCommits "base" =
          some ((insertionSort (changeLess natSemver)
            (loadedBaseChanges.map (fun cc => cc.2))).map (fun c => c.Commit))) :=
  have h12 : ("1" : String) < "2" := by rw [String.lt_iff_toList_lt]; decide
  have hs : insertionSort (changeLess natSemver) (loadedBaseChanges.map (fun cc => cc.2)) =
      (loadedBaseChanges.map (fun cc => cc.2)).reverse := by
    simp [loadedBaseChanges, insertionSort, insertSorted, changeLess, h12]
  ⟨by decide,
    C36_commits_agree_in_length natSemver insertionSort sampleDocument testArch "base"
      loadedBaseChanges (by decide) (by rw [hs]; rfl)⟩

/-! ## Serialising the composes -/

/-- The entry `newComposesV0` emits for a compose with the image type `t`. -/
theorem newComposeV0_some {c : Compose} {t : ImageType}
    (hc : c.ImageBuild.ImageType = some t) (ht : lookup imageTypeCompatMapping t.Name ≠ none) :
    newComposeV0 c =
      some { Blueprint := c.Blueprint,
             ImageBuilds :=
               [{ ID := c.ImageBuild.ID, ImageType := imageTypeToCompatString t,
                  Manifest := c.ImageBuild.Manifest, Targets := c.ImageBuild.Targets,
                  JobCreated := c.ImageBuild.JobCreated,
                  JobStarted := c.ImageBuild.JobStarted,
                  JobFinished := c.ImageBuild.JobFinished,
                  Size := c.ImageBuild.Size, JobID := c.ImageBuild.JobID,
                  QueueStatus := c.ImageBuild.QueueStatus }] } := by
  have hne := (imageTypeFromCompatString_toCompatString ht testArch).1
  simp only [newComposeV0, hc, if_neg hne]

theorem newComposeV0_none_iff (c : Compose) :
    newComposeV0 c = none ↔
      ∀ t, c.ImageBuild.ImageType = some t → lookup imageTypeCompatMapping t.Name = none := by
  cases hc : c.ImageBuild.ImageType with
  | none => simp [newComposeV0, hc]
  | some t =>
    cases hl : lookup imageTypeCompatMapping t.Name with
    | none =>
      have hstr : imageTypeToCompatString t = "" := by
        unfold imageTypeToCompatString
        rw [hl]
        rfl
      simp [newComposeV0, hc, hstr, hl]
    | some v =>
      have ht : lookup imageTypeCompatMapping t.Name ≠ none := by
        rw [hl]
        exact Option.some_ne_none v
      rw [newComposeV0_some hc ht]
      simp [hl]

theorem newComposesV0_none_iff (l : List (UUID × Compose)) :
    newComposesV0 l = none ↔ ∃ kv ∈ l, newComposeV0 kv.2 = none := by
  induction l with
  | nil => simp [newComposesV0]
  | cons kv rest ih =>
    cases hc : newComposeV0 kv.2 with
    | none => simp [newComposesV0, hc]
    | some c =>
      simp only [newComposesV0, hc, Option.map_eq_none', ih, List.mem_cons, exists_eq_or_imp,
        reduceCtorEq, false_or]

theorem newComposesV0_some {l : List (UUID × Compose)} {vs : List (UUID × composeV0)}
    (h : newComposesV0 l = some vs) :
    vs.map Prod.fst = l.map Prod.fst ∧
      ∀ kv ∈ l, ∃ cv, newComposeV0 kv.2 = some cv ∧ (kv.1, cv) ∈ vs := by
  induction l generalizing vs with
  | nil =>
    simp only [newComposesV0, Option.some.injEq] at h
    subst h
    exact ⟨rfl, fun kv hkv => by cases hkv⟩
  | cons kv rest ih =>
    cases hc : newComposeV0 kv.2 with
    | none => simp [newComposesV0, hc] at h
    | some c =>
      cases hr : newComposesV0 rest with
      | none => simp [newComposesV0, hc, hr] at h
      | some cs =>
        simp only [newComposesV0, hc, hr, Option.map_some', Option.some.injEq] at h
        subst h
        obtain ⟨hkeys, hall⟩ := ih hr
        refine ⟨by simp only [List.map_cons, hkeys], ?_⟩
        intro x hx
        rcases List.mem_cons.1 hx with rfl | hx
        · exact ⟨c, hc, List.mem_cons_self _ _⟩
        · obtain ⟨cv, hcv, hmem⟩ := hall x hx
          exact ⟨cv, hcv, List.mem_cons_of_mem _ hmem⟩

/-- C37: serialisation panics exactly on unmapped image types. `toStoreV0`
panics exactly when `newComposesV0` does, and `newComposesV0` panics exactly
when some compose has no image type with a name of the compatibility table:
for composes that all have an image type (a compose without one, a nil
interface, makes the call of `Name()` panic), exactly when some compose has an
image type whose name is not a key of the table. Otherwise the entries it
emits carry the ids of the composes, one entry for each compose, and the entry
of a compose has its blueprint and exactly one image build, with the
compatibility string of the image type and every other field copied. -/
theorem C37_serialisation_panics (S : Store) (l : List (UUID × Compose)) :
    (toStoreV0 S = none ↔ newComposesV0 S.composes = none) ∧
      (newComposesV0 l = none ↔
        ∃ kv ∈ l, ∀ t, kv.2.ImageBuild.ImageType = some t →
          lookup imageTypeCompatMapping t.Name = none) ∧
      ((∀ kv ∈ l, kv.2.ImageBuild.ImageType ≠ none) →
        (newComposesV0 l = none ↔
          ∃ kv ∈ l, ∃ t, kv.2.ImageBuild.ImageType = some t ∧
            lookup imageTypeCompatMapping t.Name = none)) ∧
      ∀ vs, newComposesV0 l = some vs →
        vs.map Prod.fst = l.map Prod.fst ∧
          ∀ kv ∈ l, ∃ t, kv.2.ImageBuild.ImageType = some t ∧
            lookup imageTypeCompatMapping t.Name ≠ none ∧
            (kv.1,
              ({ Blueprint := kv.2.Blueprint,
                 ImageBuilds :=
                   [{ ID := kv.2.ImageBuild.ID, ImageType := imageTypeToCompatString t,
                      Manifest := kv.2.ImageBuild.Manifest, Targets := kv.2.ImageBuild.Targets,
                      JobCreated := kv.2.ImageBuild.JobCreated,
                      JobStarted := kv.2.ImageBuild.JobStarted,
                      JobFinished := kv.2.ImageBuild.JobFinished,
                      Size := kv.2.ImageBuild.Size, JobID := kv.2.ImageBuild.JobID,
                      QueueStatus := kv.2.ImageBuild.QueueStatus }] } : composeV0)) ∈ vs := by
  have hiff : newComposesV0 l = none ↔
      ∃ kv ∈ l, ∀ t, kv.2.ImageBuild.ImageType = some t →
        lookup imageTypeCompatMapping t.Name = none := by
    rw [newComposesV0_none_iff]
    constructor
    · rintro ⟨kv, hkv, hnone⟩
      exact ⟨kv, hkv, (newComposeV0_none_iff kv.2).1 hnone⟩
    · rintro ⟨kv, hkv, hall⟩
      exact ⟨kv, hkv, (newComposeV0_none_iff kv.2).2 hall⟩
  refine ⟨?_, hiff, ?_, ?_⟩
  · unfold toStoreV0
    exact Option.map_eq_none'
  · intro himg
    rw [hiff]
    constructor
    · rintro ⟨kv, hkv, hall⟩
      obtain ⟨t, ht⟩ := Option.ne_none_iff_exists'.1 (himg kv hkv)
      exact ⟨kv, hkv, t, ht, hall t ht⟩
    · rintro ⟨kv, hkv, t, ht, hnone⟩
      refine ⟨kv, hkv, ?_⟩
      intro t1 ht1
      rw [ht] at ht1
      cases ht1
      exact hnone
  · intro vs hvs
    obtain ⟨hkeys, hall⟩ := newComposesV0_some hvs
    refine ⟨hkeys, ?_⟩
    intro kv hkv
    obtain ⟨cv, hcv, hmem⟩ := hall kv hkv
    cases hc : kv.2.ImageBuild.ImageType with
    | none => simp [newComposeV0, hc] at hcv
    | some t =>
      have ht : lookup imageTypeCompatMapping t.Name ≠ none := by
        intro hnone
        have hpanic := (newComposeV0_none_iff kv.2).2 (by
          intro t1 ht1
          rw [hc] at ht1
          cases ht1
          exact hnone)
        rw [hpanic] at hcv
        cases hcv
      rw [newComposeV0_some hc ht, Option.some.injEq] at hcv
      rw [← hcv] at hmem
      exact ⟨t, rfl, ht, hmem⟩

/-! ## Only the first image build is read -/

/-- C38: only the first image build decides a stored compose.
`newComposeFromV0` fails when the list of image builds is empty, and when the
first entry has a string that stands for no image type of the architecture,
whatever the later entries are; otherwise it returns the compose with the
blueprint of the stored compose and the image build made of the first entry.
In every case the result is the same for any other list of later entries. -/
theorem C38_first_image_build_decides (cs : composeV0) (arch : Arch) :
    (cs.ImageBuilds = [] → newComposeFromV0 cs arch = .error ComposeError.noImageBuild) ∧
      (∀ ib rest, cs.ImageBuilds = ib :: rest →
        imageTypeFromCompatString ib.ImageType arch = none →
        newComposeFromV0 cs arch = .error ComposeError.invalidImageType) ∧
      (∀ ib rest t, cs.ImageBuilds = ib :: rest →
        imageTypeFromCompatString ib.ImageType arch = some t →
        newComposeFromV0 cs arch =
          .ok { Blueprint := cs.Blueprint,
                ImageBuild :=
                  { ID := ib.ID, ImageType := some t, Manifest := ib.Manifest,
                    Targets := ib.Targets, JobCreated := ib.JobCreated,
                    JobStarted := ib.JobStarted, JobFinished := ib.JobFinished,
                    Size := ib.Size, JobID := ib.JobID, QueueStatus := ib.QueueStatus } }) ∧
      ∀ ib rest later, cs.ImageBuilds = ib :: rest →
        newComposeFromV0 { cs with ImageBuilds := ib :: later } arch =
          newComposeFromV0 cs arch := by
  refine ⟨?_, ?_, ?_, ?_⟩
  · intro h
    simp only [newComposeFromV0, h]
  · intro ib rest h hnone
    simp only [newComposeFromV0, h, hnone]
  · intro ib rest t h ht
    simp only [newComposeFromV0, h, ht]
  · intro ib rest later h
    simp only [newComposeFromV0, h]

end store

namespace rhel8

/-! ## The size of an image -/

/-- C30 (counterexample): the size `2 ^ 64 - 1` is a non-zero 64-bit size and
no multiple of `MegaByte`; the product that rounds it up is `2 ^ 64`, which is
0 as a `uint64`, so `Size` returns the default size of the image type `vhd`,
2 GiB, which is smaller than the size asked for. -/
theorem C30_size_wraps_around :
    vhdImgType.name = "vhd" ∧ 0 < 2 ^ 64 - 1 ∧ 2 ^ 64 - 1 < 2 ^ 64 ∧
      vhdImgType.Size (2 ^ 64 - 1) = 2 * GigaByte ∧
      vhdImgType.Size (2 ^ 64 - 1) < 2 ^ 64 - 1 := by
  decide

/-- C30 (amended): sizes of `vhd` images are rounded up to the next MB. For an
image type named `vhd` and every non-zero size s that is at most
`2 ^ 64 - 1048576`, the largest multiple of 1048576 a `uint64` holds, `Size(s)`
is the smallest multiple of 1048576 that is greater than or equal to s: it is
a multiple, `Size(s) ≥ s`, `Size(s) - s < 1048576`, no multiple between s and
`Size(s)` is smaller, and `Size(s) = s` when s is a multiple. A multiple is
returned as it is for every non-zero s. -/
theorem C30_vhd_size_rounded_up (t : imageType) (s : Nat) (hname : t.name = "vhd")
    (hpos : 0 < s) (hmax : s ≤ 2 ^ 64 - 1048576) :
    1048576 ∣ t.Size s ∧ s ≤ t.Size s ∧ t.Size s - s < 1048576 ∧ t.Size s < 2 ^ 64 ∧
      (∀ m, 1048576 ∣ m → s ≤ m → t.Size s ≤ m) ∧
      (1048576 ∣ s → t.Size s = s) := by
  have h64 : (2 : Nat) ^ 64 = 18446744073709551616 := by norm_num
  rw [h64] at hmax ⊢
  have hsize : t.Size s = if s % 1048576 = 0 then s else (s / 1048576 + 1) * 1048576 := by
    have hMB : MegaByte = 1048576 := rfl
    simp only [imageType.Size, hMB, hname, true_and, h64]
    by_cases hm : s % 1048576 = 0
    · have hs : ¬ s = 0 := by omega
      simp only [hm, ne_eq, not_true_eq_false, if_false, if_true, hs]
    · have hlt : (s / 1048576 + 1) * 1048576 < 18446744073709551616 := by omega
      have hnz : ¬ (s / 1048576 + 1) * 1048576 = 0 := by omega
      simp only [hm, ne_eq, not_false_eq_true, if_true, if_false, Nat.mod_eq_of_lt hlt, hnz]
  rw [hsize]
  by_cases hm : s % 1048576 = 0
  · rw [if_pos hm]
    refine ⟨by omega, by omega, by omega, by omega, ?_, fun _ => rfl⟩
    intro m _ hsm
    exact hsm
  · rw [if_neg hm]
    refine ⟨by omega, by omega, by omega, by omega, ?_, ?_⟩
    · intro m hdvd hsm
      omega
    · intro hdvd
      omega

theorem C30_vhd_size_rounded_up_witness :
    (vhdImgType.name = "vhd" ∧ 0 < 1048577 ∧ 1048577 ≤ 2 ^ 64 - 1048576) ∧
      1048576 ∣ vhdImgType.Size 1048577 ∧ 1048577 ≤ vhdImgType.Size 1048577 ∧
      vhdImgType.Size 1048577 - 1048577 < 1048576 ∧ vhdImgType.Size 1048577 < 2 ^ 64 ∧
      (∀ m, 1048576 ∣ m → 1048577 ≤ m → vhdImgType.Size 1048577 ≤ m) ∧
      (1048576 ∣ 1048577 → vhdImgType.Size 1048577 = 1048577) :=
  ⟨⟨rfl, by decide, by decide⟩,
    C30_vhd_size_rounded_up vhdImgType 1048577 rfl (by decide) (by decide)⟩

end rhel8

namespace weldr

/-! ## The update loop -/

/-- A round of the update loop leaves the store as it was. -/
theorem jobUpdate_store (s : store) (update : Status) (now : Time) :
    (jobUpdate s update now).1 = s := by
  unfold jobUpdate
  cases s.Composes update.ComposeID with
  | none => rfl
  | some c =>
    simp only
    split <;> rfl

/-- C26 (failing input): the store `waitingStore` holds one compose, in the
state WAITING. In a round of the update loop for this compose with the status
RUNNING at the time 200, the local copy of the compose becomes RUNNING with
`JobStarted` 200, but the compose of the store is as before: WAITING, with
`JobStarted` zero. With the status FINISHED or FAILED the local copy gets that
status and `JobFinished` 200, and the compose of the store is as before
again. -/
theorem C26_update_not_stored :
    waitingStore.Composes sampleComposeID = some waitingCompose ∧
      (jobUpdate waitingStore { ComposeID := sampleComposeID, Status := "RUNNING" } 200).2 =
        some { waitingCompose with QueueStatus := "RUNNING", JobStarted := 200 } ∧
      (jobUpdate waitingStore { ComposeID := sampleComposeID, Status := "RUNNING" }
        200).1.Composes sampleComposeID = some waitingCompose ∧
      (jobUpdate waitingStore { ComposeID := sampleComposeID, Status := "FINISHED" } 200).2 =
        some { waitingCompose with QueueStatus := "FINISHED", JobFinished := 200 } ∧
      (jobUpdate waitingStore { ComposeID := sampleComposeID, Status := "FINISHED" }
        200).1.Composes sampleComposeID = some waitingCompose ∧
      (jobUpdate waitingStore { ComposeID := sampleComposeID, Status := "FAILED" } 200).2 =
        some { waitingCompose with QueueStatus := "FAILED", JobFinished := 200 } ∧
      (jobUpdate waitingStore { ComposeID := sampleComposeID, Status := "FAILED" }
        200).1.Composes sampleComposeID = some waitingCompose := by
  decide

/-! ## Adding a compose -/

/-- C27: initial compose state. For every compose id, blueprint and output
type `tar` or `qcow2`, `addCompose` does not panic; afterwards the store maps
the id to a compose that is WAITING, has the given blueprint and output type,
the local target of the id, the creation time `now`, and zero `JobStarted` and
`JobFinished`; the other composes, the blueprints and the workspace are as
before; and exactly one job was sent on `pendingJobs`, with the same compose id
and the same targets, and the pipeline of the output type. -/
theorem C27_initial_compose_state (s : store) (composeID : UUID) (bp : Option blueprint)
    (composeType : String) (now : Time)
    (htype : composeType = "tar" ∨ composeType = "qcow2") :
    ∃ s1 p, addCompose s composeID bp composeType now = some s1 ∧
      translateToPipeline bp composeType = some p ∧
      s1.Composes composeID =
        some { QueueStatus := "WAITING", Blueprint := bp, OutputType := composeType,
               Targets := [Target.localTarget
                 ("/var/lib/osbuild-composer/outputs/" ++ composeID)],
               JobCreated := now, JobStarted := 0, JobFinished := 0 } ∧
      (∀ id, id ≠ composeID → s1.Composes id = s.Composes id) ∧
      s1.Blueprints = s.Blueprints ∧ s1.Workspace = s.Workspace ∧
      s1.pendingJobs = s.pendingJobs ++
        [{ ComposeID := composeID, Pipeline := p,
           Targets := [Target.localTarget
             ("/var/lib/osbuild-composer/outputs/" ++ composeID)] }] := by
  have hp : ∃ p, translateToPipeline bp composeType = some p := by
    rcases htype with h | h
    · exact ⟨Pipeline.tarPipeline, by rw [h]; rfl⟩
    · exact ⟨Pipeline.qcow2Pipeline, by rw [h]; rfl⟩
  obtain ⟨p, hp⟩ := hp
  cases hadd : addCompose s composeID bp composeType now with
  | none =>
    simp only [addCompose, hp] at hadd
    cases hadd
  | some s1 =>
    simp only [addCompose, hp, Option.some.injEq] at hadd
    subst hadd
    refine ⟨_, p, rfl, hp, ?_, ?_, rfl, rfl, rfl⟩
    · simp
    · intro id hid
      simp [Function.update_noteq hid]

theorem C27_initial_compose_state_witness :
    ("tar" = "tar" ∨ "tar" = "qcow2") ∧
      ∃ s1 p, addCompose newStore sampleComposeID (some bareBlueprint) "tar" 100 = some s1 ∧
        translateToPipeline (some bareBlueprint) "tar" = some p ∧
        s1.Composes sampleComposeID =
          some { QueueStatus := "WAITING", Blueprint := some bareBlueprint, OutputType := "tar",
                 Targets := [Target.localTarget
                   ("/var/lib/osbuild-composer/outputs/" ++ sampleComposeID)],
                 JobCreated := 100, JobStarted := 0, JobFinished := 0 } ∧
        (∀ id, id ≠ sampleComposeID → s1.Composes id = newStore.Composes id) ∧
        s1.Blueprints = newStore.Blueprints ∧ s1.Workspace = newStore.Workspace ∧
        s1.pendingJobs = newStore.pendingJobs ++
          [{ ComposeID := sampleComposeID, Pipeline := p,
             Targets := [Target.localTarget
               ("/var/lib/osbuild-composer/outputs/" ++ sampleComposeID)] }] :=
  ⟨Or.inl rfl,
    C27_initial_compose_state newStore sampleComposeID (some bareBlueprint) "tar" 100
      (Or.inl rfl)⟩

/-! ## Reading a blueprint -/

/-- C28: the workspace shadows on read. With a non-nil `changed`: when the
workspace has the name, `getBlueprint` returns true with the entry of the
workspace and `changed` true, whatever the committed blueprints hold; when only
the committed blueprints have it, it returns true with the committed entry and
`changed` false; when neither has it, it returns false. `getBlueprintCommitted`
returns true with the committed entry when there is one and false otherwise,
whatever the workspace holds. The entry is handed back with its nil lists of
packages and modules replaced by empty lists. -/
theorem C28_workspace_shadows (s : store) (name : String) (changed : Bool) :
    (∀ w, s.Workspace name = some w →
        (getBlueprint s name (some changed)).1 =
          (true, { w with Packages := some (w.Packages.getD []),
                          Modules := some (w.Modules.getD []) }, some true)) ∧
      (∀ b, s.Workspace name = none → s.Blueprints name = some b →
        (getBlueprint s name (some changed)).1 =
          (true, { b with Packages := some (b.Packages.getD []),
                          Modules := some (b.Modules.getD []) }, some false)) ∧
      (s.Workspace name = none → s.Blueprints name = none →
        (getBlueprint s name (some changed)).1.1 = false) ∧
      (∀ b, s.Blueprints name = some b →
        (getBlueprintCommitted s name).1 =
          (true, { b with Packages := some (b.Packages.getD []),
                          Modules := some (b.Modules.getD []) })) ∧
      (s.Blueprints name = none → (getBlueprintCommitted s name).1.1 = false) ∧
      ∀ s1 : store, s1.Blueprints name = s.Blueprints name →
        (getBlueprintCommitted s1 name).1 = (getBlueprintCommitted s name).1 := by
  refine ⟨?_, ?_, ?_, ?_, ?_, ?_⟩
  · intro w hw
    obtain ⟨n, d, v, ps, ms⟩ := w
    cases ps <;> cases ms <;> simp [getBlueprint, hw]
  · intro b hw hb
    obtain ⟨n, d, v, ps, ms⟩ := b
    cases ps <;> cases ms <;> simp [getBlueprint, hw, hb]
  · intro hw hb
    simp [getBlueprint, hw, hb]
  · intro b hb
    obtain ⟨n, d, v, ps, ms⟩ := b
    cases ps <;> cases ms <;> simp [getBlueprintCommitted, hb]
  · intro hb
    simp [getBlueprintCommitted, hb]
  · intro s1 h1
    unfold getBlueprintCommitted
    rw [h1]
    cases s.Blueprints name <;> rfl

/-- C29: the blueprint handed back has non-nil lists. `getBlueprint` returns
true exactly when the workspace or the committed blueprints have the name, and
`getBlueprintCommitted` exactly when the committed blueprints have it. The
blueprint handed back is then the stored blueprint (the entry of the workspace
when there is one, else the committed entry; for `getBlueprintCommitted` the
committed entry) with a nil list of packages and a nil list of modules each
replaced by the empty list: its two lists are not nil, a stored list that is
not nil is handed back as it is, and the name, the description and the version
are those of the stored blueprint. The store is as before the call, so the
stored blueprint is not modified. -/
theorem C29_non_nil_lists (s : store) (name : String) (changed : Option Bool) :
    ((getBlueprint s name changed).1.1 = true ↔
        (s.Workspace name ≠ none ∨ s.Blueprints name ≠ none)) ∧
      (∀ stored,
        (if (s.Workspace name).isSome then s.Workspace name else s.Blueprints name) =
            some stored →
          (getBlueprint s name changed).1.1 = true ∧
            (getBlueprint s name changed).1.2.1 =
              { stored with Packages := some (stored.Packages.getD []),
                            Modules := some (stored.Modules.getD []) } ∧
            (getBlueprint s name changed).1.2.1.Packages ≠ none ∧
            (getBlueprint s name changed).1.2.1.Modules ≠ none ∧
            (stored.Packages ≠ none →
              (getBlueprint s name changed).1.2.1.Packages = stored.Packages) ∧
            (stored.Modules ≠ none →
              (getBlueprint s name changed).1.2.1.Modules = stored.Modules)) ∧
      ((getBlueprintCommitted s name).1.1 = true ↔ s.Blueprints name ≠ none) ∧
      (∀ stored, s.Blueprints name = some stored →
        (getBlueprintCommitted s name).1.1 = true ∧
          (getBlueprintCommitted s name).1.2 =
            { stored with Packages := some (stored.Packages.getD []),
                          Modules := some (stored.Modules.getD []) } ∧
          (getBlueprintCommitted s name).1.2.Packages ≠ none ∧
          (getBlueprintCommitted s name).1.2.Modules ≠ none ∧
          (stored.Packages ≠ none →
            (getBlueprintCommitted s name).1.2.Packages = stored.Packages) ∧
          (stored.Modules ≠ none →
            (getBlueprintCommitted s name).1.2.Modules = stored.Modules)) ∧
      (getBlueprint s name changed).2 = s ∧ (getBlueprintCommitted s name).2 = s := by
  refine ⟨?_, ?_, ?_, ?_, ?_, ?_⟩
  · unfold getBlueprint
    simp only
    cases hw : s.Workspace name with
    | some w => simp
    | none =>
      cases hb : s.Blueprints name with
      | some b => simp
      | none => simp
  · intro stored hstored
    unfold getBlueprint
    simp only [hstored]
    obtain ⟨n, d, v, ps, ms⟩ := stored
    cases ps <;> cases ms <;> simp
  · unfold getBlueprintCommitted
    cases hb : s.Blueprints name with
    | some b => simp
    | none => simp
  · intro stored hstored
    unfold getBlueprintCommitted
    simp only [hstored]
    obtain ⟨n, d, v, ps, ms⟩ := stored
    cases ps <;> cases ms <;> simp
  · unfold getBlueprint
    simp only
    cases (if (s.Workspace name).isSome then s.Workspace name else s.Blueprints name) <;> rfl
  · unfold getBlueprintCommitted
    cases s.Blueprints name <;> rfl

theorem C29_non_nil_lists_witness :
    (shadowedStore.Workspace "base" = some httpdBlueprint ∧
        shadowedStore.Blueprints "base" = some bareBlueprint) ∧
      ((getBlueprint shadowedStore "base" (some false)).1.1 = true ∧
        (getBlueprint shadowedStore "base" (some false)).1.2.1 =
          { httpdBlueprint with Modules := some [] }) ∧
      ((getBlueprintCommitted shadowedStore "base").1.1 = true ∧
        (getBlueprintCommitted shadowedStore "base").1.2 =
          { bareBlueprint with Packages := some [], Modules := some [] }) :=
  ⟨⟨by decide, by decide⟩,
    ⟨((C29_non_nil_lists shadowedStore "base" (some false)).2.1 httpdBlueprint
        (by decide)).1,
      ((C29_non_nil_lists shadowedStore "base" (some false)).2.1 httpdBlueprint
        (by decide)).2.1⟩,
    ⟨((C29_non_nil_lists shadowedStore "base" (some false)).2.2.2.1 bareBlueprint
        (by decide)).1,
      ((C29_non_nil_lists shadowedStore "base" (some false)).2.2.2.1 bareBlueprint
        (by decide)).2.1⟩⟩

end weldr

namespace upload

/-! ## Requests, targets and responses -/

theorem targetsToUploadResponses_local {t : Target} (ht : t.isLocal = true)
    (targets : List Target) :
    targetsToUploadResponses (t :: targets) = targetsToUploadResponses targets := by
  obtain ⟨u, i, n, c, s, o⟩ := t
  cases o with
  | none => cases ht
  | some o => cases o <;> first | rfl | cases ht

theorem targetsToUploadResponses_cons {t : Target} (ht : t.isLocal = false)
    (targets : List Target) :
    ∃ r, targetsToUploadResponses [t] = [r] ∧ r.Uuid = t.Uuid ∧ r.ImageName = t.ImageName ∧
      r.Status = t.Status ∧
      targetsToUploadResponses (t :: targets) = r :: targetsToUploadResponses targets := by
  obtain ⟨u, i, n, c, s, o⟩ := t
  cases o with
  | none => exact ⟨_, rfl, rfl, rfl, rfl, rfl⟩
  | some o =>
    cases o with
    | localOptions o => cases ht
    | awsOptions o => exact ⟨_, rfl, rfl, rfl, rfl, rfl⟩
    | azureOptions o => exact ⟨_, rfl, rfl, rfl, rfl, rfl⟩
    | gcpOptions o => exact ⟨_, rfl, rfl, rfl, rfl, rfl⟩

/-- C39: upload request and response round trip. For every upload request
with AWS or Azure settings and every image type of which the distribution
gives the file name, `uploadRequestToTarget` returns a target, and
`targetsToUploadResponses` of that single target is exactly one response: its
provider name is the provider of the settings of the request, its image name
is the image name of the request, its status is WAITING, and its settings are
the settings of the request. In a list of targets a local target contributes no
response, every other target contributes one response, with its id and image
name, and the responses come in the order of the targets. -/
theorem C39_upload_round_trip (u : uploadRequest) (settings : uploadSettings)
    (filenameFromType : String → Option (String × String)) (imageType : String)
    (newUuid : UUID) (now : Time) (filename mime : String)
    (hs : u.Settings = some settings)
    (hf : filenameFromType imageType = some (filename, mime)) :
    (∃ t, uploadRequestToTarget u filenameFromType imageType newUuid now = some t ∧
        targetsToUploadResponses [t] =
          [{ Uuid := newUuid, Status := store.ImageBuildState.IBWaiting,
             ProviderName := settings.provider, ImageName := u.ImageName,
             CreationTime := now, Settings := some settings }]) ∧
      (∀ (t : Target) (targets : List Target),
        (t.isLocal = true →
          targetsToUploadResponses (t :: targets) = targetsToUploadResponses targets) ∧
        (t.isLocal = false →
          ∃ r, targetsToUploadResponses [t] = [r] ∧
            targetsToUploadResponses (t :: targets) = r :: targetsToUploadResponses targets)) ∧
      ∀ targets : List Target,
        (targetsToUploadResponses targets).map (fun r => (r.Uuid, r.ImageName)) =
          (targets.filter (fun t => !t.isLocal)).map (fun t => (t.Uuid, t.ImageName)) := by
  refine ⟨?_, ?_, ?_⟩
  · cases settings with
    | aws o =>
      have h : uploadRequestToTarget u filenameFromType imageType newUuid now =
          some { Uuid := newUuid, ImageName := u.ImageName, Name := "org.osbuild.aws",
                 Created := now, Status := store.ImageBuildState.IBWaiting,
                 Options := some (TargetOptions.awsOptions
                   { Filename := filename, Region := o.Region, AccessKeyID := o.AccessKeyID,
                     SecretAccessKey := o.SecretAccessKey, Bucket := o.Bucket,
                     Key := o.Key }) } := by
        simp only [uploadRequestToTarget, hf, hs]
      exact ⟨_, h, rfl⟩
    | azure o =>
      have h : uploadRequestToTarget u filenameFromType imageType newUuid now =
          some { Uuid := newUuid, ImageName := u.ImageName, Name := "org.osbuild.azure",
                 Created := now, Status := store.ImageBuildState.IBWaiting,
                 Options := some (TargetOptions.azureOptions
                   { Filename := filename, Account := o.Account, AccessKey := o.AccessKey,
                     Container := o.Container }) } := by
        simp only [uploadRequestToTarget, hf, hs]
      exact ⟨_, h, rfl⟩
  · intro t targets
    constructor
    · intro ht
      exact targetsToUploadResponses_local ht targets
    · intro ht
      obtain ⟨r, h1, -, -, -, h2⟩ := targetsToUploadResponses_cons ht targets
      exact ⟨r, h1, h2⟩
  · intro targets
    induction targets with
    | nil => rfl
    | cons t targets ih =>
      cases ht : t.isLocal with
      | true =>
        rw [targetsToUploadResponses_local ht, ih]
        simp [ht]
      | false =>
        obtain ⟨r, -, hu, hi, -, h2⟩ := targetsToUploadResponses_cons ht targets
        rw [h2]
        simp [ht, ih, hu, hi]

theorem C39_upload_round_trip_witness :
    (awsRequest.Settings =
          some (uploadSettings.aws
            { Region := "eu-central-1", AccessKeyID := "id", SecretAccessKey := "secret",
              Bucket := "bucket", Key := "key" }) ∧
        amiFilename "ami" = some ("image.vhdx", "application/octet-stream")) ∧
      ∃ t, uploadRequestToTarget awsRequest amiFilename "ami" 7 1000 = some t ∧
        targetsToUploadResponses [t] =
          [{ Uuid := 7, Status := store.ImageBuildState.IBWaiting, ProviderName := "aws",
             ImageName := "my-image", CreationTime := 1000,
             Settings := some (uploadSettings.aws
               { Region := "eu-central-1", AccessKeyID := "id", SecretAccessKey := "secret",
                 Bucket := "bucket", Key := "key" }) }] :=
  ⟨⟨rfl, by decide⟩,
    (C39_upload_round_trip awsRequest
      (uploadSettings.aws
        { Region := "eu-central-1", AccessKeyID := "id", SecretAccessKey := "secret",
          Bucket := "bucket", Key := "key" })
      amiFilename "ami" 7 1000 "image.vhdx" "application/octet-stream" rfl (by decide)).1⟩

end upload

namespace worker

/-! ## Polling for cancellation -/

/-- C40: cancellation polling fails safe. `JobCanceled` returns false exactly
when the GET request succeeds with the status 200 and a body that decodes to a
response whose field `canceled` is false; it returns true on an error of the
request, on every other status, and on a body that does not decode. -/
theorem C40_cancellation_fails_safe (c : Client) (get : String → Option Response)
    (decode : List Nat → Option jobResponse) (jobID : UUID) :
    (c.JobCanceled get decode jobID = false ↔
        ∃ response jr, get (c.createURL ("/job-queue/v1/jobs/" ++ jobID)) = some response ∧
          response.StatusCode = 200 ∧ decode response.Body = some jr ∧ jr.Canceled = false) ∧
      (get (c.createURL ("/job-queue/v1/jobs/" ++ jobID)) = none →
        c.JobCanceled get decode jobID = true) ∧
      (∀ response, get (c.createURL ("/job-queue/v1/jobs/" ++ jobID)) = some response →
        response.StatusCode ≠ 200 → c.JobCanceled get decode jobID = true) ∧
      (∀ response, get (c.createURL ("/job-queue/v1/jobs/" ++ jobID)) = some response →
        decode response.Body = none → c.JobCanceled get decode jobID = true) := by
  unfold Client.JobCanceled StatusOK
  cases hg : get (c.createURL ("/job-queue/v1/jobs/" ++ jobID)) with
  | none => simp
  | some response =>
    by_cases hst : response.StatusCode = 200
    · cases hd : decode response.Body with
      | none => simp [hst, hd]
      | some jr => simp [hst, hd]
    · simp [hst]

end worker

namespace osbuildworker

/-! ## Reporting the result of a job -/

/-- C31: worker result reporting. When `RunJob` returns an error, the update
of the job has the status FAILED and a non-nil result whose flag `Success` is
false: the result of the osbuild error when the error is an osbuild error with
a result, the result `RunJob` returned when the error is another error and
there is a result, in both cases with `Success` set to false. When `RunJob`
returns no error, the update has the status FINISHED and the result of
`RunJob`. This is the update a round of the loop sends when it got a job. -/
theorem C31_worker_result_reporting (result : Option Result) (err : Option JobError) :
    (∀ e, err = some e →
        (jobUpdate result err).1 = store.ImageBuildState.IBFailed ∧
          ∃ r, (jobUpdate result err).2 = some r ∧ r.Success = false ∧
            (∀ own, e = JobError.OSBuildError (some own) →
              r = { own with Success := false }) ∧
            (∀ m own, e = JobError.other m → result = some own →
              r = { own with Success := false })) ∧
      (err = none → jobUpdate result err = (store.ImageBuildState.IBFinished, result)) ∧
      ∀ r : Round, r.requestJob = true → (round r).2 = some (jobUpdate r.result r.err) := by
  refine ⟨?_, ?_, ?_⟩
  · intro e he
    subst he
    cases e with
    | OSBuildError own =>
      cases own with
      | none =>
        refine ⟨rfl, _, rfl, rfl, ?_, ?_⟩
        · intro own h
          cases h
        · intro m own h
          cases h
      | some own =>
        refine ⟨rfl, _, rfl, rfl, ?_, ?_⟩
        · intro own1 h
          cases h
          rfl
        · intro m own1 h
          cases h
    | other m =>
      cases result with
      | none =>
        refine ⟨rfl, _, rfl, rfl, ?_, ?_⟩
        · intro own h
          cases h
        · intro m1 own _ h
          cases h
      | some own =>
        refine ⟨rfl, _, rfl, rfl, ?_, ?_⟩
        · intro own1 h
          cases h
        · intro m1 own1 _ h
          cases h
          rfl
  · intro he
    subst he
    rfl
  · intro r hr
    unfold round
    rw [if_neg (by rw [hr]; decide)]
    split <;> rfl

/-! ## The exit status of the worker -/

/-- C32 (counterexample): started with `-unix` and an address but without
`CACHE_DIRECTORY`, the worker exits with the status 1; so it does when
`createTLSConfig` fails, when `RequestJob` fails and when `job.Update` fails.
None of these is the status 0. -/
theorem C32_fatal_errors_exit_with_one :
    startup { unix := true, address := "/run/worker.sock", cacheDirectory := none,
              tlsConfig := true, newClient := true } = some 1 ∧
      startup { unix := false, address := "composer:8700", cacheDirectory := some "/var/cache",
                tlsConfig := false, newClient := true } = some 1 ∧
      (round { requestJob := false, result := none, err := none, update := true }).1 =
        some 1 ∧
      (round { requestJob := true, result := some { Success := true, Output := [] },
               err := none, update := false }).1 = some 1 := by
  decide

/-- C32 (amended): exit status of the worker. `WatchJob` ends the process with
the status 0, and only with it: at the first poll that finds the job canceled
or fails to fetch the status of the job. Without an address `main` prints the
usage and exits with 0. Every fatal error of `main` goes through `log.Fatal`
or `log.Fatalf`, and the process exits with the status 1: a missing
`CACHE_DIRECTORY`, a failure of the TLS configuration or of the creation of
the client, a failure to request a job, and a failure to report the result of
a job. -/
theorem C32_exit_status (polls : List (Except String Bool)) (env : Environment) (r : Round) :
    (∀ code, WatchJob polls = some code → code = 0) ∧
      (WatchJob polls = some 0 ↔ ∃ p ∈ polls, p ≠ .ok false) ∧
      (env.address = "" → startup env = some 0) ∧
      (env.address ≠ "" → env.cacheDirectory = none → startup env = some 1) ∧
      (env.address ≠ "" → env.cacheDirectory ≠ none → env.unix = false →
        env.tlsConfig = false ∨ env.newClient = false → startup env = some 1) ∧
      (r.requestJob = false → (round r).1 = some 1) ∧
      (r.requestJob = true → r.update = false → (round r).1 = some 1) ∧
      (r.requestJob = true → r.update = true → (round r).1 = none) := by
  refine ⟨?_, ?_, ?_, ?_, ?_, ?_, ?_, ?_⟩
  · induction polls with
    | nil => intro code h; cases h
    | cons p polls ih =>
      intro code h
      rcases p with m | b
      · simp only [WatchJob, Option.some.injEq] at h
        exact h.symm
      · cases b with
        | true =>
          simp only [WatchJob, Option.some.injEq] at h
          exact h.symm
        | false => exact ih code h
  · induction polls with
    | nil => simp [WatchJob]
    | cons p polls ih =>
      rcases p with m | b
      · simp [WatchJob]
      · cases b with
        | true => simp [WatchJob]
        | false => simp [WatchJob, ih]
  · intro h
    simp [startup, h]
  · intro h1 h2
    simp [startup, h1, h2, logFatal]
  · intro h1 h2 h3 h4
    rcases h4 with h4 | h4
    · simp [startup, h1, h2, h3, h4, logFatal]
    · simp only [startup, h1, h2, h3, h4, if_false, logFatal]
      simp
  · intro h
    simp [round, h, logFatal]
  · intro h1 h2
    simp [round, h1, h2, logFatal]
  · intro h1 h2
    simp [round, h1, h2]

end osbuildworker

namespace osbuildpipeline

/-! ## The packages handed to the dependency solver -/

/-- C33: package spec formatting. The entry for a package of the blueprint is
its name when the version is empty, the name followed by `-*-*.*` when the
version is `*`, and the name, a dash and the version otherwise. When
`d.BasePackages` returns no error, the list handed to the dependency solver is
the base packages of the distribution followed by these entries, one for each
package of the blueprint, in the order of the blueprint. -/
theorem C33_package_spec_formatting (pkg : Package) (blueprintPackages : List Package)
    (pkgs exclude_pkgs : List String) :
    packageSpec pkg =
        (if pkg.Version = "" then pkg.Name
         else if pkg.Version = "*" then pkg.Name ++ "-*-*.*"
         else pkg.Name ++ "-" ++ pkg.Version) ∧
      depsolvePackages blueprintPackages (some (pkgs, exclude_pkgs)) =
        some (pkgs ++ blueprintPackages.map packageSpec) ∧
      (pkgs ++ blueprintPackages.map packageSpec).length =
        pkgs.length + blueprintPackages.length ∧
      ∀ (i : Nat) (hi : i < blueprintPackages.length),
        (pkgs ++ blueprintPackages.map packageSpec)[pkgs.length + i]? =
          some (packageSpec (blueprintPackages.get ⟨i, hi⟩)) := by
  refine ⟨?_, rfl, by simp, ?_⟩
  · unfold packageSpec
    by_cases h1 : pkg.Version = ""
    · simp [h1]
    · by_cases h2 : pkg.Version = "*"
      · simp [h2]
      · simp [h1, h2, String.append_assoc]
  · intro i hi
    rw [List.getElem?_append_right (Nat.le_add_right _ _)]
    simp [hi]

end osbuildpipeline
